import Mathlib

/-!
# go-shodan: the request core of `shodan/shodan.go`

A shallow embedding of `getErrorFromResponse`, `buildURL`, `sendRequest`,
`parseResponse`, `executeRequest` and `executeStreamRequest`, together with the
parts of the Go standard library they call (`unicode/utf8`, `strings.TrimSpace`,
`encoding/json` for the error payload, `bufio.Reader.ReadBytes`, `io.Copy`,
`net/url` query handling).

Conventions
* a Go `[]byte` or `string` is a `List Nat` whose elements are byte values (below 256);
* a Go `error` is an `Option GoError`, `none` being `nil`;
* effects on the response body, the byte sink and the channel are recorded as a
  list of `Event`s in program order.
-/

namespace Shodan

/-! ## Bytes and UTF-8 (`unicode/utf8`) -/

/-- A Go byte string: every element is a byte value. -/
abbrev Bytes := List Nat

def RuneError : Nat := 0xFFFD
def RuneSelf : Nat := 0x80
def MaxRune : Nat := 0x10FFFF
def UTFMax : Nat := 4

/-- Entry of the `first` table of `unicode/utf8` for a lead byte, as the size of the
sequence and the accepted range `[lo, hi]` of its second byte (`acceptRanges`). ASCII
bytes (`as`) have size 1, invalid lead bytes (`xx`) size 0. -/
def first (p0 : Nat) : Nat × Nat × Nat :=
  if p0 < 0x80 then (1, 0, 0)
  else if p0 < 0xC2 then (0, 0, 0)
  else if p0 < 0xE0 then (2, 0x80, 0xBF)
  else if p0 = 0xE0 then (3, 0xA0, 0xBF)
  else if p0 < 0xED then (3, 0x80, 0xBF)
  else if p0 = 0xED then (3, 0x80, 0x9F)
  else if p0 < 0xF0 then (3, 0x80, 0xBF)
  else if p0 = 0xF0 then (4, 0x90, 0xBF)
  else if p0 < 0xF4 then (4, 0x80, 0xBF)
  else if p0 = 0xF4 then (4, 0x80, 0x8F)
  else (0, 0, 0)

/-- Continuation byte test: `locb <= b && b <= hicb`. -/
def isCont (b : Nat) : Bool := decide (0x80 ≤ b) && decide (b ≤ 0xBF)

/-- The Go function `utf8.DecodeRune`: the first rune of `p` and its width in bytes;
`(RuneError, 0)` on empty input and `(RuneError, 1)` on an invalid encoding. -/
def DecodeRune (p : Bytes) : Nat × Nat :=
  match p with
  | [] => (RuneError, 0)
  | p0 :: rest =>
    let x := first p0
    if x.1 = 1 then (p0, 1)
    else if x.1 = 0 then (RuneError, 1)
    else if rest.length + 1 < x.1 then (RuneError, 1)
    else
      let b1 := rest.getD 0 0
      if b1 < x.2.1 ∨ x.2.2 < b1 then (RuneError, 1)
      else if x.1 ≤ 2 then ((p0 % 32) * 64 + b1 % 64, 2)
      else
        let b2 := rest.getD 1 0
        if isCont b2 = false then (RuneError, 1)
        else if x.1 ≤ 3 then (((p0 % 16) * 64 + b1 % 64) * 64 + b2 % 64, 3)
        else
          let b3 := rest.getD 2 0
          if isCont b3 = false then (RuneError, 1)
          else ((((p0 % 8) * 64 + b1 % 64) * 64 + b2 % 64) * 64 + b3 % 64, 4)

/-- The Go function `utf8.RuneStart`: `b` is not a continuation byte. -/
def RuneStart (b : Nat) : Bool := b / 64 != 2

/-- The backwards scan of `utf8.DecodeLastRune`: starting below `start`, go down to
`lim` looking for a byte that can start a rune; `fuel` bounds the number of steps. -/
def lastRuneStart (p : Bytes) (lim : Nat) : Nat → Nat → Nat
  | 0, start => start
  | fuel + 1, start =>
    if start ≤ lim then lim
    else if RuneStart (p.getD (start - 1) 0) then start - 1
    else lastRuneStart p lim fuel (start - 1)

/-- The Go function `utf8.DecodeLastRune`: the last rune of `p` and its width. -/
def DecodeLastRune (p : Bytes) : Nat × Nat :=
  let «end» := p.length
  if «end» = 0 then (RuneError, 0)
  else
    let r := p.getD («end» - 1) 0
    if r < RuneSelf then (r, 1)
    else
      let lim := «end» - UTFMax
      let start := lastRuneStart p lim UTFMax («end» - 1)
      let (r, size) := DecodeRune (p.drop start)
      if start + size != «end» then (RuneError, 1) else (r, size)

/-- The Go function `utf8.EncodeRune` (returning the bytes written). -/
def EncodeRune (r : Nat) : Bytes :=
  if r ≤ 0x7F then [r]
  else if r ≤ 0x7FF then [0xC0 + r / 64, 0x80 + r % 64]
  else if r > MaxRune ∨ (0xD800 ≤ r ∧ r ≤ 0xDFFF) then [0xEF, 0xBF, 0xBD]
  else if r ≤ 0xFFFF then [0xE0 + r / 4096, 0x80 + r / 64 % 64, 0x80 + r % 64]
  else [0xF0 + r / 262144, 0x80 + r / 4096 % 64, 0x80 + r / 64 % 64, 0x80 + r % 64]

/-- The bytes of a string literal (its UTF-8 encoding). -/
def ofString (s : String) : Bytes := s.toList.flatMap (fun c => EncodeRune c.toNat)

/-! ## `unicode.IsSpace` and `strings.TrimSpace` -/

/-- The Go function `unicode.IsSpace`: the Unicode White_Space property. -/
def IsSpace (r : Nat) : Bool :=
  if r ≤ 0xFF then
    r == 0x09 || r == 0x0A || r == 0x0B || r == 0x0C || r == 0x0D || r == 0x20
      || r == 0x85 || r == 0xA0
  else
    r == 0x1680 || (decide (0x2000 ≤ r) && decide (r ≤ 0x200A)) || r == 0x2028 || r == 0x2029
      || r == 0x202F || r == 0x205F || r == 0x3000

/-- The table `asciiSpace` of package `strings`. -/
def asciiSpace (c : Nat) : Bool :=
  c == 0x09 || c == 0x0A || c == 0x0B || c == 0x0C || c == 0x0D || c == 0x20

/-- Loop of `strings.indexFunc`: ranging over the runes of `s` (which starts at byte
offset `i`), the offset of the first rune `r` with `f r = truth`. -/
def indexFuncFrom (f : Nat → Bool) (truth : Bool) : Nat → Nat → Bytes → Option Nat
  | 0, _, _ => none
  | fuel + 1, i, s =>
    match s with
    | [] => none
    | _ :: _ =>
      let (r, size) := DecodeRune s
      if f r == truth then some i
      else indexFuncFrom f truth fuel (i + size) (s.drop size)

/-- The Go function `strings.indexFunc`; `none` stands for `-1`. -/
def indexFunc (s : Bytes) (f : Nat → Bool) (truth : Bool) : Option Nat :=
  indexFuncFrom f truth s.length 0 s

/-- Loop of `strings.lastIndexFunc`, from byte offset `i` downwards. -/
def lastIndexFuncFrom (f : Nat → Bool) (truth : Bool) (s : Bytes) : Nat → Nat → Option Nat
  | 0, _ => none
  | fuel + 1, i =>
    if i = 0 then none
    else
      let (r, size) := DecodeLastRune (s.take i)
      let i := i - size
      if f r == truth then some i
      else lastIndexFuncFrom f truth s fuel i

/-- The Go function `strings.lastIndexFunc`; `none` stands for `-1`. -/
def lastIndexFunc (s : Bytes) (f : Nat → Bool) (truth : Bool) : Option Nat :=
  lastIndexFuncFrom f truth s s.length s.length

/-- The Go function `strings.TrimLeftFunc`. -/
def TrimLeftFunc (s : Bytes) (f : Nat → Bool) : Bytes :=
  match indexFunc s f false with
  | none => []
  | some i => s.drop i

/-- The Go function `strings.TrimRightFunc`. -/
def TrimRightFunc (s : Bytes) (f : Nat → Bool) : Bytes :=
  match lastIndexFunc s f false with
  | some i =>
    if s.getD i 0 ≥ RuneSelf then s.take (i + (DecodeRune (s.drop i)).2)
    else s.take (i + 1)
  | none => s.take 0

/-- The Go function `strings.TrimFunc`. -/
def TrimFunc (s : Bytes) (f : Nat → Bool) : Bytes :=
  TrimRightFunc (TrimLeftFunc s f) f

/-- Second loop of `strings.TrimSpace`: `s` is `s[start:]`, `stop` counts down from
its length while the last byte is an ASCII space; a non-ASCII byte hands over to
`TrimRightFunc`. -/
def trimSpaceStop (s : Bytes) : Nat → Bytes
  | 0 => s.take 0
  | stop + 1 =>
    let c := s.getD stop 0
    if c ≥ RuneSelf then TrimRightFunc (s.take (stop + 1)) IsSpace
    else if asciiSpace c then trimSpaceStop s stop
    else s.take (stop + 1)

/-- First loop of `strings.TrimSpace`: skip leading ASCII spaces; a non-ASCII byte
hands the rest over to `TrimFunc`. -/
def trimSpaceStart : Bytes → Bytes
  | [] => []
  | c :: rest =>
    if c ≥ RuneSelf then TrimFunc (c :: rest) IsSpace
    else if asciiSpace c then trimSpaceStart rest
    else trimSpaceStop (c :: rest) (rest.length + 1)

/-- The Go function `strings.TrimSpace`. -/
def TrimSpace (s : Bytes) : Bytes := trimSpaceStart s

/-! ## `encoding/json`: validation, string unquoting, and decoding into the error payload -/

/-- A parsed JSON value; strings are unquoted, numbers keep their text. -/
inductive JVal
  | null
  | bool (b : Bool)
  | number (raw : Bytes)
  | string (s : Bytes)
  | array (xs : List JVal)
  | object (kvs : List (Bytes × JVal))

/-- The scanner's `isSpace`: space, tab, carriage return, newline. -/
def jsonSpace (c : Nat) : Bool := c == 0x20 || c == 0x09 || c == 0x0D || c == 0x0A

def skipSpace : Bytes → Bytes
  | [] => []
  | c :: rest => if jsonSpace c then skipSpace rest else c :: rest

def isDigit (c : Nat) : Bool := decide (0x30 ≤ c) && decide (c ≤ 0x39)

def isHex (c : Nat) : Bool :=
  isDigit c || (decide (0x61 ≤ c) && decide (c ≤ 0x66)) || (decide (0x41 ≤ c) && decide (c ≤ 0x46))

def hexVal (c : Nat) : Nat :=
  if isDigit c then c - 0x30 else if 0x61 ≤ c then c - 0x61 + 10 else c - 0x41 + 10

/-- Scanner states `stateInString`, `stateInStringEsc`, `stateInStringEscU…`: the raw
text of a string literal after its opening quote, up to the closing quote, and the
input after it. `esc` is the number of bytes of a pending escape still expected:
`5` right after a backslash, `4 … 1` for the hex digits of `\u`. -/
def scanString : Nat → Bytes → Bytes → Option (Bytes × Bytes)
  | _, _, [] => none
  | 0, acc, c :: rest =>
    if c == 0x22 then some (acc.reverse, rest)
    else if c == 0x5C then scanString 5 (c :: acc) rest
    else if c < 0x20 then none
    else scanString 0 (c :: acc) rest
  | 5, acc, c :: rest =>
    if c == 0x62 || c == 0x66 || c == 0x6E || c == 0x72 || c == 0x74 || c == 0x5C
        || c == 0x2F || c == 0x22 then scanString 0 (c :: acc) rest
    else if c == 0x75 then scanString 4 (c :: acc) rest
    else none
  | esc + 1, acc, c :: rest =>
    if isHex c then scanString esc (c :: acc) rest else none

/-- The helper `getu4` of `encoding/json`: the code unit of a leading `\uXXXX`. -/
def getu4 (s : Bytes) : Option Nat :=
  match s with
  | 0x5C :: 0x75 :: a :: b :: c :: d :: _ =>
    if isHex a && isHex b && isHex c && isHex d then
      some (((hexVal a * 16 + hexVal b) * 16 + hexVal c) * 16 + hexVal d)
    else none
  | _ => none

/-- The Go function `utf16.IsSurrogate`. -/
def IsSurrogate (r : Nat) : Bool := decide (0xD800 ≤ r) && decide (r < 0xE000)

/-- The Go function `utf16.DecodeRune`: the code point of a surrogate pair, or
U+FFFD when the pair is not valid. -/
def utf16DecodeRune (r1 r2 : Nat) : Nat :=
  if 0xD800 ≤ r1 && r1 < 0xDC00 && 0xDC00 ≤ r2 && r2 < 0xE000 then
    (r1 - 0xD800) * 1024 + (r2 - 0xDC00) + 0x10000
  else RuneError

/-- Main loop of `unquoteBytes` on the text between the quotes: escapes are
replaced, and bytes that are not valid UTF-8 are coerced to U+FFFD. -/
def unquoteLoop : Nat → Bytes → Bytes → Option Bytes
  | 0, _, _ => none
  | _ + 1, acc, [] => some acc
  | fuel + 1, acc, c :: rest =>
    if c == 0x5C then
      match rest with
      | [] => none
      | e :: rest2 =>
        if e == 0x22 || e == 0x5C || e == 0x2F || e == 0x27 then unquoteLoop fuel (acc ++ [e]) rest2
        else if e == 0x62 then unquoteLoop fuel (acc ++ [0x08]) rest2
        else if e == 0x66 then unquoteLoop fuel (acc ++ [0x0C]) rest2
        else if e == 0x6E then unquoteLoop fuel (acc ++ [0x0A]) rest2
        else if e == 0x72 then unquoteLoop fuel (acc ++ [0x0D]) rest2
        else if e == 0x74 then unquoteLoop fuel (acc ++ [0x09]) rest2
        else if e == 0x75 then
          match getu4 (c :: rest) with
          | none => none
          | some rr =>
            let r := rest.drop 5
            if IsSurrogate rr then
              let dec := utf16DecodeRune rr ((getu4 r).getD RuneError)
              if (getu4 r).isSome && dec != RuneError then
                unquoteLoop fuel (acc ++ EncodeRune dec) (r.drop 6)
              else unquoteLoop fuel (acc ++ EncodeRune RuneError) r
            else unquoteLoop fuel (acc ++ EncodeRune rr) r
        else none
    else if c == 0x22 || c < 0x20 then none
    else if c < RuneSelf then unquoteLoop fuel (acc ++ [c]) rest
    else
      let (rr, size) := DecodeRune (c :: rest)
      unquoteLoop fuel (acc ++ EncodeRune rr) (rest.drop (size - 1))

/-- The function `unquoteBytes` of `encoding/json`, applied to the text between
the quotes of a literal. -/
def unquoteBytes (raw : Bytes) : Option Bytes := unquoteLoop (raw.length + 1) [] raw

/-- Digits of a number: the input split after its leading run of digits. -/
def spanDigits : Bytes → Bytes × Bytes
  | [] => ([], [])
  | c :: rest =>
    if isDigit c then let (d, r) := spanDigits rest; (c :: d, r) else ([], c :: rest)

/-- Scanner states `stateNeg … stateE0`: a number literal,
`-? (0 | [1-9][0-9]*) (. [0-9]+)? ([eE] [+-]? [0-9]+)?`, and the input after it. -/
def scanNumber (s : Bytes) : Option (Bytes × Bytes) :=
  let (sign, s1) := match s with
    | 0x2D :: r => ([0x2D], r)
    | _ => ([], s)
  let intPart : Option (Bytes × Bytes) := match s1 with
    | 0x30 :: r => some ([0x30], r)
    | c :: r => if isDigit c then let (d, r2) := spanDigits r; some (c :: d, r2) else none
    | [] => none
  match intPart with
  | none => none
  | some (ip, s2) =>
    let frac : Option (Bytes × Bytes) := match s2 with
      | 0x2E :: r =>
        let (d, r2) := spanDigits r
        if d.isEmpty then none else some (0x2E :: d, r2)
      | _ => some ([], s2)
    match frac with
    | none => none
    | some (fp, s3) =>
      let exp : Option (Bytes × Bytes) :=
        match s3 with
        | e :: r =>
          if e == 0x65 || e == 0x45 then
            let (sg, r1) := match r with
              | 0x2B :: t => ([0x2B], t)
              | 0x2D :: t => ([0x2D], t)
              | _ => ([], r)
            let (d, r2) := spanDigits r1
            if d.isEmpty then none else some (e :: sg ++ d, r2)
          else some ([], s3)
        | [] => some ([], s3)
      match exp with
      | none => none
      | some (ep, s4) => some (sign ++ ip ++ fp ++ ep, s4)

/-- The scanner's nesting limit, `maxNestingDepth`. -/
def maxNestingDepth : Nat := 10000

/-- Strip `lit` from the front of `s`. -/
def stripLit (lit s : Bytes) : Option Bytes :=
  if lit.isPrefixOf s then some (s.drop lit.length) else none

mutual
/-- One JSON value at the head of the input (after optional white space), and the
input after it; `depth` counts the enclosing arrays and objects. -/
def parseValue : Nat → Nat → Bytes → Option (JVal × Bytes)
  | 0, _, _ => none
  | fuel + 1, depth, s =>
    match skipSpace s with
    | [] => none
    | c :: rest =>
      if c == 0x7B then
        if depth + 1 > maxNestingDepth then none
        else
          match skipSpace rest with
          | 0x7D :: r => some (JVal.object [], r)
          | r =>
            match parseMembers fuel (depth + 1) r with
            | some (kvs, r2) => some (JVal.object kvs, r2)
            | none => none
      else if c == 0x5B then
        if depth + 1 > maxNestingDepth then none
        else
          match skipSpace rest with
          | 0x5D :: r => some (JVal.array [], r)
          | r =>
            match parseElements fuel (depth + 1) r with
            | some (xs, r2) => some (JVal.array xs, r2)
            | none => none
      else if c == 0x22 then
        match scanString 0 [] rest with
        | some (raw, r) =>
          match unquoteBytes raw with
          | some str => some (JVal.string str, r)
          | none => none
        | none => none
      else if c == 0x2D || isDigit c then
        match scanNumber (c :: rest) with
        | some (raw, r) => some (JVal.number raw, r)
        | none => none
      else if c == 0x74 then (stripLit [0x72, 0x75, 0x65] rest).map (fun r => (JVal.bool true, r))
      else if c == 0x66 then
        (stripLit [0x61, 0x6C, 0x73, 0x65] rest).map (fun r => (JVal.bool false, r))
      else if c == 0x6E then (stripLit [0x75, 0x6C, 0x6C] rest).map (fun r => (JVal.null, r))
      else none
/-- The elements of a non-empty array, up to and including the closing bracket. -/
def parseElements : Nat → Nat → Bytes → Option (List JVal × Bytes)
  | 0, _, _ => none
  | fuel + 1, depth, s =>
    match parseValue fuel depth s with
    | none => none
    | some (v, r) =>
      match skipSpace r with
      | 0x5D :: r2 => some ([v], r2)
      | 0x2C :: r2 =>
        match parseElements fuel depth r2 with
        | some (vs, r3) => some (v :: vs, r3)
        | none => none
      | _ => none
/-- The members of a non-empty object, up to and including the closing brace. -/
def parseMembers : Nat → Nat → Bytes → Option (List (Bytes × JVal) × Bytes)
  | 0, _, _ => none
  | fuel + 1, depth, s =>
    match skipSpace s with
    | 0x22 :: r =>
      match scanString 0 [] r with
      | none => none
      | some (raw, r1) =>
        match unquoteBytes raw with
        | none => none
        | some key =>
          match skipSpace r1 with
          | 0x3A :: r2 =>
            match parseValue fuel depth r2 with
            | none => none
            | some (v, r3) =>
              match skipSpace r3 with
              | 0x7D :: r4 => some ([(key, v)], r4)
              | 0x2C :: r4 =>
                match parseMembers fuel depth r4 with
                | some (kvs, r5) => some ((key, v) :: kvs, r5)
                | none => none
              | _ => none
          | _ => none
    | _ => none
end

/-- The function `checkValid` followed by the parse: the whole input is one JSON
value surrounded by optional white space. `none` is a `SyntaxError`. -/
def parseJSON (data : Bytes) : Option JVal :=
  match parseValue (data.length + 1) 0 data with
  | some (v, rest) => if (skipSpace rest).isEmpty then some v else none
  | none => none

/-- The function `simpleLetterEqualFold` of `encoding/json`: equal up to the case bit. -/
def simpleLetterEqualFold : Bytes → Bytes → Bool
  | [], [] => true
  | b :: s, c :: t => (b / 64 * 64 + b % 32 == c / 64 * 64 + c % 32) && simpleLetterEqualFold s t
  | _, _ => false

/-- The key selects the field tagged `json:"error"`: an exact match, or else the
case-insensitive fold of the field name. -/
def isErrorField (key : Bytes) : Bool :=
  key == ofString "error" || simpleLetterEqualFold (ofString "error") key

/-- The state of decoding into `struct { Error string }`: the field, and whether
an `UnmarshalTypeError` has been saved. -/
structure ErrorResponse where
  Error : Bytes
  typeError : Bool

/-- The loop of `decodeState.object` over the members of the top-level object: a
string stored into the matching field, `null` leaves it alone, any other value
for it saves an `UnmarshalTypeError`; other keys are skipped. -/
def decodeMembers : List (Bytes × JVal) → ErrorResponse → ErrorResponse
  | [], st => st
  | (key, v) :: kvs, st =>
    if isErrorField key then
      match v with
      | JVal.string str => decodeMembers kvs { st with Error := str }
      | JVal.null => decodeMembers kvs st
      | _ => decodeMembers kvs { st with typeError := true }
    else decodeMembers kvs st

/-- The result of `json.Unmarshal(message, errorResponse)`: `none` when it returns an
error (a syntax error, or a value that does not fit the struct), otherwise the
`Error` field of the struct afterwards. -/
def UnmarshalErrorResponse (data : Bytes) : Option Bytes :=
  match parseJSON data with
  | none => none
  | some JVal.null => some []
  | some (JVal.object kvs) =>
    let st := decodeMembers kvs { Error := [], typeError := false }
    if st.typeError then none else some st.Error
  | some _ => none

/-! ## `net/url`: query values, escaping, and the URL split -/

/-- The unreserved characters that `QueryEscape` leaves alone: letters, digits,
`-`, `_`, `.`, `~` (`shouldEscape(c, encodeQueryComponent)` is false). -/
def unreserved (c : Nat) : Bool :=
  (decide (0x61 ≤ c) && decide (c ≤ 0x7A)) || (decide (0x41 ≤ c) && decide (c ≤ 0x5A))
    || isDigit c || c == 0x2D || c == 0x5F || c == 0x2E || c == 0x7E

/-- One digit of `upperhex = "0123456789ABCDEF"`. -/
def upperhex (n : Nat) : Nat := if n < 10 then 0x30 + n else 0x41 + (n - 10)

/-- The Go function `url.QueryEscape`: space becomes `+`, every byte that is not
unreserved becomes `%XX`. -/
def QueryEscape : Bytes → Bytes
  | [] => []
  | c :: rest =>
    if c == 0x20 then 0x2B :: QueryEscape rest
    else if unreserved c then c :: QueryEscape rest
    else 0x25 :: upperhex (c / 16 % 16) :: upperhex (c % 16) :: QueryEscape rest

/-- The helper `unhex` of `net/url`. -/
def unhex (c : Nat) : Nat := hexVal c

/-- The Go function `url.QueryUnescape`: `%XX` becomes a byte, `+` a space; `none` is
an `EscapeError`. -/
def QueryUnescape : Bytes → Option Bytes
  | [] => some []
  | c :: rest =>
    if c == 0x25 then
      match rest with
      | a :: b :: rest2 =>
        if isHex a && isHex b then
          (QueryUnescape rest2).map (fun r => (unhex a * 16 + unhex b) :: r)
        else none
      | _ => none
    else (QueryUnescape rest).map (fun r => (if c == 0x2B then 0x20 else c) :: r)

/-- The Go type `url.Values`, a `map[string][]string`, kept as an association list
sorted by key (the order in which `Encode` visits it). -/
abbrev Values := List (Bytes × List Bytes)

/-- Byte-wise order of Go strings, `a < b`. -/
def bytesLt : Bytes → Bytes → Bool
  | [], [] => false
  | [], _ :: _ => true
  | _ :: _, [] => false
  | a :: s, b :: t => decide (a < b) || (a == b && bytesLt s t)

/-- The method `Values.Add`: append `value` to the values of `key`. -/
def Values.Add : Values → Bytes → Bytes → Values
  | [], key, value => [(key, [value])]
  | (k, vs) :: rest, key, value =>
    if k == key then (k, vs ++ [value]) :: rest
    else if bytesLt key k then (key, [value]) :: (k, vs) :: rest
    else (k, vs) :: Values.Add rest key value

/-- The method `Values.Get`: the first value of `key`, or the empty string. -/
def Values.Get : Values → Bytes → Bytes
  | [], _ => []
  | (k, vs) :: rest, key => if k == key then vs.headD [] else Values.Get rest key

/-- All values of `key` (the map lookup `v[key]`). -/
def Values.lookup : Values → Bytes → List Bytes
  | [], _ => []
  | (k, vs) :: rest, key => if k == key then vs else Values.lookup rest key

/-- The `key=value` pairs that `Values.Encode` writes, in its order. -/
def Values.pairs : Values → List (Bytes × Bytes)
  | [] => []
  | (k, vs) :: rest => vs.map (fun v => (k, v)) ++ Values.pairs rest

/-- Join encoded pairs with `&`. -/
def encodePairs : List (Bytes × Bytes) → Bytes
  | [] => []
  | [(k, v)] => QueryEscape k ++ 0x3D :: QueryEscape v
  | (k, v) :: rest => QueryEscape k ++ 0x3D :: QueryEscape v ++ 0x26 :: encodePairs rest

/-- The method `Values.Encode`: `key=value` pairs joined by `&`, sorted by key. -/
def Values.Encode (v : Values) : Bytes := encodePairs v.pairs

/-- The Go function `strings.Cut` for a one-byte separator: text before and after
the first `sep`, and whether `sep` occurs. -/
def Cut (sep : Nat) : Bytes → Bytes × Bytes × Bool
  | [] => ([], [], false)
  | c :: rest =>
    if c == sep then ([], rest, true)
    else let (a, b, found) := Cut sep rest; (c :: a, b, found)

/-- Split at every `sep` (the successive `strings.Cut(query, "&")` of `parseQuery`). -/
def splitOn (sep : Nat) : Bytes → List Bytes
  | [] => [[]]
  | c :: rest =>
    if c == sep then [] :: splitOn sep rest
    else match splitOn sep rest with
      | [] => [[c]]
      | p :: ps => (c :: p) :: ps

/-- The body of the loop of `parseQuery` for one `&`-separated piece: pieces with a
semicolon, empty pieces and pieces with a bad escape add nothing. -/
def parseQueryPiece (m : Values) (piece : Bytes) : Values :=
  if piece.contains 0x3B then m
  else if piece.isEmpty then m
  else
    let (key, value, _) := Cut 0x3D piece
    match QueryUnescape key, QueryUnescape value with
    | some k, some v => m.Add k v
    | _, _ => m

/-- The method `URL.Query`: `ParseQuery(u.RawQuery)` with its error dropped. -/
def ParseQuery (query : Bytes) : Values :=
  if query.isEmpty then [] else (splitOn 0x26 query).foldl parseQueryPiece []

/-- The parts of a `url.URL` that `buildURL` can observe. `Hier` is everything
between the scheme and the query (the opaque part, or authority and path) and
`Fragment` the fragment, both in the escaped form in which they are written. -/
structure URL where
  Scheme : Bytes
  Hier : Bytes
  ForceQuery : Bool
  RawQuery : Bytes
  Fragment : Bytes
deriving DecidableEq

def isLetter (c : Nat) : Bool :=
  (decide (0x61 ≤ c) && decide (c ≤ 0x7A)) || (decide (0x41 ≤ c) && decide (c ≤ 0x5A))

/-- Loop of `getScheme` at index `i > 0`: `acc` holds the bytes already seen
(reversed), `raw` the whole input. -/
def getSchemeLoop (raw : Bytes) : Bytes → Bytes → Bytes × Bytes
  | _, [] => ([], raw)
  | acc, c :: rest =>
    if isLetter c then getSchemeLoop raw (c :: acc) rest
    else if isDigit c || c == 0x2B || c == 0x2D || c == 0x2E then getSchemeLoop raw (c :: acc) rest
    else if c == 0x3A then (acc.reverse, rest)
    else ([], raw)

/-- The function `getScheme` of `net/url`: scheme and the text after its colon;
`none` is the error "missing protocol scheme". -/
def getScheme (rawURL : Bytes) : Option (Bytes × Bytes) :=
  match rawURL with
  | [] => some ([], [])
  | c :: rest =>
    if isLetter c then some (getSchemeLoop rawURL [c] rest)
    else if isDigit c || c == 0x2B || c == 0x2D || c == 0x2E then some ([], rawURL)
    else if c == 0x3A then none
    else some ([], rawURL)

/-- Lower case of an ASCII letter; other bytes are unchanged. -/
def lowerByte (c : Nat) : Nat := if 0x41 ≤ c ∧ c ≤ 0x5A then c + 0x20 else c

/-- The Go function `strings.ToLower` on the ASCII letters of a scheme. -/
def toLower (s : Bytes) : Bytes := s.map lowerByte

/-- The function `stringContainsCTLByte` of `net/url`. -/
def stringContainsCTLByte (s : Bytes) : Bool := s.any (fun b => decide (b < 0x20) || b == 0x7F)

/-- The query split of `parse`: a lone trailing `?` sets `ForceQuery` and is cut off;
otherwise the text is cut at its first `?`. The result is the part before the query,
the raw query, and `ForceQuery`. -/
def splitQuery (rest : Bytes) : Bytes × Bytes × Bool :=
  if rest.getLast? == some 0x3F && rest.count 0x3F == 1 then (rest.dropLast, [], true)
  else let (a, b, _) := Cut 0x3F rest; (a, b, false)

/-- The check of `parse` on a relative reference: without a scheme and without a
leading slash, the first path segment must not contain a colon. -/
def firstSegmentHasColon (scheme hier : Bytes) : Bool :=
  !(hier.head? == some 0x2F) && scheme.isEmpty && (Cut 0x2F hier).1.contains 0x3A

/-- The Go function `url.Parse`, as far as `buildURL` observes it: the fragment is cut
at the first `#`, control bytes are refused, the scheme is split off and lowered, the
query is split off, and a relative reference whose first path segment has a colon is
refused. Host, userinfo, path and fragment are kept as written: the escapes that Go
validates and re-writes there are not modelled. `none` is a parse error. -/
def Parse (rawURL : Bytes) : Option URL :=
  let (u, frag, _) := Cut 0x23 rawURL
  if stringContainsCTLByte u then none
  else
    match getScheme u with
    | none => none
    | some (scheme, rest) =>
      let (hier, query, lone) := splitQuery rest
      if firstSegmentHasColon scheme hier then none
      else
        some { Scheme := toLower scheme, Hier := hier, ForceQuery := lone,
               RawQuery := query, Fragment := frag }

/-- The method `URL.String`. -/
def URL.String (u : URL) : Bytes :=
  (if u.Scheme.isEmpty then [] else u.Scheme ++ [0x3A]) ++ u.Hier
    ++ (if u.ForceQuery || !u.RawQuery.isEmpty then 0x3F :: u.RawQuery else [])
    ++ (if u.Fragment.isEmpty then [] else 0x23 :: u.Fragment)

/-- The method `URL.Query`. -/
def URL.Query (u : URL) : Values := ParseQuery u.RawQuery

/-! ## Errors, bodies, requests and responses (`errors`, `io`, `net/http`) -/

/-- A non-nil Go `error` value. -/
inductive GoError
  /-- The value of `errors.New(msg)`. -/
  | errorString (msg : Bytes)
  /-- A package-level sentinel error. -/
  | sentinel (name : String)
  /-- An error produced by a library or by the transport. -/
  | lib (msg : Bytes)
deriving DecidableEq

/-- The method `Error()`: the message of an error. -/
def GoError.Error : GoError → Bytes
  | GoError.errorString msg => msg
  | GoError.sentinel name => ofString name
  | GoError.lib msg => msg

/-- Modelled from the spec: the package variable `ErrBodyRead` is declared outside
`shodan.go`; the spec calls it a distinct sentinel error for a response body that
cannot be read. -/
def ErrBodyRead : GoError := GoError.sentinel "ErrBodyRead"

/-- How the reads of a body end once its data is exhausted: `io.EOF`, or another
read error. -/
inductive Ending
  | eof
  | failure (e : GoError)
deriving DecidableEq

/-- A response body as an `io.Reader`: `pieces` are the byte slices that successive
`Read` calls return, after which every `Read` returns `ending`. -/
structure Body where
  pieces : List Bytes
  ending : Ending
deriving DecidableEq

/-- All the bytes of a body. -/
def Body.data (b : Body) : Bytes := b.pieces.flatten

/-- The fields of `http.Response` that the client reads. -/
structure Response where
  StatusCode : Nat
  Body : Body
deriving DecidableEq

/-- The fields of `http.Request` that the client sets. -/
structure Request where
  Method : Bytes
  URL : URL
  Body : Option Bytes
  Header : List (String × String)
deriving DecidableEq

def StatusOK : Nat := 200

/-- The table `isTokenTable` of `httpguts`: the bytes allowed in a method. -/
def isTokenByte (c : Nat) : Bool :=
  isLetter c || isDigit c || c == 0x21 || c == 0x23 || c == 0x24 || c == 0x25 || c == 0x26
    || c == 0x27 || c == 0x2A || c == 0x2B || c == 0x2D || c == 0x2E || c == 0x5E || c == 0x5F
    || c == 0x60 || c == 0x7C || c == 0x7E

/-- The function `validMethod` of `net/http`. -/
def validMethod (method : Bytes) : Bool := !method.isEmpty && method.all isTokenByte

/-- The Go function `http.NewRequest`: an empty method means `GET`; an invalid method
or a URL that does not parse is an error. -/
def NewRequest (method url : Bytes) (body : Option Bytes) : Except GoError Request :=
  let method := if method.isEmpty then ofString "GET" else method
  if !validMethod method then Except.error (GoError.lib (ofString "net/http: invalid method"))
  else
    match Parse url with
    | none => Except.error (GoError.lib (ofString "parse error"))
    | some u => Except.ok { Method := method, URL := u, Body := body, Header := [] }

/-- The method `Header.Add`. -/
def Request.addHeader (req : Request) (key value : String) : Request :=
  { req with Header := req.Header ++ [(key, value)] }

/-- An effect on the response body or on the destination, in program order. -/
inductive Event
  /-- Bytes were obtained from the response body by a `Read`. -/
  | bodyRead (p : Bytes)
  /-- The call `res.Body.Close()`. -/
  | bodyClose
  /-- A `json.Decoder` was run on the response body. -/
  | jsonDecode
  /-- A `Write` call on the destination, with the bytes it accepted. -/
  | sinkWrite (p : Bytes)
deriving DecidableEq

/-- The Go function `ioutil.ReadAll`: the data read and the error (`nil` at EOF). -/
def ReadAll (b : Body) : Bytes × Option GoError × List Event :=
  (b.data,
   (match b.ending with
    | Ending.eof => none
    | Ending.failure e => some e),
   b.pieces.map Event.bodyRead)

/-- The type `Client`. `Do` is the method `Do` of the `*http.Client` it holds: the
transport, which yields a response or fails. -/
structure Client where
  Token : Bytes
  BaseURL : Bytes
  ExploitBaseURL : Bytes
  StreamBaseURL : Bytes
  Do : Request → Except GoError Response

/-- A mock transport: every request is answered with the given status and body. -/
def mockClient (token : Bytes) (status : Nat) (pieces : List Bytes) (ending : Ending) : Client :=
  { Token := token, BaseURL := ofString "https://api.shodan.io",
    ExploitBaseURL := ofString "https://exploits.shodan.io/api",
    StreamBaseURL := ofString "https://stream.shodan.io",
    Do := fun _ => Except.ok { StatusCode := status, Body := { pieces := pieces, ending := ending } } }

/-- A transport that fails with the given error before any response is obtained. -/
def failingClient (e : GoError) : Client :=
  { Token := [], BaseURL := ofString "https://api.shodan.io",
    ExploitBaseURL := ofString "https://exploits.shodan.io/api",
    StreamBaseURL := ofString "https://stream.shodan.io",
    Do := fun _ => Except.error e }

/-- `getErrorFromResponse` (shodan.go 22-36): the error and the effects on the body. -/
def getErrorFromResponse (r : Response) : GoError × List Event :=
  let (message, err, trace) := ReadAll r.Body
  if err.isNone then
    match UnmarshalErrorResponse message with
    | some errorResponseError => (GoError.errorString errorResponseError, trace)
    | none => (GoError.errorString (TrimSpace message), trace)
  else (ErrBodyRead, trace)

/-- What `sendRequest` returns, `(*http.Response, error)`, and its effects. -/
structure SendResult where
  res : Option Response
  err : Option GoError
  trace : List Event

/-- The header step of `sendRequest` (shodan.go 99-101): a request with a body is
marked as form-urlencoded. -/
def withContentType (req : Request) (body : Option Bytes) : Request :=
  if body.isSome then req.addHeader "Content-Type" "application/x-www-form-urlencoded" else req

/-- `Client.sendRequest` (shodan.go 93-113). -/
def Client.sendRequest (c : Client) (method path : Bytes) (body : Option Bytes) : SendResult :=
  match NewRequest method path body with
  | Except.error err => { res := none, err := some err, trace := [] }
  | Except.ok req =>
    match c.Do (withContentType req body) with
    | Except.error err => { res := none, err := some err, trace := [] }
    | Except.ok res =>
      if res.StatusCode != StatusOK then
        let (e, trace) := getErrorFromResponse res
        { res := none, err := some e, trace := trace }
      else { res := some res, err := none, trace := [] }

/-- An `io.Writer`: the bytes it has accepted, and how many more it accepts before
its `Write` fails (`none`: every write succeeds). -/
structure Writer where
  written : Bytes
  room : Option Nat
deriving DecidableEq

/-- The method `Write` of a sink: the number of bytes accepted, the error, and the sink
afterwards. -/
def Writer.Write (w : Writer) (p : Bytes) : Nat × Option GoError × Writer :=
  match w.room with
  | none => (p.length, none, { w with written := w.written ++ p })
  | some k =>
    if p.length ≤ k then (p.length, none, { written := w.written ++ p, room := some (k - p.length) })
    else (k, some (GoError.lib (ofString "write failed")),
          { written := w.written ++ p.take k, room := some 0 })

/-- The destination handed to `parseResponse`: a value that implements `io.Writer`, or
any other value, which is decoded into; `decode` is what `json.NewDecoder(body).Decode`
returns for the declared shape of that value on a given body. -/
inductive Destination
  | writer (w : Writer)
  | value (decode : Body → Option GoError)

/-- The loop of `io.Copy` (`copyBuffer`): every piece read is written to the sink; a
write error or a short write stops the copy; at the end of the data a read error other
than `io.EOF` is returned. (A sink with `ReadFrom` or a body with `WriteTo` runs a loop
of its own, to the same effect.) -/
def copyLoop : List Bytes → Ending → Writer → List Event → Option GoError × Writer × List Event
  | [], Ending.eof, w, trace => (none, w, trace)
  | [], Ending.failure e, w, trace => (some e, w, trace)
  | p :: rest, ending, w, trace =>
    if p.length > 0 then
      let (nw, ew, w1) := w.Write p
      let trace := trace ++ [Event.bodyRead p, Event.sinkWrite (p.take nw)]
      match ew with
      | some e => (some e, w1, trace)
      | none =>
        if p.length != nw then (some (GoError.sentinel "io.ErrShortWrite"), w1, trace)
        else copyLoop rest ending w1 trace
    else copyLoop rest ending w (trace ++ [Event.bodyRead p])

/-- The Go function `io.Copy`. -/
def Copy (w : Writer) (body : Body) : Option GoError × Writer × List Event :=
  copyLoop body.pieces body.ending w []

/-- What `parseResponse` returns, the destination afterwards, and the effects. -/
structure ParseResult where
  err : Option GoError
  destination : Destination
  trace : List Event

/-- `Client.parseResponse` (shodan.go 115-126). -/
def Client.parseResponse (_c : Client) (destination : Destination) (body : Body) : ParseResult :=
  match destination with
  | Destination.writer w =>
    let (err, w1, trace) := Copy w body
    { err := err, destination := Destination.writer w1, trace := trace }
  | Destination.value decode =>
    { err := decode body, destination := destination, trace := [Event.jsonDecode] }

/-- `Client.executeRequest` (shodan.go 128-137); the deferred `res.Body.Close()` runs
after `parseResponse`. (`sendRequest` never returns a nil response with a nil error;
in Go that case would be a nil dereference.) -/
def Client.executeRequest (c : Client) (method path : Bytes) (destination : Destination)
    (body : Option Bytes) : ParseResult :=
  let sent := c.sendRequest method path body
  match sent.err, sent.res with
  | some err, _ => { err := some err, destination := destination, trace := sent.trace }
  | none, none => { err := none, destination := destination, trace := sent.trace }
  | none, some res =>
    let parsed := c.parseResponse destination res.Body
    { parsed with trace := sent.trace ++ parsed.trace ++ [Event.bodyClose] }

/-! ## The stream reader (`bufio`, channels, the goroutine of `executeStreamRequest`) -/

/-- A `bufio.Reader` over a body: the bytes buffered and not yet returned, and the
rest of the body. -/
structure Reader where
  buf : Bytes
  src : Body
deriving DecidableEq

/-- The Go function `bufio.NewReader`. -/
def NewReader (body : Body) : Reader := { buf := [], src := body }

/-- The error a reader reports at the end of its data. -/
def Ending.err : Ending → GoError
  | Ending.eof => GoError.sentinel "io.EOF"
  | Ending.failure e => e

/-- Loop of `Reader.ReadBytes`: search the buffered bytes for `delim`; when it is there
return the bytes up to and including it; otherwise read the next piece, or, at the end
of the data, return what is buffered together with the read error. -/
def readBytesLoop (delim : Nat) (ending : Ending) : Bytes → List Bytes →
    Bytes × Option GoError × Reader
  | buf, pieces =>
    match Cut delim buf, pieces with
    | (line, rest, true), _ =>
      (line ++ [delim], none, { buf := rest, src := { pieces := pieces, ending := ending } })
    | (_, _, false), [] =>
      (buf, some ending.err, { buf := [], src := { pieces := [], ending := ending } })
    | (_, _, false), p :: ps => readBytesLoop delim ending (buf ++ p) ps

/-- The method `Reader.ReadBytes`. -/
def Reader.ReadBytes (r : Reader) (delim : Nat) : Bytes × Option GoError × Reader :=
  readBytesLoop delim r.src.ending r.buf r.src.pieces

/-- A Go channel of byte slices as its sender sees it: whether it has been closed,
and the values sent on it, in order. -/
structure Chan where
  closed : Bool
  delivered : List Bytes
deriving DecidableEq

/-- Where the goroutine of `executeStreamRequest` stands (shodan.go 148-157). -/
inductive Pc
  /-- About to call `reader.ReadBytes`. -/
  | read
  /-- At `ch <- chunk`. -/
  | send (chunk : Bytes)
  /-- At `res.Body.Close()`. -/
  | closeBody
  /-- At `close(ch)`. -/
  | closeChan
  /-- After `break`: the goroutine has returned. -/
  | done
  /-- The goroutine panicked (send on, or close of, a closed channel). -/
  | panicked
deriving DecidableEq

/-- The state of one subscription: the goroutine's position, the rest of the body, and
the flags of the body and of the channel. -/
structure Task where
  pc : Pc
  reader : Reader
  bodyClosed : Bool
  ch : Chan
deriving DecidableEq

/-- The newline byte, the delimiter of the stream. -/
def newline : Nat := 0x0A

/-- One step of the goroutine; `none` when it has stopped. A send completes when a
receiver takes the value. -/
def Task.step (t : Task) : Option Task :=
  match t.pc with
  | Pc.read =>
    let (chunk, err, reader) := t.reader.ReadBytes newline
    if err.isSome then some { t with pc := Pc.closeBody, reader := reader }
    else some { t with pc := Pc.send chunk, reader := reader }
  | Pc.send chunk =>
    if t.ch.closed then some { t with pc := Pc.panicked }
    else some { t with pc := Pc.read, ch := { t.ch with delivered := t.ch.delivered ++ [chunk] } }
  | Pc.closeBody => some { t with pc := Pc.closeChan, bodyClosed := true }
  | Pc.closeChan =>
    if t.ch.closed then some { t with pc := Pc.panicked }
    else some { t with pc := Pc.done, ch := { t.ch with closed := true } }
  | Pc.done => none
  | Pc.panicked => none

/-- The step relation of a subscription. -/
def Step (s t : Task) : Prop := s.step = some t

/-- The states a subscription can reach from `s`. -/
def Reach (s t : Task) : Prop := Relation.ReflTransGen Step s t

/-- Run the goroutine for at most `n` steps. -/
def Task.run : Nat → Task → Task
  | 0, t => t
  | n + 1, t =>
    match t.step with
    | some t1 => Task.run n t1
    | none => t

/-- The goroutine as `go func()` starts it: about to read from a fresh
`bufio.NewReader(res.Body)`, the body open, the channel as the caller handed it over. -/
def Task.start (body : Body) (ch : Chan) : Task :=
  { pc := Pc.read, reader := NewReader body, bodyClosed := false, ch := ch }

/-- The number of steps, among the first `n` of the goroutine, that close the channel. -/
def Task.closes : Nat → Task → Nat
  | 0, _ => 0
  | n + 1, t =>
    match t.step with
    | some t1 => (if !t.ch.closed && t1.ch.closed then 1 else 0) + Task.closes n t1
    | none => 0

/-- What `executeStreamRequest` returns, the effects of the call itself, and the
goroutine it started, if any. -/
structure StreamResult where
  err : Option GoError
  trace : List Event
  task : Option Task

/-- `Client.executeStreamRequest` (shodan.go 139-161): on success the goroutine is
started on the response body and the channel, untouched so far. -/
def Client.executeStreamRequest (c : Client) (method path : Bytes) (ch : Chan) : StreamResult :=
  let sent := c.sendRequest method path none
  match sent.err, sent.res with
  | some err, _ => { err := some err, trace := sent.trace, task := none }
  | none, none => { err := none, trace := sent.trace, task := none }
  | none, some res =>
    { err := none, trace := sent.trace, task := some (Task.start res.Body ch) }

/-! ## `buildURL` -/

/-- The parameter object handed to `query.Values`: a nil pointer, a value that is not
a struct, or a struct, given by the `(key, value)` pairs its tagged fields contribute,
in field order. -/
inductive Params
  | nil
  | notStruct
  | fields (kvs : List (Bytes × Bytes))

/-- The function `query.Values` of `go-querystring`: every field is added with
`Values.Add`; a value that is not a struct is an error. -/
def queryValues : Params → Except GoError Values
  | Params.nil => Except.ok []
  | Params.notStruct => Except.error (GoError.lib (ofString "query: Values() expects struct input"))
  | Params.fields kvs => Except.ok (kvs.foldl (fun m kv => Values.Add m kv.1 kv.2) [])

/-- `Client.buildURL` (shodan.go 63-79). -/
def Client.buildURL (c : Client) (base path : Bytes) (params : Params) : Bytes × Option GoError :=
  match Parse (base ++ path) with
  | none => ([], some (GoError.lib (ofString "parse error")))
  | some baseURL =>
    match queryValues params with
    | Except.error err => (baseURL.String, some err)
    | Except.ok qs =>
      let qs := Values.Add qs (ofString "key") c.Token
      let baseURL := { baseURL with RawQuery := Values.Encode qs }
      (baseURL.String, none)

/-! ## Notions used to state the properties -/

/-- Every element is a byte value. -/
def ValidBytes (s : Bytes) : Prop := ∀ b ∈ s, b < 256

instance (s : Bytes) : Decidable (ValidBytes s) :=
  inferInstanceAs (Decidable (∀ b ∈ s, b < 256))

/-- Every key and value of the parameter object is a byte string. -/
def Params.Valid : Params → Prop
  | Params.nil => True
  | Params.notStruct => True
  | Params.fields kvs => ∀ kv ∈ kvs, ValidBytes kv.1 ∧ ValidBytes kv.2

instance (p : Params) : Decidable p.Valid :=
  match p with
  | Params.nil => isTrue trivial
  | Params.notStruct => isTrue trivial
  | Params.fields kvs => inferInstanceAs (Decidable (∀ kv ∈ kvs, ValidBytes kv.1 ∧ ValidBytes kv.2))

/-- The values that a list of `(key, value)` pairs holds for `key`, in order. -/
def valuesFor (key : Bytes) (kvs : List (Bytes × Bytes)) : List Bytes :=
  (kvs.filter (fun kv => kv.1 == key)).map (fun kv => kv.2)

/-- The values that the parameter object contributes for `key`, in field order. -/
def Params.valuesFor (key : Bytes) : Params → List Bytes
  | Params.fields kvs => Shodan.valuesFor key kvs
  | _ => []

/-- The keys of the list are strictly increasing: the list stands for a map. -/
def Values.Sorted (m : Values) : Prop := List.Pairwise (fun x y => bytesLt x.1 y.1 = true) m

/-- One `key=value` pair as `Values.Encode` writes it. -/
def encodePair (kv : Bytes × Bytes) : Bytes := QueryEscape kv.1 ++ 0x3D :: QueryEscape kv.2

/-- The bytes that `QueryEscape` can produce: unreserved ones, `%` and `+`. -/
def escByte (b : Nat) : Bool := unreserved b || b == 0x25 || b == 0x2B

/-- The bytes `getScheme` accepts inside a scheme. -/
def isSchemeChar (c : Nat) : Bool :=
  isLetter c || isDigit c || c == 0x2B || c == 0x2D || c == 0x2E

/-- Bytes that stand neither for a fragment mark nor for a control byte. -/
def plainByte (b : Nat) : Prop := b ≠ 0x23 ∧ ¬ b < 0x20 ∧ b ≠ 0x7F

/-- The bytes a reader has yet to return: what it has buffered, then the rest of the
body. -/
def Reader.pending (r : Reader) : Bytes := r.buf ++ r.src.data

/-- A stream chunk: bytes without a newline, followed by one newline. -/
def IsChunk (c : Bytes) : Prop := ∃ a, c = a ++ [newline] ∧ newline ∉ a

/-- The state in which the goroutine ends: the body read to its end and closed, the
channel closed after the given deliveries. -/
def Task.final (ending : Ending) (delivered : List Bytes) : Task :=
  { pc := Pc.done, reader := { buf := [], src := { pieces := [], ending := ending } },
    bodyClosed := true, ch := { closed := true, delivered := delivered } }

/-- The invariant of the goroutine: the body is closed before the channel, the channel
is closed only at the very end, and no panic occurs. -/
def Task.Inv (t : Task) : Prop :=
  match t.pc with
  | Pc.read => t.ch.closed = false ∧ t.bodyClosed = false
  | Pc.send _ => t.ch.closed = false ∧ t.bodyClosed = false
  | Pc.closeBody => t.ch.closed = false ∧ t.bodyClosed = false
  | Pc.closeChan => t.ch.closed = false ∧ t.bodyClosed = true
  | Pc.done => t.ch.closed = true ∧ t.bodyClosed = true
  | Pc.panicked => False

/-- The bytes that the `Write` calls recorded in a trace handed to the sink, in order. -/
def writesOf : List Event → Bytes
  | [] => []
  | Event.sinkWrite p :: rest => p ++ writesOf rest
  | _ :: rest => writesOf rest

/-- The bytes that the reads recorded in a trace took from the body, in order. -/
def readsOf : List Event → Bytes
  | [] => []
  | Event.bodyRead p :: rest => p ++ readsOf rest
  | _ :: rest => readsOf rest

/-- The body of `DecodeRune` on a non-empty input, as a function of the table entry of
the lead byte, the length of the input and its first four bytes. -/
def decodeCore (x : Nat × Nat × Nat) (len p0 b1 b2 b3 : Nat) : Nat × Nat :=
  if x.1 = 1 then (p0, 1)
  else if x.1 = 0 then (RuneError, 1)
  else if len < x.1 then (RuneError, 1)
  else
    if b1 < x.2.1 ∨ x.2.2 < b1 then (RuneError, 1)
    else if x.1 ≤ 2 then ((p0 % 32) * 64 + b1 % 64, 2)
    else
      if isCont b2 = false then (RuneError, 1)
      else if x.1 ≤ 3 then (((p0 % 16) * 64 + b1 % 64) * 64 + b2 % 64, 3)
      else
        if isCont b3 = false then (RuneError, 1)
        else ((((p0 % 8) * 64 + b1 % 64) * 64 + b2 % 64) * 64 + b3 % 64, 4)

/-- What the table `first` says about a lead byte `p0`, for an entry `x`. -/
def FirstSpec (p0 : Nat) (x : Nat × Nat × Nat) : Prop :=
  (x.1 = 1 ∧ p0 < 0x80)
  ∨ (x.1 = 0 ∧ 0x80 ≤ p0)
  ∨ (x.1 = 2 ∧ 0xC2 ≤ p0 ∧ p0 ≤ 0xDF ∧ x.2.1 = 0x80 ∧ x.2.2 = 0xBF)
  ∨ (x.1 = 3 ∧ 0xE0 ≤ p0 ∧ p0 ≤ 0xEF ∧ 0x80 ≤ x.2.1 ∧ x.2.2 ≤ 0xBF
      ∧ (p0 = 0xE0 → x.2.1 = 0xA0) ∧ (p0 = 0xED → x.2.2 = 0x9F))
  ∨ (x.1 = 4 ∧ 0xF0 ≤ p0 ∧ p0 ≤ 0xF4 ∧ 0x80 ≤ x.2.1 ∧ x.2.2 ≤ 0xBF
      ∧ (p0 = 0xF0 → x.2.1 = 0x90) ∧ (p0 = 0xF4 → x.2.2 = 0x8F))

/-- Bytes that are the UTF-8 encodings of white space runes, one after the other. -/
inductive SpaceRunes : Bytes → Prop
  | nil : SpaceRunes []
  | cons (r : Nat) (rest : Bytes) : IsSpace r = true → SpaceRunes rest →
      SpaceRunes (EncodeRune r ++ rest)

/-! # Theorems -/

/-! ## The request executor -/

theorem getErrorFromResponse_trace (r : Response) :
    (getErrorFromResponse r).2 = r.Body.pieces.map Event.bodyRead := by
  unfold getErrorFromResponse ReadAll
  simp only
  split
  · split <;> rfl
  · rfl

theorem sendRequest_newRequest_error (c : Client) (method path : Bytes) (body : Option Bytes)
    (e : GoError) (h : NewRequest method path body = Except.error e) :
    c.sendRequest method path body = { res := none, err := some e, trace := [] } := by
  simp [Client.sendRequest, h]

theorem sendRequest_transport_error (c : Client) (method path : Bytes) (body : Option Bytes)
    (req : Request) (e : GoError) (h : NewRequest method path body = Except.ok req)
    (hdo : c.Do (withContentType req body) = Except.error e) :
    c.sendRequest method path body = { res := none, err := some e, trace := [] } := by
  simp [Client.sendRequest, h, hdo]

theorem sendRequest_ok (c : Client) (method path : Bytes) (body : Option Bytes)
    (req : Request) (res : Response) (h : NewRequest method path body = Except.ok req)
    (hdo : c.Do (withContentType req body) = Except.ok res) (hs : res.StatusCode = StatusOK) :
    c.sendRequest method path body = { res := some res, err := none, trace := [] } := by
  simp [Client.sendRequest, h, hdo, hs]

theorem sendRequest_status_error (c : Client) (method path : Bytes) (body : Option Bytes)
    (req : Request) (res : Response) (h : NewRequest method path body = Except.ok req)
    (hdo : c.Do (withContentType req body) = Except.ok res) (hs : res.StatusCode ≠ StatusOK) :
    c.sendRequest method path body =
      { res := none, err := some (getErrorFromResponse res).1,
        trace := (getErrorFromResponse res).2 } := by
  simp [Client.sendRequest, h, hdo, hs]

/-- C1. `sendRequest` returns a response with a nil error exactly when the transport
call succeeds with status 200 (and then it is the transport's response, untouched);
any other status gives a nil response and a non-nil error; a transport failure is
returned unchanged, with no read of any body. -/
theorem sendRequest_contract (c : Client) (method path : Bytes) (body : Option Bytes) :
    (∀ r : Response,
      ((c.sendRequest method path body).res = some r ∧ (c.sendRequest method path body).err = none)
        ↔ ∃ req, NewRequest method path body = Except.ok req
            ∧ c.Do (withContentType req body) = Except.ok r ∧ r.StatusCode = 200)
    ∧ (∀ req r, NewRequest method path body = Except.ok req →
        c.Do (withContentType req body) = Except.ok r → r.StatusCode ≠ 200 →
        (c.sendRequest method path body).res = none
          ∧ (c.sendRequest method path body).err.isSome = true)
    ∧ (∀ req e, NewRequest method path body = Except.ok req →
        c.Do (withContentType req body) = Except.error e →
        (c.sendRequest method path body).res = none
          ∧ (c.sendRequest method path body).err = some e
          ∧ (c.sendRequest method path body).trace = []) := by
  refine ⟨?_, ?_, ?_⟩
  · intro r
    constructor
    · rintro ⟨hres, herr⟩
      cases hreq : NewRequest method path body with
      | error e => rw [sendRequest_newRequest_error c method path body e hreq] at hres; cases hres
      | ok req =>
        cases hdo : c.Do (withContentType req body) with
        | error e => rw [sendRequest_transport_error c method path body req e hreq hdo] at hres; cases hres
        | ok r1 =>
          by_cases hs : r1.StatusCode = StatusOK
          · rw [sendRequest_ok c method path body req r1 hreq hdo hs] at hres
            simp only [Option.some.injEq] at hres
            subst hres
            exact ⟨req, rfl, hdo, hs⟩
          · rw [sendRequest_status_error c method path body req r1 hreq hdo hs] at hres; cases hres
    · rintro ⟨req, hreq, hdo, hs⟩
      rw [sendRequest_ok c method path body req r hreq hdo hs]
      exact ⟨rfl, rfl⟩
  · intro req r hreq hdo hs
    rw [sendRequest_status_error c method path body req r hreq hdo hs]
    exact ⟨rfl, rfl⟩
  · intro req e hreq hdo
    rw [sendRequest_transport_error c method path body req e hreq hdo]
    exact ⟨rfl, rfl, rfl⟩

theorem getErrorFromResponse_json (r : Response) (msg : Bytes)
    (hread : r.Body.ending = Ending.eof)
    (hjson : UnmarshalErrorResponse r.Body.data = some msg) :
    (getErrorFromResponse r).1 = GoError.errorString msg := by
  simp [getErrorFromResponse, ReadAll, hread, hjson]

theorem getErrorFromResponse_text (r : Response)
    (hread : r.Body.ending = Ending.eof)
    (hjson : UnmarshalErrorResponse r.Body.data = none) :
    (getErrorFromResponse r).1 = GoError.errorString (TrimSpace r.Body.data) := by
  simp [getErrorFromResponse, ReadAll, hread, hjson]

theorem getErrorFromResponse_unreadable (r : Response) (e : GoError)
    (hread : r.Body.ending = Ending.failure e) :
    (getErrorFromResponse r).1 = ErrBodyRead := by
  simp [getErrorFromResponse, ReadAll, hread]

theorem executeRequest_status_error (c : Client) (method path : Bytes) (d : Destination)
    (body : Option Bytes) (req : Request) (res : Response)
    (h : NewRequest method path body = Except.ok req)
    (hdo : c.Do (withContentType req body) = Except.ok res) (hs : res.StatusCode ≠ StatusOK) :
    (c.executeRequest method path d body).err = some (getErrorFromResponse res).1
      ∧ (c.executeRequest method path d body).trace = res.Body.pieces.map Event.bodyRead := by
  simp [Client.executeRequest, sendRequest_status_error c method path body req res h hdo hs,
    getErrorFromResponse_trace]

theorem executeRequest_ok (c : Client) (method path : Bytes) (d : Destination)
    (body : Option Bytes) (req : Request) (res : Response)
    (h : NewRequest method path body = Except.ok req)
    (hdo : c.Do (withContentType req body) = Except.ok res) (hs : res.StatusCode = StatusOK) :
    c.executeRequest method path d body =
      { c.parseResponse d res.Body with
        trace := (c.parseResponse d res.Body).trace ++ [Event.bodyClose] } := by
  simp [Client.executeRequest, sendRequest_ok c method path body req res h hdo hs]

/-- C2. A response whose status is not 200 and whose readable body decodes into
`{error: string}` makes `executeRequest` fail with the decoded string as message. -/
theorem executeRequest_api_error (c : Client) (method path : Bytes) (d : Destination)
    (body : Option Bytes) (req : Request) (res : Response) (msg : Bytes)
    (hreq : NewRequest method path body = Except.ok req)
    (hdo : c.Do (withContentType req body) = Except.ok res)
    (hstatus : res.StatusCode ≠ 200)
    (hread : res.Body.ending = Ending.eof)
    (hjson : UnmarshalErrorResponse res.Body.data = some msg) :
    (c.executeRequest method path d body).err = some (GoError.errorString msg)
      ∧ (c.executeRequest method path d body).err.map GoError.Error = some msg := by
  have h := (executeRequest_status_error c method path d body req res hreq hdo hstatus).1
  rw [getErrorFromResponse_json res msg hread hjson] at h
  rw [h]
  exact ⟨rfl, rfl⟩

/-- C2, the example of the specification: status 403 with body `{"error":"invalid key"}`
gives an error whose message is exactly `invalid key`. -/
theorem executeRequest_api_error_witness :
    ((mockClient [] 403 [ofString "\x7b\"error\":\"invalid key\"\x7d"] Ending.eof).executeRequest
        (ofString "GET") (ofString "https://api.shodan.io/api-info?key=k")
        (Destination.writer { written := [], room := none }) none).err.map GoError.Error
      = some (ofString "invalid key") :=
  (executeRequest_api_error
    (mockClient [] 403 [ofString "\x7b\"error\":\"invalid key\"\x7d"] Ending.eof)
    (ofString "GET") (ofString "https://api.shodan.io/api-info?key=k")
    (Destination.writer { written := [], room := none }) none
    { Method := ofString "GET",
      URL := { Scheme := ofString "https", Hier := ofString "//api.shodan.io/api-info",
               ForceQuery := false, RawQuery := ofString "key=k", Fragment := [] },
      Body := none, Header := [] }
    { StatusCode := 403,
      Body := { pieces := [ofString "\x7b\"error\":\"invalid key\"\x7d"], ending := Ending.eof } }
    (ofString "invalid key") rfl rfl (by decide) rfl (by decide)).2

/-! ## `strings.Cut` -/

theorem Cut_found {sep : Nat} : ∀ {s a b : Bytes}, Cut sep s = (a, b, true) →
    s = a ++ sep :: b ∧ sep ∉ a
  | [], a, b, h => by simp [Cut] at h
  | c :: rest, a, b, h => by
    unfold Cut at h
    by_cases hc : (c == sep) = true
    · simp only [hc, if_true, Prod.mk.injEq] at h
      obtain ⟨rfl, rfl, -⟩ := h
      simp only [beq_iff_eq] at hc
      subst hc
      simp
    · simp only [hc] at h
      rcases hrec : Cut sep rest with ⟨a1, b1, f1⟩
      rw [hrec] at h
      simp only [Bool.false_eq_true, if_false, Prod.mk.injEq] at h
      obtain ⟨rfl, rfl, rfl⟩ := h
      obtain ⟨h1, h2⟩ := Cut_found hrec
      simp only [beq_iff_eq] at hc
      refine ⟨by simp [h1], ?_⟩
      simp only [List.mem_cons, not_or]
      exact ⟨fun h => hc h.symm, h2⟩

theorem Cut_not_found {sep : Nat} : ∀ {s a b : Bytes}, Cut sep s = (a, b, false) →
    a = s ∧ b = [] ∧ sep ∉ s
  | [], a, b, h => by
    simp only [Cut, Prod.mk.injEq] at h
    obtain ⟨rfl, rfl, -⟩ := h
    simp
  | c :: rest, a, b, h => by
    unfold Cut at h
    by_cases hc : (c == sep) = true
    · simp [hc] at h
    · simp only [hc] at h
      rcases hrec : Cut sep rest with ⟨a1, b1, f1⟩
      rw [hrec] at h
      simp only [Bool.false_eq_true, if_false, Prod.mk.injEq] at h
      obtain ⟨rfl, rfl, rfl⟩ := h
      obtain ⟨h1, h2, h3⟩ := Cut_not_found hrec
      simp only [beq_iff_eq] at hc
      refine ⟨by simp [h1], h2, ?_⟩
      simp only [List.mem_cons, not_or]
      exact ⟨fun h => hc h.symm, h3⟩

theorem Cut_of_not_mem {sep : Nat} : ∀ {s : Bytes}, sep ∉ s → Cut sep s = (s, [], false)
  | [], _ => rfl
  | c :: rest, h => by
    simp only [List.mem_cons, not_or] at h
    have hc : (c == sep) = false := by
      simp only [beq_eq_false_iff_ne, ne_eq]
      exact fun e => h.1 e.symm
    simp [Cut, hc, Cut_of_not_mem h.2]

theorem Cut_append_of_not_mem {sep : Nat} : ∀ {a : Bytes} (b : Bytes), sep ∉ a →
    Cut sep (a ++ sep :: b) = (a, b, true)
  | [], b, _ => by simp [Cut]
  | c :: rest, b, h => by
    simp only [List.mem_cons, not_or] at h
    have hc : (c == sep) = false := by
      simp only [beq_eq_false_iff_ne, ne_eq]
      exact fun e => h.1 e.symm
    simp [Cut, hc, Cut_append_of_not_mem b h.2]

theorem Cut_append_found {sep : Nat} {s a b : Bytes} (t : Bytes) (h : Cut sep s = (a, b, true)) :
    Cut sep (s ++ t) = (a, b ++ t, true) := by
  obtain ⟨h1, h2⟩ := Cut_found h
  subst h1
  have := Cut_append_of_not_mem (b ++ t) h2
  simpa using this

/-! ## `bufio.Reader.ReadBytes` in terms of the bytes still to come -/

theorem readBytesLoop_found (delim : Nat) (ending : Ending) :
    ∀ (pieces : List Bytes) (buf line tail : Bytes),
      Cut delim (buf ++ pieces.flatten) = (line, tail, true) →
      ∃ r, readBytesLoop delim ending buf pieces = (line ++ [delim], none, r)
        ∧ r.pending = tail ∧ r.src.ending = ending
  | [], buf, line, tail, h => by
    simp only [List.flatten_nil, List.append_nil] at h
    unfold readBytesLoop
    rw [h]
    exact ⟨_, rfl, by simp [Reader.pending, Body.data], rfl⟩
  | p :: ps, buf, line, tail, h => by
    unfold readBytesLoop
    rcases hb : Cut delim buf with ⟨l1, t1, f1⟩
    cases f1 with
    | true =>
      have := Cut_append_found (p :: ps).flatten hb
      rw [h] at this
      simp only [Prod.mk.injEq, and_true] at this
      obtain ⟨rfl, rfl⟩ := this
      exact ⟨_, rfl, by simp [Reader.pending, Body.data], rfl⟩
    | false =>
      simp only
      apply readBytesLoop_found delim ending ps (buf ++ p) line tail
      simpa using h

theorem readBytesLoop_not_found (delim : Nat) (ending : Ending) :
    ∀ (pieces : List Bytes) (buf : Bytes), delim ∉ buf ++ pieces.flatten →
      readBytesLoop delim ending buf pieces =
        (buf ++ pieces.flatten, some ending.err,
         { buf := [], src := { pieces := [], ending := ending } })
  | [], buf, h => by
    simp only [List.flatten_nil, List.append_nil] at h ⊢
    unfold readBytesLoop
    rw [Cut_of_not_mem h]
  | p :: ps, buf, h => by
    unfold readBytesLoop
    have hb : delim ∉ buf := fun hm => h (List.mem_append_left _ hm)
    rw [Cut_of_not_mem hb]
    simp only
    have := readBytesLoop_not_found delim ending ps (buf ++ p) (by simpa using h)
    simpa using this

theorem ReadBytes_line (r : Reader) (delim : Nat) (line tail : Bytes) (hd : delim ∉ line)
    (h : r.pending = line ++ delim :: tail) :
    ∃ r1, r.ReadBytes delim = (line ++ [delim], none, r1) ∧ r1.pending = tail
      ∧ r1.src.ending = r.src.ending := by
  apply readBytesLoop_found
  have : r.buf ++ r.src.pieces.flatten = line ++ delim :: tail := h
  rw [this]
  exact Cut_append_of_not_mem tail hd

theorem ReadBytes_end (r : Reader) (delim : Nat) (hd : delim ∉ r.pending) :
    r.ReadBytes delim = (r.pending, some r.src.ending.err,
      { buf := [], src := { pieces := [], ending := r.src.ending } }) :=
  readBytesLoop_not_found delim r.src.ending r.src.pieces r.buf hd

theorem isChunk_iff (c : Bytes) :
    IsChunk c ↔ c.getLast? = some newline ∧ c.count newline = 1 := by
  constructor
  · rintro ⟨a, rfl, ha⟩
    refine ⟨by simp, ?_⟩
    simp [List.count_append, List.count_eq_zero_of_not_mem ha]
  · rintro ⟨hl, hc⟩
    rcases List.eq_nil_or_concat c with rfl | ⟨a, b, rfl⟩
    · simp at hl
    · simp only [List.concat_eq_append, List.getLast?_append, List.getLast?_singleton] at hl
      simp at hl
      subst hl
      refine ⟨a, by simp, ?_⟩
      simp only [List.concat_eq_append, List.count_append, List.count_singleton_self] at hc
      exact List.count_eq_zero.mp (by omega)

theorem run_add (m n : Nat) : ∀ t : Task, t.run (m + n) = (t.run m).run n := by
  induction m with
  | zero => intro t; simp [Task.run]
  | succ k ih =>
    intro t
    rw [Nat.succ_add]
    cases hs : t.step with
    | some t1 => simp only [Task.run, hs]; exact ih t1
    | none =>
      simp only [Task.run, hs]
      cases n with
      | zero => rfl
      | succ j =>
        clear ih
        induction j with
        | zero => simp [Task.run, hs]
        | succ i ih2 => simp [Task.run, hs]

theorem run_succ (n : Nat) (t t1 : Task) (h : t.step = some t1) : t.run (n + 1) = t1.run n := by
  simp [Task.run, h]

theorem run_of_step_none (n : Nat) (t : Task) (h : t.step = none) : t.run n = t := by
  cases n with
  | zero => rfl
  | succ k => simp [Task.run, h]

theorem run_final (n : Nat) (ending : Ending) (d : List Bytes) :
    (Task.final ending d).run n = Task.final ending d :=
  run_of_step_none n _ rfl

/-- From a reading state with an open channel, the goroutine delivers the chunks that
the pending bytes hold, drops what follows the last newline, closes the body, closes
the channel and stops. -/
theorem run_chunks : ∀ (chunks : List Bytes) (t : Task) (tail : Bytes),
    t.pc = Pc.read → t.ch.closed = false →
    t.reader.pending = chunks.flatten ++ tail → (∀ c ∈ chunks, IsChunk c) → newline ∉ tail →
    t.run (2 * chunks.length + 3) = Task.final t.reader.src.ending (t.ch.delivered ++ chunks)
  | [], t, tail, hpc, hopen, hp, _, htail => by
    simp only [List.flatten_nil, List.nil_append] at hp
    have hend := ReadBytes_end t.reader newline (by rw [hp]; exact htail)
    let t1 : Task :=
      { pc := Pc.closeBody, bodyClosed := t.bodyClosed, ch := t.ch,
        reader := { buf := [], src := { pieces := [], ending := t.reader.src.ending } } }
    have h1 : t.step = some t1 := by
      simp [Task.step, hpc, hend, t1]
    have h2 : t1.step = some { t1 with pc := Pc.closeChan, bodyClosed := true } := rfl
    have h3 : Task.step { t1 with pc := Pc.closeChan, bodyClosed := true } =
        some (Task.final t.reader.src.ending (t.ch.delivered ++ [])) := by
      simp [Task.step, hopen, Task.final, t1]
    rw [show 2 * ([] : List Bytes).length + 3 = 2 + 1 from rfl, run_succ _ _ _ h1,
      run_succ _ _ _ h2, run_succ _ _ _ h3]
    rfl
  | c :: cs, t, tail, hpc, hopen, hp, hchunks, htail => by
    obtain ⟨a, rfl, ha⟩ := hchunks c (List.mem_cons_self _ _)
    have hp1 : t.reader.pending = a ++ newline :: (cs.flatten ++ tail) := by
      rw [hp]; simp
    obtain ⟨r1, hr1, hpend, hending⟩ := ReadBytes_line t.reader newline a _ ha hp1
    have h1 : t.step = some { t with pc := Pc.send (a ++ [newline]), reader := r1 } := by
      simp [Task.step, hpc, hr1]
    have h2 : Task.step { t with pc := Pc.send (a ++ [newline]), reader := r1 } =
        some { pc := Pc.read, reader := r1, bodyClosed := t.bodyClosed,
               ch := { closed := t.ch.closed, delivered := t.ch.delivered ++ [a ++ [newline]] } } := by
      simp [Task.step, hopen]
    have hlen : 2 * ((a ++ [newline]) :: cs).length + 3 = 2 + (2 * cs.length + 3) := by
      simp only [List.length_cons]; omega
    rw [hlen, run_add]
    have h3 : t.run 2 =
        { pc := Pc.read, reader := r1, bodyClosed := t.bodyClosed,
          ch := { closed := t.ch.closed, delivered := t.ch.delivered ++ [a ++ [newline]] } } := by
      rw [run_succ 1 t _ h1, run_succ 0 _ _ h2]; rfl
    rw [h3]
    have := run_chunks cs
        { pc := Pc.read, reader := r1, bodyClosed := t.bodyClosed,
          ch := { closed := t.ch.closed, delivered := t.ch.delivered ++ [a ++ [newline]] } }
        tail rfl hopen hpend (fun c hc => hchunks c (List.mem_cons_of_mem _ hc)) htail
    rw [this]
    simp [hending]

/-- Every byte string splits into chunks followed by a tail without newline. -/
theorem exists_chunks : ∀ data : Bytes, ∃ (chunks : List Bytes) (tail : Bytes),
    data = chunks.flatten ++ tail ∧ (∀ c ∈ chunks, IsChunk c) ∧ newline ∉ tail
  | [] => ⟨[], [], rfl, by simp, by simp⟩
  | b :: rest => by
    obtain ⟨chunks, tail, h1, h2, h3⟩ := exists_chunks rest
    by_cases hb : b = newline
    · subst hb
      refine ⟨[newline] :: chunks, tail, by simp [h1], ?_, h3⟩
      intro c hc
      rcases List.mem_cons.mp hc with rfl | hc
      · exact ⟨[], rfl, by simp⟩
      · exact h2 c hc
    · cases chunks with
      | nil =>
        refine ⟨[], b :: tail, by simpa using h1, by simp, ?_⟩
        simp only [List.mem_cons, not_or]
        exact ⟨fun h => hb h.symm, h3⟩
      | cons c cs =>
        refine ⟨(b :: c) :: cs, tail, by simp [h1], ?_, h3⟩
        intro x hx
        rcases List.mem_cons.mp hx with rfl | hx
        · obtain ⟨a, rfl, ha⟩ := h2 c (List.mem_cons_self _ _)
          refine ⟨b :: a, rfl, ?_⟩
          simp only [List.mem_cons, not_or]
          exact ⟨fun h => hb h.symm, ha⟩
        · exact h2 x (List.mem_cons_of_mem _ hx)

/-! ## Runs and reachable states -/

theorem reach_run (n : Nat) : ∀ t : Task, Reach t (t.run n) := by
  induction n with
  | zero => intro t; exact Relation.ReflTransGen.refl
  | succ k ih =>
    intro t
    cases hs : t.step with
    | some t1 =>
      rw [run_succ k t t1 hs]
      exact Relation.ReflTransGen.head hs (ih t1)
    | none =>
      rw [run_of_step_none _ t hs]
      exact Relation.ReflTransGen.refl

theorem run_of_reach {s t : Task} (h : Reach s t) : ∃ n, s.run n = t := by
  induction h using Relation.ReflTransGen.head_induction_on with
  | refl => exact ⟨0, rfl⟩
  | head hstep _ ih =>
    obtain ⟨n, hn⟩ := ih
    exact ⟨n + 1, by rw [run_succ n _ _ hstep, hn]⟩

theorem inv_step {t t1 : Task} (hinv : t.Inv) (h : t.step = some t1) : t1.Inv := by
  rcases t with ⟨pc, reader, bodyClosed, ch⟩
  cases pc with
  | read =>
    simp only [Task.Inv] at hinv
    simp only [Task.step] at h
    split at h
    · injection h with h; subst h; exact hinv
    · injection h with h; subst h; exact hinv
  | send chunk =>
    simp only [Task.Inv] at hinv
    simp only [Task.step, hinv.1, Bool.false_eq_true, if_false, Option.some.injEq] at h
    subst h; exact ⟨rfl, hinv.2⟩
  | closeBody =>
    simp only [Task.Inv] at hinv
    simp only [Task.step, Option.some.injEq] at h
    subst h; exact ⟨hinv.1, rfl⟩
  | closeChan =>
    simp only [Task.Inv] at hinv
    simp only [Task.step, hinv.1, Bool.false_eq_true, if_false, Option.some.injEq] at h
    subst h; exact ⟨rfl, hinv.2⟩
  | done => simp [Task.step] at h
  | panicked => simp [Task.step] at h

theorem inv_reach {s t : Task} (hinv : s.Inv) (h : Reach s t) : t.Inv := by
  induction h with
  | refl => exact hinv
  | tail _ hstep ih => exact inv_step ih hstep

theorem inv_start (body : Body) (ch : Chan) (hopen : ch.closed = false) :
    (Task.start body ch).Inv := ⟨hopen, rfl⟩

theorem inv_facts {t : Task} (hinv : t.Inv) :
    t.pc ≠ Pc.panicked ∧ (t.ch.closed = true → t.bodyClosed = true)
      ∧ (t.ch.closed = true → t.step = none) := by
  rcases t with ⟨pc, reader, bodyClosed, ch⟩
  cases pc <;> simp_all [Task.Inv, Task.step]

/-- The step that closes the channel is the `close(ch)` of the goroutine, taken with the
body already closed; it sends nothing. -/
theorem closing_step {t t1 : Task} (hinv : t.Inv) (h : t.step = some t1)
    (hclosed : t1.ch.closed = true) :
    t.pc = Pc.closeChan ∧ t.bodyClosed = true ∧ t.ch.closed = false
      ∧ t1.ch.delivered = t.ch.delivered := by
  rcases t with ⟨pc, reader, bodyClosed, ch⟩
  cases pc with
  | read =>
    simp only [Task.Inv] at hinv
    simp only [Task.step] at h
    split at h <;> (injection h with h; subst h; simp_all)
  | send chunk =>
    simp only [Task.Inv] at hinv
    simp only [Task.step, hinv.1, Bool.false_eq_true, if_false, Option.some.injEq] at h
    subst h; simp_all
  | closeBody =>
    simp only [Task.Inv] at hinv
    simp only [Task.step, Option.some.injEq] at h
    subst h; simp_all
  | closeChan =>
    simp only [Task.Inv] at hinv
    simp only [Task.step, hinv.1, Bool.false_eq_true, if_false, Option.some.injEq] at h
    subst h; simp_all
  | done => simp [Task.step] at h
  | panicked => simp [Task.step] at h

theorem step_delivered_mono {t t1 : Task} (h : t.step = some t1) :
    t.ch.delivered <+: t1.ch.delivered := by
  rcases t with ⟨pc, reader, bodyClosed, ch⟩
  cases pc with
  | read =>
    simp only [Task.step] at h
    split at h <;> (injection h with h; subst h; exact List.prefix_refl _)
  | send chunk =>
    simp only [Task.step] at h
    split at h
    · injection h with h; subst h; exact List.prefix_refl _
    · injection h with h; subst h; exact List.prefix_append _ _
  | closeBody =>
    simp only [Task.step, Option.some.injEq] at h
    subst h; exact List.prefix_refl _
  | closeChan =>
    simp only [Task.step] at h
    split at h <;> (injection h with h; subst h; exact List.prefix_refl _)
  | done => simp [Task.step] at h
  | panicked => simp [Task.step] at h

theorem run_delivered_mono (n : Nat) : ∀ t : Task, t.ch.delivered <+: (t.run n).ch.delivered := by
  induction n with
  | zero => intro t; exact List.prefix_refl _
  | succ k ih =>
    intro t
    cases hs : t.step with
    | some t1 =>
      rw [run_succ k t t1 hs]
      exact (step_delivered_mono hs).trans (ih t1)
    | none => rw [run_of_step_none _ t hs]

theorem closes_le_one (n : Nat) : ∀ t : Task, t.Inv → t.closes n ≤ 1 ∧
    (t.ch.closed = true → t.closes n = 0) := by
  induction n with
  | zero => intro t _; simp [Task.closes]
  | succ k ih =>
    intro t hinv
    cases hs : t.step with
    | none => simp [Task.closes, hs]
    | some t1 =>
      have hstep := (inv_facts hinv).2.2
      have h1 := ih t1 (inv_step hinv hs)
      constructor
      · simp only [Task.closes, hs]
        by_cases hc : t1.ch.closed = true
        · have := h1.2 hc
          split <;> omega
        · simp only [hc, Bool.and_false, Bool.false_eq_true, if_false]
          omega
      · intro hc
        rw [hstep hc] at hs
        cases hs

/-- The whole run from a reading state: after `2 * chunks + 3` steps, and from then on,
the goroutine has stopped in its final state, having closed the channel once. -/
theorem run_complete (t : Task) (chunks : List Bytes) (tail : Bytes)
    (hpc : t.pc = Pc.read) (hopen : t.ch.closed = false)
    (hp : t.reader.pending = chunks.flatten ++ tail) (hchunks : ∀ c ∈ chunks, IsChunk c)
    (htail : newline ∉ tail) (m : Nat) (hm : 2 * chunks.length + 3 ≤ m) :
    t.run m = Task.final t.reader.src.ending (t.ch.delivered ++ chunks) := by
  obtain ⟨k, rfl⟩ := Nat.exists_eq_add_of_le hm
  rw [run_add, run_chunks chunks t tail hpc hopen hp hchunks htail, run_final]

theorem closes_run (n : Nat) : ∀ (t : Task), t.ch.closed = false → (t.run n).ch.closed = true →
    t.closes n = 1 := by
  induction n with
  | zero => intro t h1 h2; simp [Task.run, h1] at h2
  | succ k ih =>
    intro t h1 h2
    cases hs : t.step with
    | none => rw [run_of_step_none _ t hs, h1] at h2; cases h2
    | some t1 =>
      rw [run_succ k t t1 hs] at h2
      simp only [Task.closes, hs]
      by_cases hc : t1.ch.closed = true
      · have hnone : ∀ j, Task.closes j t1 = 0 := by
          intro j
          cases j with
          | zero => rfl
          | succ i =>
            have : t1.step = none := by
              rcases t1 with ⟨pc, reader, bodyClosed, ch⟩
              rcases t with ⟨pc0, reader0, bodyClosed0, ch0⟩
              cases pc0 <;> simp only [Task.step] at hs
              · split at hs <;> (injection hs with hs; injection hs with _ _ _ h4; subst h4; simp_all)
              · split at hs <;> (injection hs with hs; injection hs with e1 _ _ h4; subst h4 e1; simp_all [Task.step])
              · injection hs with hs; injection hs with _ _ _ h4; subst h4; simp_all
              · split at hs <;> (injection hs with hs; injection hs with e1 _ _ h4; subst h4 e1; simp_all [Task.step])
              · cases hs
              · cases hs
            simp [Task.closes, this]
        simp [h1, hc, hnone k]
      · simp only [Bool.not_eq_true] at hc
        simp [hc, ih t1 hc h2]

/-! ## `executeStreamRequest` -/

theorem executeStreamRequest_ok (c : Client) (method path : Bytes) (ch : Chan)
    (req : Request) (res : Response) (h : NewRequest method path none = Except.ok req)
    (hdo : c.Do (withContentType req none) = Except.ok res) (hs : res.StatusCode = StatusOK) :
    c.executeStreamRequest method path ch =
      { err := none, trace := [], task := some (Task.start res.Body ch) } := by
  simp [Client.executeStreamRequest, sendRequest_ok c method path none req res h hdo hs]

theorem executeStreamRequest_failed (c : Client) (method path : Bytes) (ch : Chan) (e : GoError)
    (h : (c.sendRequest method path none).err = some e) :
    (c.executeStreamRequest method path ch).err = some e
      ∧ (c.executeStreamRequest method path ch).task = none := by
  simp [Client.executeStreamRequest, h]

theorem start_pending (body : Body) (ch : Chan) :
    (Task.start body ch).reader.pending = body.data := by
  simp [Task.start, NewReader, Reader.pending]

/-- The goroutine started on a body, run to its end. -/
theorem start_run (body : Body) (ch : Chan) (hopen : ch.closed = false) (chunks : List Bytes)
    (tail : Bytes) (hdata : body.data = chunks.flatten ++ tail)
    (hchunks : ∀ c ∈ chunks, IsChunk c) (htail : newline ∉ tail) (m : Nat)
    (hm : 2 * chunks.length + 3 ≤ m) :
    (Task.start body ch).run m = Task.final body.ending (ch.delivered ++ chunks) :=
  run_complete (Task.start body ch) chunks tail rfl hopen
    (by rw [start_pending, hdata]) hchunks htail m hm

/-- C5. When the handshake succeeds with status 200 and the body is the concatenation
of newline-terminated chunks, `executeStreamRequest` returns a nil error and the
goroutine delivers exactly those chunks, in order, then closes the channel: every
reachable state has delivered a prefix of them, all of them once the channel is
closed, and the complete run ends with the channel closed after exactly those
deliveries. -/
theorem executeStreamRequest_delivers_chunks (c : Client) (method path : Bytes)
    (req : Request) (res : Response) (chunks : List Bytes)
    (hreq : NewRequest method path none = Except.ok req)
    (hdo : c.Do (withContentType req none) = Except.ok res)
    (hstatus : res.StatusCode = 200)
    (hchunks : ∀ x ∈ chunks, x ≠ [] ∧ x.getLast? = some newline ∧ x.count newline = 1)
    (hbody : res.Body.data = chunks.flatten) :
    (c.executeStreamRequest method path { closed := false, delivered := [] }).err = none
      ∧ ∃ t0, (c.executeStreamRequest method path { closed := false, delivered := [] }).task
            = some t0
        ∧ (∃ n, ∀ m, n ≤ m → (t0.run m).pc = Pc.done
              ∧ (t0.run m).ch = { closed := true, delivered := chunks })
        ∧ (∀ t, Reach t0 t → t.ch.delivered <+: chunks
              ∧ (t.ch.closed = true → t.ch.delivered = chunks)) := by
  rw [executeStreamRequest_ok c method path _ req res hreq hdo hstatus]
  refine ⟨rfl, _, rfl, ?_⟩
  have hc : ∀ x ∈ chunks, IsChunk x := fun x hx =>
    (isChunk_iff x).mpr ⟨(hchunks x hx).2.1, (hchunks x hx).2.2⟩
  have hrun : ∀ m, 2 * chunks.length + 3 ≤ m →
      (Task.start res.Body { closed := false, delivered := [] }).run m
        = Task.final res.Body.ending chunks := by
    intro m hm
    have := start_run res.Body { closed := false, delivered := [] } rfl chunks []
      (by simp [hbody]) hc (by simp) m hm
    simpa using this
  refine ⟨⟨2 * chunks.length + 3, fun m hm => ?_⟩, ?_⟩
  · rw [hrun m hm]; exact ⟨rfl, rfl⟩
  · intro t hreach
    obtain ⟨k, rfl⟩ := run_of_reach hreach
    have hfin := hrun (k + (2 * chunks.length + 3)) (by omega)
    rw [run_add] at hfin
    constructor
    · have := run_delivered_mono (2 * chunks.length + 3)
        ((Task.start res.Body { closed := false, delivered := [] }).run k)
      rw [hfin] at this
      exact this
    · intro hclosed
      have hinv := inv_reach (inv_start res.Body { closed := false, delivered := [] } rfl)
        (reach_run k _)
      rw [run_of_step_none _ _ ((inv_facts hinv).2.2 hclosed)] at hfin
      rw [hfin]; rfl

/-- C5, the example of the specification: the chunks `a\n`, `b\n`, however the
transport cuts the body into reads, are delivered as `["a\n", "b\n"]` and then the
channel closes. -/
theorem executeStreamRequest_delivers_chunks_witness :
    (∃ t0, ((mockClient [] 200 [ofString "a", ofString "\nb\n"] Ending.eof).executeStreamRequest
          (ofString "GET") (ofString "https://stream.shodan.io/shodan/banners?key=k")
          { closed := false, delivered := [] }).task = some t0
        ∧ (∃ n, ∀ m, n ≤ m → (t0.run m).pc = Pc.done
              ∧ (t0.run m).ch = { closed := true, delivered := [ofString "a\n", ofString "b\n"] })
        ∧ (∀ t, Reach t0 t → t.ch.delivered <+: [ofString "a\n", ofString "b\n"]
              ∧ (t.ch.closed = true → t.ch.delivered = [ofString "a\n", ofString "b\n"]))) :=
  (executeStreamRequest_delivers_chunks
    (mockClient [] 200 [ofString "a", ofString "\nb\n"] Ending.eof)
    (ofString "GET") (ofString "https://stream.shodan.io/shodan/banners?key=k")
    { Method := ofString "GET",
      URL := { Scheme := ofString "https", Hier := ofString "//stream.shodan.io/shodan/banners",
               ForceQuery := false, RawQuery := ofString "key=k", Fragment := [] },
      Body := none, Header := [] }
    { StatusCode := 200,
      Body := { pieces := [ofString "a", ofString "\nb\n"], ending := Ending.eof } }
    [ofString "a\n", ofString "b\n"] rfl rfl rfl (by decide) (by decide)).2

theorem start_terminates (body : Body) (ch : Chan) (hopen : ch.closed = false) :
    ∃ n, ∀ m, n ≤ m → ∃ delivered,
      (Task.start body ch).run m = Task.final body.ending delivered := by
  obtain ⟨chunks, tail, hdata, hchunks, htail⟩ := exists_chunks body.data
  exact ⟨2 * chunks.length + 3, fun m hm =>
    ⟨_, start_run body ch hopen chunks tail hdata hchunks htail m hm⟩⟩

/-- C8. In a successful subscription on an open channel, the call itself leaves the
channel to the goroutine untouched; in every reachable state of the goroutine no send
on or close of a closed channel has happened (no panic), a closed channel means a
closed body, and nothing at all happens after the close; the step that closes the
channel is the goroutine's `close(ch)`, taken with the body closed and delivering
nothing; and the close happens exactly once: never more than once in any number of
steps, and once in every run long enough to finish. -/
theorem executeStreamRequest_channel_closed_once (c : Client) (method path : Bytes)
    (ch : Chan) (req : Request) (res : Response)
    (hreq : NewRequest method path none = Except.ok req)
    (hdo : c.Do (withContentType req none) = Except.ok res)
    (hstatus : res.StatusCode = 200)
    (hopen : ch.closed = false) :
    ∃ t0, (c.executeStreamRequest method path ch).task = some t0
      ∧ t0.ch = ch ∧ t0.bodyClosed = false
      ∧ (∀ t, Reach t0 t →
            t.pc ≠ Pc.panicked
            ∧ (t.ch.closed = true → t.bodyClosed = true)
            ∧ (t.ch.closed = true → ∀ t1, ¬ Step t t1)
            ∧ (∀ t1, Step t t1 → t1.ch.closed = true →
                t.pc = Pc.closeChan ∧ t.bodyClosed = true ∧ t.ch.closed = false
                  ∧ t1.ch.delivered = t.ch.delivered))
      ∧ (∀ n, t0.closes n ≤ 1)
      ∧ (∃ n, ∀ m, n ≤ m → (t0.run m).pc = Pc.done ∧ (t0.run m).ch.closed = true
            ∧ t0.closes m = 1) := by
  rw [executeStreamRequest_ok c method path ch req res hreq hdo hstatus]
  have hinv0 := inv_start res.Body ch hopen
  refine ⟨_, rfl, rfl, rfl, ?_, ?_, ?_⟩
  · intro t hreach
    have hinv := inv_reach hinv0 hreach
    obtain ⟨h1, h2, h3⟩ := inv_facts hinv
    refine ⟨h1, h2, ?_, fun t1 hstep hclosed => closing_step hinv hstep hclosed⟩
    intro hclosed t1 hstep
    have : t.step = some t1 := hstep
    rw [h3 hclosed] at this
    cases this
  · exact fun n => (closes_le_one n _ hinv0).1
  · obtain ⟨n, hn⟩ := start_terminates res.Body ch hopen
    refine ⟨n, fun m hm => ?_⟩
    obtain ⟨d, hd⟩ := hn m hm
    have hc : ((Task.start res.Body ch).run m).ch.closed = true := by rw [hd]; rfl
    exact ⟨by rw [hd]; rfl, hc, closes_run m _ hopen hc⟩

/-- C8 on a concrete stream: status 200, body `a\nb\n` and then a read error. -/
theorem executeStreamRequest_channel_closed_once_witness :
    ∃ t0, ((mockClient [] 200 [ofString "a\nb\n"]
              (Ending.failure (GoError.lib (ofString "connection reset")))).executeStreamRequest
            (ofString "GET") (ofString "https://stream.shodan.io/shodan/banners?key=k")
            { closed := false, delivered := [] }).task = some t0
      ∧ t0.ch = { closed := false, delivered := [] } ∧ t0.bodyClosed = false
      ∧ (∀ t, Reach t0 t →
            t.pc ≠ Pc.panicked
            ∧ (t.ch.closed = true → t.bodyClosed = true)
            ∧ (t.ch.closed = true → ∀ t1, ¬ Step t t1)
            ∧ (∀ t1, Step t t1 → t1.ch.closed = true →
                t.pc = Pc.closeChan ∧ t.bodyClosed = true ∧ t.ch.closed = false
                  ∧ t1.ch.delivered = t.ch.delivered))
      ∧ (∀ n, t0.closes n ≤ 1)
      ∧ (∃ n, ∀ m, n ≤ m → (t0.run m).pc = Pc.done ∧ (t0.run m).ch.closed = true
            ∧ t0.closes m = 1) :=
  executeStreamRequest_channel_closed_once
    (mockClient [] 200 [ofString "a\nb\n"]
      (Ending.failure (GoError.lib (ofString "connection reset"))))
    (ofString "GET") (ofString "https://stream.shodan.io/shodan/banners?key=k")
    { closed := false, delivered := [] }
    { Method := ofString "GET",
      URL := { Scheme := ofString "https", Hier := ofString "//stream.shodan.io/shodan/banners",
               ForceQuery := false, RawQuery := ofString "key=k", Fragment := [] },
      Body := none, Header := [] }
    { StatusCode := 200,
      Body := { pieces := [ofString "a\nb\n"],
                ending := Ending.failure (GoError.lib (ofString "connection reset")) } }
    rfl rfl rfl rfl

/-- C9. A failed handshake (no request could be built, the transport failed, or the
status is not 200) makes `executeStreamRequest` return that error and start no
goroutine, so nothing is ever sent on the channel and it is never closed; a
successful handshake returns nil with the goroutine started on the untouched channel,
and whatever way the reads of the body end, a read failure included, the only
outcome is that the goroutine closes the body and the channel and stops. -/
theorem executeStreamRequest_handshake (c : Client) (method path : Bytes) (ch : Chan) :
    (∀ e, NewRequest method path none = Except.error e →
        (c.executeStreamRequest method path ch).err = some e
          ∧ (c.executeStreamRequest method path ch).task = none)
    ∧ (∀ req e, NewRequest method path none = Except.ok req →
        c.Do (withContentType req none) = Except.error e →
        (c.executeStreamRequest method path ch).err = some e
          ∧ (c.executeStreamRequest method path ch).task = none
          ∧ (c.executeStreamRequest method path ch).trace = [])
    ∧ (∀ req res, NewRequest method path none = Except.ok req →
        c.Do (withContentType req none) = Except.ok res → res.StatusCode ≠ 200 →
        (c.executeStreamRequest method path ch).err = some (getErrorFromResponse res).1
          ∧ (c.executeStreamRequest method path ch).task = none)
    ∧ (∀ req res, NewRequest method path none = Except.ok req →
        c.Do (withContentType req none) = Except.ok res → res.StatusCode = 200 →
        (c.executeStreamRequest method path ch).err = none
          ∧ (c.executeStreamRequest method path ch).task = some (Task.start res.Body ch)
          ∧ (ch.closed = false → ∃ n, ∀ m, n ≤ m →
              ((Task.start res.Body ch).run m).pc = Pc.done
                ∧ ((Task.start res.Body ch).run m).bodyClosed = true
                ∧ ((Task.start res.Body ch).run m).ch.closed = true)) := by
  refine ⟨?_, ?_, ?_, ?_⟩
  · intro e h
    exact executeStreamRequest_failed c method path ch e
      (by rw [sendRequest_newRequest_error c method path none e h])
  · intro req e h hdo
    have hs := sendRequest_transport_error c method path none req e h hdo
    refine ⟨(executeStreamRequest_failed c method path ch e (by rw [hs])).1,
      (executeStreamRequest_failed c method path ch e (by rw [hs])).2, ?_⟩
    simp [Client.executeStreamRequest, hs]
  · intro req res h hdo hstatus
    exact executeStreamRequest_failed c method path ch _
      (by rw [sendRequest_status_error c method path none req res h hdo hstatus])
  · intro req res h hdo hstatus
    rw [executeStreamRequest_ok c method path ch req res h hdo hstatus]
    refine ⟨rfl, rfl, fun hopen => ?_⟩
    obtain ⟨n, hn⟩ := start_terminates res.Body ch hopen
    refine ⟨n, fun m hm => ?_⟩
    obtain ⟨d, hd⟩ := hn m hm
    rw [hd]
    exact ⟨rfl, rfl, rfl⟩

/-- C10. Whatever the body (any bytes, cut into reads in any way, ending in EOF or in
a read error), the complete run of the goroutine stops with the channel closed and
with all of the body read; the concatenation of the delivered chunks is a prefix of
the body, is empty or ends in a newline, and contains every prefix of the body that
ends in a newline (so it is the longest one, and empty when the body has no
newline); every delivered chunk ends in a newline and has exactly one. What follows
the last newline has been read and is never delivered. -/
theorem executeStreamRequest_delivers_up_to_last_newline (c : Client) (method path : Bytes)
    (req : Request) (res : Response)
    (hreq : NewRequest method path none = Except.ok req)
    (hdo : c.Do (withContentType req none) = Except.ok res)
    (hstatus : res.StatusCode = 200) :
    ∃ t0, (c.executeStreamRequest method path { closed := false, delivered := [] }).task
          = some t0
      ∧ ∃ n, ∀ m, n ≤ m →
          (t0.run m).pc = Pc.done ∧ (t0.run m).ch.closed = true
          ∧ (t0.run m).reader.pending = []
          ∧ (t0.run m).ch.delivered.flatten <+: res.Body.data
          ∧ ((t0.run m).ch.delivered.flatten = []
              ∨ (t0.run m).ch.delivered.flatten.getLast? = some newline)
          ∧ (∀ p, p <+: res.Body.data → p.getLast? = some newline →
                p <+: (t0.run m).ch.delivered.flatten)
          ∧ (newline ∉ res.Body.data → (t0.run m).ch.delivered = [])
          ∧ (∀ x ∈ (t0.run m).ch.delivered, x.getLast? = some newline ∧ x.count newline = 1) := by
  rw [executeStreamRequest_ok c method path _ req res hreq hdo hstatus]
  refine ⟨_, rfl, ?_⟩
  obtain ⟨chunks, tail, hdata, hchunks, htail⟩ := exists_chunks res.Body.data
  refine ⟨2 * chunks.length + 3, fun m hm => ?_⟩
  have hrun := start_run res.Body { closed := false, delivered := [] } rfl chunks tail hdata
    hchunks htail m hm
  simp only [List.nil_append] at hrun
  rw [hrun]
  refine ⟨rfl, rfl, rfl, ⟨tail, hdata.symm⟩, ?_, ?_, ?_, ?_⟩
  · show chunks.flatten = [] ∨ chunks.flatten.getLast? = some newline
    rcases List.eq_nil_or_concat chunks with rfl | ⟨cs, x, rfl⟩
    · exact Or.inl rfl
    · right
      obtain ⟨a, rfl, -⟩ := hchunks x (by simp)
      simp [List.flatten_append, ← List.append_assoc]
  · intro p hp hlast
    show p <+: chunks.flatten
    rw [hdata] at hp
    rcases List.prefix_or_prefix_of_prefix hp (List.prefix_append chunks.flatten tail) with h | h
    · exact h
    · obtain ⟨q, rfl⟩ := h
      have hq : q <+: tail := (List.prefix_append_right_inj _).mp hp
      rcases List.eq_nil_or_concat q with rfl | ⟨q1, b, rfl⟩
      · simp
      · exfalso
        simp only [List.concat_eq_append, ← List.append_assoc, List.getLast?_append,
          List.getLast?_singleton] at hlast
        simp at hlast
        subst hlast
        exact htail (hq.subset (by simp))
  · intro hno
    show chunks = []
    cases chunks with
    | nil => rfl
    | cons x cs =>
      exfalso
      obtain ⟨a, rfl, -⟩ := hchunks x (List.mem_cons_self _ _)
      apply hno
      rw [hdata]
      simp
  · intro x hx
    exact (isChunk_iff x).mp (hchunks x hx)

/-- C10 on a concrete stream: the body `a\nbb\ncc`, cut into three reads, delivers
`a\n` and `bb\n`; the trailing `cc` is read and dropped. -/
theorem executeStreamRequest_delivers_up_to_last_newline_witness :
    ∃ t0, ((mockClient [] 200 [ofString "a\nb", ofString "b\n", ofString "cc"]
              Ending.eof).executeStreamRequest
            (ofString "GET") (ofString "https://stream.shodan.io/shodan/banners?key=k")
            { closed := false, delivered := [] }).task = some t0
      ∧ ∃ n, ∀ m, n ≤ m →
          (t0.run m).pc = Pc.done ∧ (t0.run m).ch.closed = true
          ∧ (t0.run m).reader.pending = []
          ∧ (t0.run m).ch.delivered.flatten <+: ofString "a\nbb\ncc"
          ∧ ((t0.run m).ch.delivered.flatten = []
              ∨ (t0.run m).ch.delivered.flatten.getLast? = some newline)
          ∧ (∀ p, p <+: ofString "a\nbb\ncc" → p.getLast? = some newline →
                p <+: (t0.run m).ch.delivered.flatten)
          ∧ (newline ∉ ofString "a\nbb\ncc" → (t0.run m).ch.delivered = [])
          ∧ (∀ x ∈ (t0.run m).ch.delivered, x.getLast? = some newline ∧ x.count newline = 1) :=
  executeStreamRequest_delivers_up_to_last_newline
    (mockClient [] 200 [ofString "a\nb", ofString "b\n", ofString "cc"] Ending.eof)
    (ofString "GET") (ofString "https://stream.shodan.io/shodan/banners?key=k")
    { Method := ofString "GET",
      URL := { Scheme := ofString "https", Hier := ofString "//stream.shodan.io/shodan/banners",
               ForceQuery := false, RawQuery := ofString "key=k", Fragment := [] },
      Body := none, Header := [] }
    { StatusCode := 200,
      Body := { pieces := [ofString "a\nb", ofString "b\n", ofString "cc"],
                ending := Ending.eof } }
    rfl rfl rfl

/-! ## `io.Copy` and `parseResponse` -/

theorem writesOf_append (a b : List Event) : writesOf (a ++ b) = writesOf a ++ writesOf b := by
  induction a with
  | nil => rfl
  | cons e rest ih => cases e <;> simp [writesOf, ih]

theorem readsOf_append (a b : List Event) : readsOf (a ++ b) = readsOf a ++ readsOf b := by
  induction a with
  | nil => rfl
  | cons e rest ih => cases e <;> simp [readsOf, ih]

/-- `io.Copy` into a sink whose writes succeed, from a body that ends in EOF. -/
theorem copyLoop_unbounded : ∀ (pieces : List Bytes) (written : Bytes) (trace : List Event),
    ∃ tr, copyLoop pieces Ending.eof { written := written, room := none } trace
        = (none, { written := written ++ pieces.flatten, room := none }, trace ++ tr)
      ∧ Event.jsonDecode ∉ tr ∧ Event.bodyClose ∉ tr
      ∧ writesOf tr = pieces.flatten ∧ readsOf tr = pieces.flatten
  | [], written, trace => ⟨[], by simp [copyLoop], by simp, by simp, rfl, rfl⟩
  | p :: rest, written, trace => by
    by_cases hp : p.length > 0
    · obtain ⟨tr, h1, h2, h3, h4, h5⟩ := copyLoop_unbounded rest (written ++ p)
        (trace ++ [Event.bodyRead p, Event.sinkWrite (p.take p.length)])
      refine ⟨[Event.bodyRead p, Event.sinkWrite (p.take p.length)] ++ tr, ?_, ?_, ?_, ?_, ?_⟩
      · simp only [copyLoop, hp, if_true, Writer.Write, bne_self_eq_false, Bool.false_eq_true,
          if_false]
        rw [h1]
        simp
      · simp [h2]
      · simp [h3]
      · simp [writesOf_append, writesOf, h4]
      · simp [readsOf_append, readsOf, h5]
    · have hnil : p = [] := by
        cases p with
        | nil => rfl
        | cons a b => simp at hp
      subst hnil
      obtain ⟨tr, h1, h2, h3, h4, h5⟩ := copyLoop_unbounded rest written
        (trace ++ [Event.bodyRead []])
      refine ⟨[Event.bodyRead []] ++ tr, ?_, ?_, ?_, ?_, ?_⟩
      · simp only [copyLoop, List.length_nil, gt_iff_lt, lt_self_iff_false, if_false]
        rw [h1]
        simp
      · simp [h2]
      · simp [h3]
      · simp [writesOf_append, writesOf, h4]
      · simp [readsOf_append, readsOf, h5]

/-- C6. With a byte sink whose writes succeed as destination, `parseResponse` copies
the body to the sink byte for byte and returns nil: the sink holds its earlier content
followed by the body bytes, the writes are exactly the body bytes in order, and no
JSON decoder is run, whether the body is valid JSON or not; the same holds for
`executeRequest` on a response with status 200, which then closes the body. -/
theorem parseResponse_writer_copies (c : Client) (written : Bytes) (pieces : List Bytes) :
    ((c.parseResponse (Destination.writer { written := written, room := none })
          { pieces := pieces, ending := Ending.eof }).err = none
      ∧ (∃ w, (c.parseResponse (Destination.writer { written := written, room := none })
          { pieces := pieces, ending := Ending.eof }).destination = Destination.writer w
          ∧ w.written = written ++ pieces.flatten)
      ∧ writesOf (c.parseResponse (Destination.writer { written := written, room := none })
          { pieces := pieces, ending := Ending.eof }).trace = pieces.flatten
      ∧ Event.jsonDecode ∉ (c.parseResponse (Destination.writer { written := written, room := none })
          { pieces := pieces, ending := Ending.eof }).trace)
    ∧ (∀ method path body req res, NewRequest method path body = Except.ok req →
        c.Do (withContentType req body) = Except.ok res → res.StatusCode = 200 →
        res.Body = { pieces := pieces, ending := Ending.eof } →
        (c.executeRequest method path (Destination.writer { written := written, room := none })
            body).err = none
        ∧ (∃ w, (c.executeRequest method path
              (Destination.writer { written := written, room := none }) body).destination
              = Destination.writer w
            ∧ w.written = written ++ pieces.flatten)
        ∧ writesOf (c.executeRequest method path
              (Destination.writer { written := written, room := none }) body).trace
            = pieces.flatten
        ∧ Event.jsonDecode ∉ (c.executeRequest method path
              (Destination.writer { written := written, room := none }) body).trace) := by
  obtain ⟨tr, h1, h2, _, h4, _⟩ := copyLoop_unbounded pieces written []
  have hp : c.parseResponse (Destination.writer { written := written, room := none })
      { pieces := pieces, ending := Ending.eof }
      = { err := none,
          destination := Destination.writer { written := written ++ pieces.flatten, room := none },
          trace := tr } := by
    simp only [Client.parseResponse, Copy]
    rw [h1]
    simp
  refine ⟨?_, ?_⟩
  · rw [hp]
    exact ⟨rfl, ⟨_, rfl, rfl⟩, h4, h2⟩
  · intro method path body req res hreq hdo hstatus hbody
    rw [executeRequest_ok c method path _ body req res hreq hdo hstatus, hbody, hp]
    refine ⟨rfl, ⟨_, rfl, rfl⟩, ?_, ?_⟩
    · simp [writesOf_append, writesOf, h4]
    · simp [h2]

/-! ## The response body after `executeRequest` -/

/-- On a response with status 200 the body is closed when `executeRequest` returns,
whether decoding succeeded or not: the close is the last effect. -/
theorem executeRequest_closes_body_on_200 (c : Client) (method path : Bytes) (d : Destination)
    (body : Option Bytes) (req : Request) (res : Response)
    (hreq : NewRequest method path body = Except.ok req)
    (hdo : c.Do (withContentType req body) = Except.ok res) (hstatus : res.StatusCode = 200) :
    (c.executeRequest method path d body).trace.getLast? = some Event.bodyClose := by
  rw [executeRequest_ok c method path d body req res hreq hdo hstatus]
  simp

/-- On a response whose status is not 200 the body is read and never closed. -/
theorem executeRequest_leaves_body_open (c : Client) (method path : Bytes) (d : Destination)
    (body : Option Bytes) (req : Request) (res : Response)
    (hreq : NewRequest method path body = Except.ok req)
    (hdo : c.Do (withContentType req body) = Except.ok res) (hstatus : res.StatusCode ≠ 200) :
    Event.bodyClose ∉ (c.executeRequest method path d body).trace := by
  rw [(executeRequest_status_error c method path d body req res hreq hdo hstatus).2]
  simp

/-- C7, at the failing input: the transport answers 403 with the body
`{"error":"invalid key"}`; `executeRequest` returns the error `invalid key`, and its
only effect on the body is the read: the body is not closed. -/
theorem executeRequest_non200_body_not_closed :
    ((mockClient [] 403 [ofString "\x7b\"error\":\"invalid key\"\x7d"] Ending.eof).executeRequest
        (ofString "GET") (ofString "https://api.shodan.io/api-info?key=k")
        (Destination.writer { written := [], room := none }) none).trace
      = [Event.bodyRead (ofString "\x7b\"error\":\"invalid key\"\x7d")]
    ∧ Event.bodyClose ∉
      ((mockClient [] 403 [ofString "\x7b\"error\":\"invalid key\"\x7d"] Ending.eof).executeRequest
        (ofString "GET") (ofString "https://api.shodan.io/api-info?key=k")
        (Destination.writer { written := [], room := none }) none).trace := by
  have h := (executeRequest_status_error
    (mockClient [] 403 [ofString "\x7b\"error\":\"invalid key\"\x7d"] Ending.eof)
    (ofString "GET") (ofString "https://api.shodan.io/api-info?key=k")
    (Destination.writer { written := [], room := none }) none
    { Method := ofString "GET",
      URL := { Scheme := ofString "https", Hier := ofString "//api.shodan.io/api-info",
               ForceQuery := false, RawQuery := ofString "key=k", Fragment := [] },
      Body := none, Header := [] }
    { StatusCode := 403,
      Body := { pieces := [ofString "\x7b\"error\":\"invalid key\"\x7d"], ending := Ending.eof } }
    rfl rfl (by decide)).2
  rw [h]
  exact ⟨rfl, by simp⟩

/-! ## The order of keys and `url.Values` -/

theorem bytesLt_irrefl : ∀ a : Bytes, bytesLt a a = false
  | [] => rfl
  | x :: s => by simp [bytesLt, bytesLt_irrefl s]

theorem bytesLt_trans : ∀ {a b c : Bytes}, bytesLt a b = true → bytesLt b c = true →
    bytesLt a c = true
  | [], [], _, h, _ => by simp [bytesLt] at h
  | [], _ :: _, [], _, h => by simp [bytesLt] at h
  | [], _ :: _, _ :: _, _, _ => rfl
  | _ :: _, [], _, h, _ => by simp [bytesLt] at h
  | _ :: _, _ :: _, [], _, h => by simp [bytesLt] at h
  | x :: s, y :: t, z :: u, h1, h2 => by
    simp only [bytesLt, Bool.or_eq_true, decide_eq_true_eq, Bool.and_eq_true, beq_iff_eq] at *
    rcases h1 with h1 | ⟨rfl, h1⟩
    · rcases h2 with h2 | ⟨rfl, _⟩
      · exact Or.inl (by omega)
      · exact Or.inl h1
    · rcases h2 with h2 | ⟨rfl, h2⟩
      · exact Or.inl h2
      · exact Or.inr ⟨rfl, bytesLt_trans h1 h2⟩

theorem bytesLt_total : ∀ {a b : Bytes}, a ≠ b → bytesLt a b = false → bytesLt b a = true
  | [], [], h, _ => absurd rfl h
  | [], _ :: _, _, h => by simp [bytesLt] at h
  | _ :: _, [], _, _ => rfl
  | x :: s, y :: t, hne, h => by
    simp only [bytesLt, Bool.or_eq_false_iff, decide_eq_false_iff_not, not_lt,
      Bool.and_eq_false_imp, beq_iff_eq] at h
    simp only [bytesLt, Bool.or_eq_true, decide_eq_true_eq, Bool.and_eq_true, beq_iff_eq]
    by_cases hxy : x = y
    · subst hxy
      right
      refine ⟨rfl, bytesLt_total (fun e => hne (by rw [e])) (h.2 rfl)⟩
    · left
      omega

theorem bytesLt_ne {a b : Bytes} (h : bytesLt a b = true) : a ≠ b := by
  rintro rfl
  rw [bytesLt_irrefl] at h
  cases h

theorem Values.lookup_of_lt : ∀ (m : Values) (key : Bytes),
    (∀ e ∈ m, bytesLt key e.1 = true) → Values.lookup m key = []
  | [], _, _ => rfl
  | (k, vs) :: rest, key, h => by
    have hk : bytesLt key k = true := h (k, vs) (List.mem_cons_self _ _)
    have hne : (k == key) = false := by
      simp only [beq_eq_false_iff_ne, ne_eq]
      exact fun e => bytesLt_ne hk e.symm
    simp only [Values.lookup, hne, Bool.false_eq_true, if_false]
    exact Values.lookup_of_lt rest key (fun e he => h e (List.mem_cons_of_mem _ he))

theorem Values.Add_sorted : ∀ (m : Values) (key value : Bytes), Values.Sorted m →
    Values.Sorted (Values.Add m key value) ∧
      ∀ b, (∀ e ∈ m, bytesLt b e.1 = true) → bytesLt b key = true →
        ∀ e ∈ Values.Add m key value, bytesLt b e.1 = true
  | [], key, value, _ => by
    refine ⟨by simp [Values.Add, Values.Sorted], ?_⟩
    intro b _ hb e he
    simp only [Values.Add, List.mem_singleton] at he
    subst he
    exact hb
  | (k, vs) :: rest, key, value, hs => by
    have hs' : (∀ e ∈ rest, bytesLt k e.1 = true) ∧ Values.Sorted rest := by
      simpa [Values.Sorted] using hs
    by_cases h1 : (k == key) = true
    · simp only [Values.Add, h1, if_true]
      refine ⟨by simpa [Values.Sorted] using hs', ?_⟩
      intro b hb _ e he
      rcases List.mem_cons.mp he with rfl | he
      · exact hb (k, vs) (List.mem_cons_self _ _)
      · exact hb e (List.mem_cons_of_mem _ he)
    · by_cases h2 : bytesLt key k = true
      · simp only [Values.Add, h1, Bool.false_eq_true, if_false, h2, if_true]
        refine ⟨?_, ?_⟩
        · simp only [Values.Sorted, List.pairwise_cons]
          refine ⟨?_, by simpa [Values.Sorted] using hs'⟩
          intro e he
          rcases List.mem_cons.mp he with rfl | he
          · exact h2
          · exact bytesLt_trans h2 (hs'.1 e he)
        · intro b hb hbk e he
          rcases List.mem_cons.mp he with rfl | he
          · exact hbk
          · exact hb e he
      · simp only [Values.Add, h1, Bool.false_eq_true, if_false, h2]
        obtain ⟨ih1, ih2⟩ := Values.Add_sorted rest key value hs'.2
        have hkk : bytesLt k key = true := by
          apply bytesLt_total
          · intro e; apply h1; simp [e]
          · simpa using h2
        refine ⟨?_, ?_⟩
        · simp only [Values.Sorted, List.pairwise_cons]
          exact ⟨ih2 k hs'.1 hkk, ih1⟩
        · intro b hb hbk e he
          rcases List.mem_cons.mp he with rfl | he
          · exact hb (k, vs) (List.mem_cons_self _ _)
          · exact ih2 b (fun e he => hb e (List.mem_cons_of_mem _ he)) hbk e he

theorem Values.lookup_Add : ∀ (m : Values) (k v key : Bytes), Values.Sorted m →
    Values.lookup (Values.Add m k v) key =
      if k = key then Values.lookup m key ++ [v] else Values.lookup m key
  | [], k, v, key, _ => by
    by_cases h : k = key <;> simp [Values.Add, Values.lookup, h]
  | (k0, vs) :: rest, k, v, key, hs => by
    have hs' : (∀ e ∈ rest, bytesLt k0 e.1 = true) ∧ Values.Sorted rest := by
      simpa [Values.Sorted] using hs
    by_cases h1 : k0 = k
    · subst h1
      by_cases h : k0 = key <;> simp [Values.Add, Values.lookup, h]
    · have h1' : (k0 == k) = false := by simpa using h1
      by_cases h2 : bytesLt k k0 = true
      · simp only [Values.Add, h1', Bool.false_eq_true, if_false, h2, if_true]
        by_cases h : k = key
        · subst h
          have hrest := Values.lookup_of_lt rest k (fun e he => bytesLt_trans h2 (hs'.1 e he))
          simp [Values.lookup, h1', hrest]
        · have h' : (k == key) = false := by simpa using h
          simp [Values.lookup, h, h']
      · simp only [Values.Add, h1', Bool.false_eq_true, if_false, h2]
        have ih := Values.lookup_Add rest k v key hs'.2
        by_cases h : k0 = key
        · subst h
          have : ¬ k = k0 := fun e => h1 e.symm
          simp [Values.lookup, this]
        · have h' : (k0 == key) = false := by simpa using h
          simp only [Values.lookup, h', Bool.false_eq_true, if_false]
          exact ih

theorem Values.Get_eq (m : Values) (key : Bytes) :
    Values.Get m key = (Values.lookup m key).headD [] := by
  induction m with
  | nil => rfl
  | cons e rest ih =>
    rcases e with ⟨k, vs⟩
    by_cases h : (k == key) = true <;> simp [Values.Get, Values.lookup, h, ih]

theorem foldl_Add (kvs : List (Bytes × Bytes)) : ∀ (m : Values), Values.Sorted m →
    Values.Sorted (kvs.foldl (fun m kv => Values.Add m kv.1 kv.2) m)
      ∧ ∀ key, Values.lookup (kvs.foldl (fun m kv => Values.Add m kv.1 kv.2) m) key
          = Values.lookup m key ++ valuesFor key kvs := by
  induction kvs with
  | nil => intro m hm; exact ⟨hm, fun key => by simp [valuesFor]⟩
  | cons kv rest ih =>
    intro m hm
    obtain ⟨h1, h2⟩ := ih (Values.Add m kv.1 kv.2) (Values.Add_sorted m kv.1 kv.2 hm).1
    refine ⟨h1, fun key => ?_⟩
    simp only [List.foldl_cons]
    rw [h2 key, Values.lookup_Add m kv.1 kv.2 key hm]
    by_cases h : kv.1 = key
    · simp [valuesFor, h]
    · have : (kv.1 == key) = false := by simpa using h
      simp [valuesFor, h, this]

theorem valuesFor_pairs : ∀ (m : Values) (key : Bytes), Values.Sorted m →
    valuesFor key (Values.pairs m) = Values.lookup m key
  | [], _, _ => rfl
  | (k, vs) :: rest, key, hs => by
    have hs' : (∀ e ∈ rest, bytesLt k e.1 = true) ∧ Values.Sorted rest := by
      simpa [Values.Sorted] using hs
    have ih := valuesFor_pairs rest key hs'.2
    simp only [valuesFor] at ih ⊢
    simp only [Values.pairs, List.filter_append, List.map_append, ih]
    by_cases h : k = key
    · subst h
      have hrest := Values.lookup_of_lt rest k hs'.1
      simp [Values.lookup, hrest, List.filter_map, Function.comp_def]
    · have h' : (k == key) = false := by simpa using h
      simp [Values.lookup, h', List.filter_map, Function.comp_def]

/-! ## `QueryEscape`, `QueryUnescape` and `ParseQuery` after `Encode` -/

theorem upperhex_facts : ∀ n, n < 16 →
    isHex (upperhex n) = true ∧ unhex (upperhex n) = n ∧ unreserved (upperhex n) = true := by
  decide

theorem QueryEscape_bytes : ∀ (s : Bytes), ∀ b ∈ QueryEscape s, escByte b = true
  | [], b, h => by simp [QueryEscape] at h
  | c :: rest, b, h => by
    have ih := QueryEscape_bytes rest
    unfold QueryEscape at h
    split at h
    · rcases List.mem_cons.mp h with rfl | h
      · decide
      · exact ih b h
    · split at h
      · rename_i hu
        rcases List.mem_cons.mp h with rfl | h
        · simp [escByte, hu]
        · exact ih b h
      · rcases List.mem_cons.mp h with rfl | h
        · decide
        · rcases List.mem_cons.mp h with rfl | h
          · simp [escByte, (upperhex_facts (c / 16 % 16) (Nat.mod_lt _ (by decide))).2.2]
          · rcases List.mem_cons.mp h with rfl | h
            · simp [escByte, (upperhex_facts (c % 16) (Nat.mod_lt _ (by decide))).2.2]
            · exact ih b h

theorem QueryUnescape_cons_plain (c : Nat) (s : Bytes) (h : (c == 0x25) = false) :
    QueryUnescape (c :: s)
      = (QueryUnescape s).map (fun r => (if c == 0x2B then 0x20 else c) :: r) := by
  cases s with
  | nil => simp [QueryUnescape, h]
  | cons a t =>
    cases t with
    | nil => simp [QueryUnescape, h]
    | cons b u => simp [QueryUnescape, h]

theorem QueryUnescape_cons_percent (a b : Nat) (s : Bytes) (h : (isHex a && isHex b) = true) :
    QueryUnescape (0x25 :: a :: b :: s)
      = (QueryUnescape s).map (fun r => (unhex a * 16 + unhex b) :: r) := by
  simp [QueryUnescape, h]

theorem QueryUnescape_QueryEscape : ∀ (s : Bytes), ValidBytes s →
    QueryUnescape (QueryEscape s) = some s
  | [], _ => rfl
  | c :: rest, h => by
    have hc : c < 256 := h c (List.mem_cons_self _ _)
    have ih := QueryUnescape_QueryEscape rest (fun b hb => h b (List.mem_cons_of_mem _ hb))
    unfold QueryEscape
    split
    · rename_i h20
      simp only [beq_iff_eq] at h20
      subst h20
      rw [QueryUnescape_cons_plain _ _ (by decide), ih]
      rfl
    · rename_i h20
      split
      · rename_i hu
        have h25 : (c == 0x25) = false := by
          cases h25 : c == 0x25
          · rfl
          · simp only [beq_iff_eq] at h25; subst h25; simp [unreserved, isDigit] at hu
        have h2B : (c == 0x2B) = false := by
          cases h2B : c == 0x2B
          · rfl
          · simp only [beq_iff_eq] at h2B; subst h2B; simp [unreserved, isDigit] at hu
        rw [QueryUnescape_cons_plain _ _ h25, ih]
        simp [h2B]
      · obtain ⟨a1, a2, -⟩ := upperhex_facts (c / 16 % 16) (Nat.mod_lt _ (by decide))
        obtain ⟨b1, b2, -⟩ := upperhex_facts (c % 16) (Nat.mod_lt _ (by decide))
        rw [QueryUnescape_cons_percent _ _ _ (by simp [a1, b1]), ih, a2, b2]
        simp only [Option.map_some', Option.some.injEq, List.cons.injEq, and_true]
        omega

theorem escByte_ne {b : Nat} (h : escByte b = true) :
    b ≠ 0x26 ∧ b ≠ 0x3D ∧ b ≠ 0x3B ∧ b ≠ 0x23 ∧ b ≠ 0x3F ∧ ¬ b < 0x20 ∧ b ≠ 0x7F := by
  simp only [escByte, unreserved, isDigit, Bool.or_eq_true, Bool.and_eq_true, decide_eq_true_eq,
    beq_iff_eq] at h
  omega

theorem splitOn_of_not_mem {sep : Nat} : ∀ {a : Bytes}, sep ∉ a → splitOn sep a = [a]
  | [], _ => rfl
  | c :: rest, h => by
    simp only [List.mem_cons, not_or] at h
    have hc : (c == sep) = false := by simpa using fun e : c = sep => h.1 e.symm
    simp [splitOn, hc, splitOn_of_not_mem h.2]

theorem splitOn_append {sep : Nat} : ∀ {a : Bytes} (b : Bytes), sep ∉ a →
    splitOn sep (a ++ sep :: b) = a :: splitOn sep b
  | [], b, _ => by simp [splitOn]
  | c :: rest, b, h => by
    simp only [List.mem_cons, not_or] at h
    have hc : (c == sep) = false := by simpa using fun e : c = sep => h.1 e.symm
    simp [splitOn, hc, splitOn_append b h.2]

theorem encodePair_bytes (kv : Bytes × Bytes) :
    ∀ b ∈ encodePair kv, escByte b = true ∨ b = 0x3D := by
  intro b hb
  simp only [encodePair, List.mem_append, List.mem_cons] at hb
  rcases hb with hb | rfl | hb
  · exact Or.inl (QueryEscape_bytes _ b hb)
  · exact Or.inr rfl
  · exact Or.inl (QueryEscape_bytes _ b hb)

theorem encodePair_not_mem (kv : Bytes × Bytes) :
    0x26 ∉ encodePair kv ∧ 0x3B ∉ encodePair kv := by
  constructor <;> intro h <;> rcases encodePair_bytes kv _ h with h | h
  · exact (escByte_ne h).1 rfl
  · cases h
  · exact (escByte_ne h).2.2.1 rfl
  · cases h

theorem encodePairs_cons (kv : Bytes × Bytes) (rest : List (Bytes × Bytes)) (h : rest ≠ []) :
    encodePairs (kv :: rest) = encodePair kv ++ 0x26 :: encodePairs rest := by
  rcases kv with ⟨k, v⟩
  cases rest with
  | nil => exact absurd rfl h
  | cons x xs => simp [encodePairs, encodePair]

theorem splitOn_encodePairs : ∀ (pairs : List (Bytes × Bytes)), pairs ≠ [] →
    splitOn 0x26 (encodePairs pairs) = pairs.map encodePair
  | [], h => absurd rfl h
  | [kv], _ => by
    have : encodePairs [kv] = encodePair kv := by rcases kv with ⟨k, v⟩; rfl
    rw [this, splitOn_of_not_mem (encodePair_not_mem kv).1]
    rfl
  | kv :: x :: xs, _ => by
    rw [encodePairs_cons kv (x :: xs) (by simp), splitOn_append _ (encodePair_not_mem kv).1,
      splitOn_encodePairs (x :: xs) (by simp)]
    rfl

theorem parseQueryPiece_encodePair (m : Values) (kv : Bytes × Bytes)
    (hk : ValidBytes kv.1) (hv : ValidBytes kv.2) :
    parseQueryPiece m (encodePair kv) = Values.Add m kv.1 kv.2 := by
  have h3B : (encodePair kv).contains 0x3B = false := by
    simpa using (encodePair_not_mem kv).2
  have hne : (encodePair kv).isEmpty = false := by simp [encodePair]
  have hcut : Cut 0x3D (encodePair kv) = (QueryEscape kv.1, QueryEscape kv.2, true) := by
    apply Cut_append_of_not_mem
    intro h
    exact (escByte_ne (QueryEscape_bytes _ _ h)).2.1 rfl
  simp only [parseQueryPiece, h3B, hne, hcut, QueryUnescape_QueryEscape _ hk,
    QueryUnescape_QueryEscape _ hv, Bool.false_eq_true, if_false]

theorem foldl_parseQueryPiece : ∀ (pairs : List (Bytes × Bytes)) (m : Values),
    (∀ kv ∈ pairs, ValidBytes kv.1 ∧ ValidBytes kv.2) →
    (pairs.map encodePair).foldl parseQueryPiece m
      = pairs.foldl (fun m kv => Values.Add m kv.1 kv.2) m
  | [], _, _ => rfl
  | kv :: rest, m, h => by
    simp only [List.map_cons, List.foldl_cons]
    rw [parseQueryPiece_encodePair m kv (h kv (List.mem_cons_self _ _)).1
      (h kv (List.mem_cons_self _ _)).2]
    exact foldl_parseQueryPiece rest _ (fun kv hkv => h kv (List.mem_cons_of_mem _ hkv))

theorem encodePairs_ne_nil : ∀ (pairs : List (Bytes × Bytes)), pairs ≠ [] →
    encodePairs pairs ≠ []
  | [], h => absurd rfl h
  | [kv], _ => by rcases kv with ⟨k, v⟩; simp [encodePairs]
  | kv :: x :: xs, _ => by rcases kv with ⟨k, v⟩; simp [encodePairs]

/-- `ParseQuery` reads back what `Encode` wrote: the pairs, added one by one. -/
theorem ParseQuery_encodePairs (pairs : List (Bytes × Bytes))
    (h : ∀ kv ∈ pairs, ValidBytes kv.1 ∧ ValidBytes kv.2) :
    ParseQuery (encodePairs pairs) = pairs.foldl (fun m kv => Values.Add m kv.1 kv.2) [] := by
  cases hp : pairs with
  | nil => rfl
  | cons kv rest =>
    rw [← hp]
    have hne : pairs ≠ [] := by rw [hp]; simp
    have : (encodePairs pairs).isEmpty = false := by
      simpa using encodePairs_ne_nil pairs hne
    simp only [ParseQuery, this, Bool.false_eq_true, if_false]
    rw [splitOn_encodePairs pairs hne, foldl_parseQueryPiece pairs [] h]

theorem encodePairs_bytes : ∀ (pairs : List (Bytes × Bytes)),
    ∀ b ∈ encodePairs pairs, escByte b = true ∨ b = 0x3D ∨ b = 0x26
  | [], b, h => by simp [encodePairs] at h
  | [kv], b, h => by
    have : encodePairs [kv] = encodePair kv := by rcases kv with ⟨k, v⟩; rfl
    rw [this] at h
    rcases encodePair_bytes kv b h with h | h
    · exact Or.inl h
    · exact Or.inr (Or.inl h)
  | kv :: x :: xs, b, h => by
    rw [encodePairs_cons kv (x :: xs) (by simp)] at h
    rcases List.mem_append.mp h with h | h
    · rcases encodePair_bytes kv b h with h | h
      · exact Or.inl h
      · exact Or.inr (Or.inl h)
    · rcases List.mem_cons.mp h with rfl | h
      · exact Or.inr (Or.inr rfl)
      · exact encodePairs_bytes (x :: xs) b h

/-! ## `url.Parse` on what `URL.String` wrote -/

theorem getSchemeLoop_found : ∀ (s : Bytes) (raw acc sch rest : Bytes),
    getSchemeLoop raw acc s = (sch, rest) → sch ≠ [] →
    ∃ l, s = l ++ 0x3A :: rest ∧ sch = acc.reverse ++ l ∧ ∀ b ∈ l, isSchemeChar b = true
  | [], raw, acc, sch, rest, h, hne => by
    simp only [getSchemeLoop, Prod.mk.injEq] at h
    exact absurd h.1.symm hne
  | c :: s, raw, acc, sch, rest, h, hne => by
    unfold getSchemeLoop at h
    split at h
    · rename_i hl
      obtain ⟨l, h1, h2, h3⟩ := getSchemeLoop_found s raw (c :: acc) sch rest h hne
      refine ⟨c :: l, by simp [h1], by simp [h2], ?_⟩
      intro b hb
      rcases List.mem_cons.mp hb with rfl | hb
      · simp [isSchemeChar, hl]
      · exact h3 b hb
    · split at h
      · rename_i hd
        obtain ⟨l, h1, h2, h3⟩ := getSchemeLoop_found s raw (c :: acc) sch rest h hne
        refine ⟨c :: l, by simp [h1], by simp [h2], ?_⟩
        intro b hb
        rcases List.mem_cons.mp hb with rfl | hb
        · simp only [Bool.or_eq_true] at hd
          simp only [isSchemeChar, Bool.or_eq_true]
          tauto
        · exact h3 b hb
      · split at h
        · rename_i hc
          simp only [beq_iff_eq] at hc
          simp only [Prod.mk.injEq] at h
          exact ⟨[], by simp [hc, h.2], by simp [h.1], by simp⟩
        · simp only [Prod.mk.injEq] at h
          exact absurd h.1.symm hne

theorem getSchemeLoop_of_scheme : ∀ (l : Bytes) (raw acc rest : Bytes),
    (∀ b ∈ l, isSchemeChar b = true) →
    getSchemeLoop raw acc (l ++ 0x3A :: rest) = (acc.reverse ++ l, rest)
  | [], raw, acc, rest, _ => by
    simp [getSchemeLoop, isLetter, isDigit]
  | c :: l, raw, acc, rest, h => by
    have hc : isSchemeChar c = true := h c (List.mem_cons_self _ _)
    have ih := getSchemeLoop_of_scheme l raw (c :: acc) rest
      (fun b hb => h b (List.mem_cons_of_mem _ hb))
    simp only [List.cons_append, getSchemeLoop]
    by_cases hl : isLetter c = true
    · simp [hl, ih]
    · have hd : (isDigit c || c == 0x2B || c == 0x2D || c == 0x2E) = true := by
        simp only [isSchemeChar, Bool.or_eq_true] at hc
        simp only [Bool.or_eq_true]
        tauto
      simp [hl, hd, ih]

theorem getSchemeLoop_none : ∀ (s : Bytes) (raw raw1 acc t x : Bytes) (sch rest : Bytes),
    acc ≠ [] → getSchemeLoop raw acc (s ++ t) = (sch, rest) → sch = [] →
    (t = [] ∨ ∃ oq, t = 0x3F :: oq) →
    rest = raw ∧ getSchemeLoop raw1 acc (s ++ 0x3F :: x) = ([], raw1)
  | [], raw, raw1, acc, t, x, sch, rest, hacc, h, hs, ht => by
    subst hs
    rcases ht with rfl | ⟨oq, rfl⟩
    · simp only [List.append_nil, getSchemeLoop, Prod.mk.injEq, true_and] at h
      exact ⟨h.symm, by simp [getSchemeLoop, isLetter, isDigit]⟩
    · simp only [List.nil_append] at h ⊢
      have e : getSchemeLoop raw acc (0x3F :: oq) = ([], raw) := by
        simp [getSchemeLoop, isLetter, isDigit]
      rw [e] at h
      simp only [Prod.mk.injEq, true_and] at h
      exact ⟨h.symm, by simp [getSchemeLoop, isLetter, isDigit]⟩
  | c :: s, raw, raw1, acc, t, x, sch, rest, hacc, h, hs, ht => by
    simp only [List.cons_append] at h ⊢
    unfold getSchemeLoop at h ⊢
    split at h
    · rename_i hl
      simp only [hl, if_true]
      exact getSchemeLoop_none s raw raw1 (c :: acc) t x sch rest (by simp) h hs ht
    · rename_i hl
      split at h
      · rename_i hd
        simp only [hl, Bool.false_eq_true, if_false, hd, if_true]
        exact getSchemeLoop_none s raw raw1 (c :: acc) t x sch rest (by simp) h hs ht
      · rename_i hd
        split at h
        · simp only [Prod.mk.injEq] at h
          exfalso
          apply hacc
          have := h.1
          rw [hs] at this
          simpa using this
        · rename_i hc
          simp only [Prod.mk.injEq] at h
          simp only [hl, Bool.false_eq_true, if_false, hd, hc]
          exact ⟨h.2.symm, trivial⟩

/-- What `getScheme` found, read back: a scheme is a letter followed by scheme bytes
and stands before a colon; without a scheme the whole input is returned. -/
theorem getScheme_spec (pre sch rest : Bytes) (h : getScheme pre = some (sch, rest)) :
    (sch ≠ [] → pre = sch ++ 0x3A :: rest ∧ (∃ c l, sch = c :: l ∧ isLetter c = true
        ∧ ∀ b ∈ l, isSchemeChar b = true))
    ∧ (sch = [] → rest = pre) := by
  cases pre with
  | nil =>
    simp only [getScheme, Option.some.injEq, Prod.mk.injEq] at h
    exact ⟨fun hne => absurd h.1.symm hne, fun _ => h.2.symm⟩
  | cons c s =>
    simp only [getScheme] at h
    split at h
    · rename_i hl
      simp only [Option.some.injEq] at h
      constructor
      · intro hne
        obtain ⟨l, h1, h2, h3⟩ := getSchemeLoop_found s _ [c] sch rest h hne
        simp only [List.reverse_cons, List.reverse_nil, List.nil_append, List.singleton_append]
          at h2
        exact ⟨by rw [h1, h2]; simp, c, l, h2, hl, h3⟩
      · intro hs
        exact (getSchemeLoop_none s (c :: s) (c :: s) [c] [] [] sch rest (by simp)
          (by simpa using h) hs (Or.inl rfl)).1
    · split at h
      · simp only [Option.some.injEq, Prod.mk.injEq] at h
        exact ⟨fun hne => absurd h.1.symm hne, fun _ => h.2.symm⟩
      · split at h
        · cases h
        · simp only [Option.some.injEq, Prod.mk.injEq] at h
          exact ⟨fun hne => absurd h.1.symm hne, fun _ => h.2.symm⟩

theorem getScheme_of_scheme (c : Nat) (l rest : Bytes) (hc : isLetter c = true)
    (hl : ∀ b ∈ l, isSchemeChar b = true) :
    getScheme ((c :: l) ++ 0x3A :: rest) = some (c :: l, rest) := by
  simp only [List.cons_append, getScheme, hc, if_true]
  rw [getSchemeLoop_of_scheme l _ [c] rest hl]
  simp

theorem getScheme_no_scheme (hier t x rest : Bytes) (h : getScheme (hier ++ t) = some ([], rest))
    (ht : t = [] ∨ ∃ oq, t = 0x3F :: oq) :
    getScheme (hier ++ 0x3F :: x) = some ([], hier ++ 0x3F :: x) := by
  cases hier with
  | nil => simp [getScheme, isLetter, isDigit]
  | cons c s =>
    simp only [List.cons_append, getScheme] at h ⊢
    split at h
    · rename_i hl
      simp only [Option.some.injEq] at h
      simp only [hl, if_true]
      rw [(getSchemeLoop_none s _ (c :: (s ++ 0x3F :: x)) [c] t x [] rest (by simp) h rfl ht).2]
    · rename_i hl
      split at h
      · rename_i hd
        simp [hl, hd]
      · rename_i hd
        split at h
        · cases h
        · rename_i hc
          simp [hl, hd, hc]

theorem Parse_inv (raw : Bytes) (u0 : URL) (h : Parse raw = some u0) :
    ∃ pre frag found scheme rest hier q lone,
      Cut 0x23 raw = (pre, frag, found) ∧ stringContainsCTLByte pre = false
      ∧ getScheme pre = some (scheme, rest) ∧ splitQuery rest = (hier, q, lone)
      ∧ firstSegmentHasColon scheme hier = false
      ∧ u0 = { Scheme := toLower scheme, Hier := hier, ForceQuery := lone, RawQuery := q,
               Fragment := frag } := by
  unfold Parse at h
  rcases hcut : Cut 0x23 raw with ⟨pre, frag, found⟩
  rw [hcut] at h
  simp only at h
  split at h
  · cases h
  · rename_i hctl
    cases hs : getScheme pre with
    | none => rw [hs] at h; cases h
    | some p =>
      rcases p with ⟨scheme, rest⟩
      rw [hs] at h
      simp only at h
      rcases hq : splitQuery rest with ⟨hier, q, lone⟩
      rw [hq] at h
      simp only at h
      split at h
      · cases h
      · rename_i hcolon
        simp only [Option.some.injEq] at h
        exact ⟨pre, frag, found, scheme, rest, hier, q, lone, rfl, by simpa using hctl, hs, hq,
          by simpa using hcolon, h.symm⟩

theorem Parse_intro (raw pre frag : Bytes) (found : Bool) (scheme rest hier q : Bytes)
    (lone : Bool) (h1 : Cut 0x23 raw = (pre, frag, found))
    (h2 : stringContainsCTLByte pre = false) (h3 : getScheme pre = some (scheme, rest))
    (h4 : splitQuery rest = (hier, q, lone)) (h5 : firstSegmentHasColon scheme hier = false) :
    Parse raw = some { Scheme := toLower scheme, Hier := hier, ForceQuery := lone,
                       RawQuery := q, Fragment := frag } := by
  simp [Parse, h1, h2, h3, h4, h5]

theorem splitQuery_spec (rest hier q : Bytes) (lone : Bool)
    (h : splitQuery rest = (hier, q, lone)) :
    0x3F ∉ hier ∧ ∃ t, rest = hier ++ t ∧ (t = [] ∨ ∃ oq, t = 0x3F :: oq) := by
  unfold splitQuery at h
  split at h
  · rename_i hl
    simp only [Bool.and_eq_true, beq_iff_eq] at hl
    simp only [Prod.mk.injEq] at h
    obtain ⟨rfl, -, -⟩ := h
    have hne : rest ≠ [] := by
      rintro rfl
      simp at hl
    have hrest : rest = rest.dropLast ++ [0x3F] := by
      have := List.dropLast_append_getLast? 0x3F (by simpa using hl.1)
      exact this.symm
    refine ⟨?_, [0x3F], hrest, Or.inr ⟨[], rfl⟩⟩
    have hc := hl.2
    rw [hrest, List.count_append] at hc
    simp only [List.count_singleton_self] at hc
    exact List.count_eq_zero.mp (by omega)
  · rcases hc : Cut 0x3F rest with ⟨a, b, f⟩
    rw [hc] at h
    simp only [Prod.mk.injEq] at h
    obtain ⟨rfl, rfl, -⟩ := h
    cases f with
    | true =>
      obtain ⟨h1, h2⟩ := Cut_found hc
      exact ⟨h2, _, h1, Or.inr ⟨_, rfl⟩⟩
    | false =>
      obtain ⟨h1, -, h3⟩ := Cut_not_found hc
      subst h1
      exact ⟨h3, [], by simp, Or.inl rfl⟩

theorem splitQuery_query (hier q : Bytes) (h1 : 0x3F ∉ hier) (h2 : q ≠ [])
    (h3 : 0x3F ∉ q) : splitQuery (hier ++ 0x3F :: q) = (hier, q, false) := by
  have hlast : (hier ++ 0x3F :: q).getLast? ≠ some 0x3F := by
    intro h
    have hq : q.getLast? = some 0x3F := by
      rw [show hier ++ 0x3F :: q = (hier ++ [0x3F]) ++ q by simp,
        List.getLast?_append_of_ne_nil _ h2] at h
      exact h
    exact h3 (List.mem_of_getLast?_eq_some hq)
  have : ((hier ++ 0x3F :: q).getLast? == some 0x3F) = false := by
    simpa using hlast
  simp only [splitQuery, this, Bool.false_and, Bool.false_eq_true, if_false]
  rw [Cut_append_of_not_mem q h1]

theorem lowerByte_letter {c : Nat} (h : isLetter c = true) : isLetter (lowerByte c) = true := by
  simp only [isLetter, Bool.or_eq_true, Bool.and_eq_true, decide_eq_true_eq] at h ⊢
  unfold lowerByte
  split <;> omega

theorem lowerByte_scheme {c : Nat} (h : isSchemeChar c = true) :
    isSchemeChar (lowerByte c) = true := by
  simp only [isSchemeChar, isLetter, isDigit, Bool.or_eq_true, Bool.and_eq_true,
    decide_eq_true_eq, beq_iff_eq] at h ⊢
  unfold lowerByte
  split <;> omega

theorem lowerByte_idem (c : Nat) : lowerByte (lowerByte c) = lowerByte c := by
  unfold lowerByte
  by_cases h : 0x41 ≤ c ∧ c ≤ 0x5A
  · simp only [h, and_self, if_true]
    rw [if_neg (by omega)]
  · simp only [h, if_false]

theorem toLower_idem (s : Bytes) : toLower (toLower s) = toLower s := by
  simp [toLower, lowerByte_idem]

theorem toLower_scheme (c : Nat) (l : Bytes) (hc : isLetter c = true)
    (hl : ∀ b ∈ l, isSchemeChar b = true) :
    ∃ c1 l1, toLower (c :: l) = c1 :: l1 ∧ isLetter c1 = true
      ∧ ∀ b ∈ l1, isSchemeChar b = true := by
  refine ⟨_, toLower l, rfl, lowerByte_letter hc, ?_⟩
  intro b hb
  simp only [toLower, List.mem_map] at hb
  obtain ⟨a, ha, rfl⟩ := hb
  exact lowerByte_scheme (hl a ha)

theorem toLower_isEmpty (s : Bytes) : (toLower s).isEmpty = s.isEmpty := by
  cases s <;> rfl

theorem isSchemeChar_plain {b : Nat} (h : isSchemeChar b = true) :
    b ≠ 0x23 ∧ ¬ b < 0x20 ∧ b ≠ 0x7F := by
  simp only [isSchemeChar, isLetter, isDigit, Bool.or_eq_true, Bool.and_eq_true,
    decide_eq_true_eq, beq_iff_eq] at h
  omega

theorem isLetter_isSchemeChar {b : Nat} (h : isLetter b = true) : isSchemeChar b = true := by
  simp [isSchemeChar, h]

theorem noCTL_iff (s : Bytes) :
    stringContainsCTLByte s = false ↔ ∀ b ∈ s, ¬ b < 0x20 ∧ b ≠ 0x7F := by
  simp only [stringContainsCTLByte, List.any_eq_false, Bool.or_eq_true, decide_eq_true_eq,
    beq_iff_eq, not_or]

theorem Cut_hash (head frag : Bytes) (h : 0x23 ∉ head) :
    ∃ found, Cut 0x23 (head ++ (if frag.isEmpty then [] else 0x23 :: frag))
      = (head, frag, found) := by
  cases frag with
  | nil => exact ⟨false, by simpa using Cut_of_not_mem h⟩
  | cons a b => exact ⟨true, by simpa using Cut_append_of_not_mem (a :: b) h⟩

/-- A URL that parsed, written with a new non-empty escaped query, parses again, into
the same scheme, hierarchical part and fragment, with that query. -/
theorem Parse_String_query (raw : Bytes) (u0 : URL) (h : Parse raw = some u0) (q : Bytes)
    (hq : q ≠ []) (hqb : ∀ b ∈ q, escByte b = true ∨ b = 0x3D ∨ b = 0x26) :
    Parse (URL.String { u0 with RawQuery := q })
      = some { u0 with RawQuery := q, ForceQuery := false } := by
  obtain ⟨pre, frag, found, scheme, rest, hier, oq, lone, h1, h2, h3, h4, h5, rfl⟩ :=
    Parse_inv raw u0 h
  obtain ⟨hhier, t, hrest, ht⟩ := splitQuery_spec rest hier oq lone h4
  obtain ⟨hs1, hs2⟩ := getScheme_spec pre scheme rest h3
  have hpre : 0x23 ∉ pre := by
    cases found with
    | true => exact (Cut_found h1).2
    | false =>
      obtain ⟨e, -, hn⟩ := Cut_not_found h1
      rw [e]; exact hn
  have hctl := (noCTL_iff pre).mp h2
  have hq_plain : ∀ b ∈ q, plainByte b ∧ b ≠ 0x3F := by
    intro b hb
    rcases hqb b hb with hb | rfl | rfl
    · have := escByte_ne hb
      exact ⟨⟨this.2.2.2.1, this.2.2.2.2.2.1, this.2.2.2.2.2.2⟩, this.2.2.2.2.1⟩
    · exact ⟨⟨by decide, by decide, by decide⟩, by decide⟩
    · exact ⟨⟨by decide, by decide, by decide⟩, by decide⟩
  have hhier_sub : ∀ b ∈ hier, b ∈ pre := by
    intro b hb
    have hbr : b ∈ rest := by rw [hrest]; exact List.mem_append_left _ hb
    by_cases hsch : scheme = []
    · rw [← hs2 hsch]; exact hbr
    · rw [(hs1 hsch).1]
      exact List.mem_append_right _ (List.mem_cons_of_mem _ hbr)
  have hhier_plain : ∀ b ∈ hier, plainByte b := by
    intro b hb
    have hbp := hhier_sub b hb
    exact ⟨fun e => hpre (e ▸ hbp), (hctl b hbp).1, (hctl b hbp).2⟩
  have htail_plain : ∀ b ∈ hier ++ 0x3F :: q, plainByte b := by
    intro b hb
    rcases List.mem_append.mp hb with hb | hb
    · exact hhier_plain b hb
    · rcases List.mem_cons.mp hb with rfl | hb
      · exact ⟨by decide, by decide, by decide⟩
      · exact (hq_plain b hb).1
  have hsplit : splitQuery (hier ++ 0x3F :: q) = (hier, q, false) :=
    splitQuery_query hier q hhier hq (fun hm => (hq_plain _ hm).2 rfl)
  have hqne : q.isEmpty = false := by cases q with
    | nil => exact absurd rfl hq
    | cons a b => rfl
  by_cases hsch : scheme = []
  · subst hsch
    have hstr : URL.String
        { Scheme := toLower [], Hier := hier, ForceQuery := lone, RawQuery := q, Fragment := frag }
        = (hier ++ 0x3F :: q) ++ (if frag.isEmpty then [] else 0x23 :: frag) := by
      simp [URL.String, toLower, hqne]
    have hcut := Cut_hash (hier ++ 0x3F :: q) frag (fun hm => (htail_plain _ hm).1 rfl)
    obtain ⟨fd, hcut⟩ := hcut
    have hgs : getScheme (hier ++ 0x3F :: q) = some ([], hier ++ 0x3F :: q) := by
      apply getScheme_no_scheme hier t q rest _ ht
      rw [← hrest]
      rw [← hs2 rfl] at h3
      exact h3
    simp only
    rw [hstr]
    rw [Parse_intro _ _ _ fd [] _ hier q false hcut
      ((noCTL_iff _).mpr (fun b hb => (htail_plain b hb).2)) hgs hsplit h5]
  · obtain ⟨hpre_eq, c, l, rfl, hc, hl⟩ := hs1 hsch
    obtain ⟨c1, l1, hlow, hc1, hl1⟩ := toLower_scheme c l hc hl
    have hstr : URL.String
        { Scheme := toLower (c :: l), Hier := hier, ForceQuery := lone, RawQuery := q,
          Fragment := frag }
        = ((c1 :: l1) ++ 0x3A :: (hier ++ 0x3F :: q))
            ++ (if frag.isEmpty then [] else 0x23 :: frag) := by
      simp [URL.String, hlow, hqne]
    have hhead_plain : ∀ b ∈ (c1 :: l1) ++ 0x3A :: (hier ++ 0x3F :: q), plainByte b := by
      intro b hb
      rcases List.mem_append.mp hb with hb | hb
      · rcases List.mem_cons.mp hb with rfl | hb
        · exact isSchemeChar_plain (isLetter_isSchemeChar hc1)
        · exact isSchemeChar_plain (hl1 b hb)
      · rcases List.mem_cons.mp hb with rfl | hb
        · exact ⟨by decide, by decide, by decide⟩
        · exact htail_plain b hb
    obtain ⟨fd, hcut⟩ := Cut_hash _ frag (fun hm => (hhead_plain _ hm).1 rfl)
    have hgs := getScheme_of_scheme c1 l1 (hier ++ 0x3F :: q) hc1 hl1
    have hcolon : firstSegmentHasColon (c1 :: l1) hier = false := by
      simp [firstSegmentHasColon]
    simp only
    rw [hstr]
    rw [Parse_intro _ _ _ fd (c1 :: l1) _ hier q false hcut
      ((noCTL_iff _).mpr (fun b hb => (hhead_plain b hb).2)) hgs hsplit hcolon]
    rw [← hlow, toLower_idem]

/-! ## `buildURL` -/

theorem mem_pairs_cons (k : Bytes) (vs : List Bytes) (rest : Values) (kv : Bytes × Bytes) :
    kv ∈ Values.pairs ((k, vs) :: rest) ↔ (kv.1 = k ∧ kv.2 ∈ vs) ∨ kv ∈ Values.pairs rest := by
  rcases kv with ⟨a, b⟩
  simp only [Values.pairs, List.mem_append, List.mem_map, Prod.mk.injEq]
  constructor
  · rintro (⟨x, hx, rfl, rfl⟩ | h)
    · exact Or.inl ⟨rfl, hx⟩
    · exact Or.inr h
  · rintro (⟨rfl, h⟩ | h)
    · exact Or.inl ⟨b, h, rfl, rfl⟩
    · exact Or.inr h

theorem mem_pairs_Add : ∀ (m : Values) (k v : Bytes) (kv : Bytes × Bytes),
    kv ∈ Values.pairs (Values.Add m k v) → kv ∈ Values.pairs m ∨ kv = (k, v)
  | [], k, v, kv, h => by
    simp only [Values.Add, Values.pairs, List.map_cons, List.map_nil, List.append_nil,
      List.mem_singleton] at h
    exact Or.inr h
  | (k0, vs) :: rest, k, v, kv, h => by
    unfold Values.Add at h
    split at h
    · rename_i hk
      simp only [beq_iff_eq] at hk
      subst hk
      rw [mem_pairs_cons] at h ⊢
      rcases h with ⟨h1, h2⟩ | h
      · rcases List.mem_append.mp h2 with h2 | h2
        · exact Or.inl (Or.inl ⟨h1, h2⟩)
        · right
          simp only [List.mem_singleton] at h2
          exact Prod.ext h1 h2
      · exact Or.inl (Or.inr h)
    · split at h
      · rw [mem_pairs_cons] at h
        rcases h with ⟨h1, h2⟩ | h
        · right
          simp only [List.mem_singleton] at h2
          exact Prod.ext h1 h2
        · exact Or.inl h
      · rw [mem_pairs_cons] at h ⊢
        rcases h with h | h
        · exact Or.inl (Or.inl h)
        · rcases mem_pairs_Add rest k v kv h with h | h
          · exact Or.inl (Or.inr h)
          · exact Or.inr h

theorem foldl_Add_valid (kvs : List (Bytes × Bytes)) : ∀ (m : Values),
    (∀ kv ∈ Values.pairs m, ValidBytes kv.1 ∧ ValidBytes kv.2) →
    (∀ kv ∈ kvs, ValidBytes kv.1 ∧ ValidBytes kv.2) →
    ∀ kv ∈ Values.pairs (kvs.foldl (fun m kv => Values.Add m kv.1 kv.2) m),
      ValidBytes kv.1 ∧ ValidBytes kv.2 := by
  induction kvs with
  | nil => intro m hm _; exact hm
  | cons x rest ih =>
    intro m hm hk
    simp only [List.foldl_cons]
    apply ih
    · intro kv hkv
      rcases mem_pairs_Add m x.1 x.2 kv hkv with h | rfl
      · exact hm kv h
      · exact hk x (List.mem_cons_self _ _)
    · exact fun kv hkv => hk kv (List.mem_cons_of_mem _ hkv)

/-- What `query.Values` returns for a valid parameter object: a map whose values for
each key are the ones the fields contribute, in order. -/
theorem queryValues_spec (params : Params) (pv : Values) (hvalid : params.Valid)
    (h : queryValues params = Except.ok pv) :
    Values.Sorted pv ∧ (∀ key, Values.lookup pv key = params.valuesFor key)
      ∧ ∀ kv ∈ Values.pairs pv, ValidBytes kv.1 ∧ ValidBytes kv.2 := by
  cases params with
  | nil =>
    simp only [queryValues, Except.ok.injEq] at h
    subst h
    exact ⟨List.Pairwise.nil, fun _ => rfl, by simp [Values.pairs]⟩
  | notStruct => simp [queryValues] at h
  | fields kvs =>
    simp only [queryValues, Except.ok.injEq] at h
    subst h
    obtain ⟨h1, h2⟩ := foldl_Add kvs [] List.Pairwise.nil
    refine ⟨h1, fun key => ?_, ?_⟩
    · rw [h2 key]; rfl
    · exact foldl_Add_valid kvs [] (by simp [Values.pairs]) hvalid

/-- The query that `buildURL` writes, parsed back. -/
theorem ParseQuery_Encode (qs : Values) (hs : Values.Sorted qs)
    (hv : ∀ kv ∈ Values.pairs qs, ValidBytes kv.1 ∧ ValidBytes kv.2) (key : Bytes) :
    Values.lookup (ParseQuery (Values.Encode qs)) key = Values.lookup qs key := by
  rw [Values.Encode, ParseQuery_encodePairs _ hv,
    (foldl_Add (Values.pairs qs) [] List.Pairwise.nil).2 key, valuesFor_pairs qs key hs]
  rfl

theorem DecodeRune_cons (p0 : Nat) (rest : Bytes) :
    DecodeRune (p0 :: rest)
      = decodeCore (first p0) (rest.length + 1) p0 (rest.getD 0 0) (rest.getD 1 0)
          (rest.getD 2 0) := rfl

theorem first_spec (p0 : Nat) : FirstSpec p0 (first p0) := by
  unfold FirstSpec first
  split_ifs <;> simp <;> omega

theorem isCont_iff (b : Nat) : isCont b = true ↔ 0x80 ≤ b ∧ b ≤ 0xBF := by
  simp [isCont]

theorem isCont_false_iff (b : Nat) : isCont b = false ↔ ¬ (0x80 ≤ b ∧ b ≤ 0xBF) := by
  rw [← isCont_iff]; simp

theorem decodeCore_size (x : Nat × Nat × Nat) (len p0 b1 b2 b3 : Nat) (hx : x.1 ≤ 4)
    (hlen : 1 ≤ len) :
    1 ≤ (decodeCore x len p0 b1 b2 b3).2 ∧ (decodeCore x len p0 b1 b2 b3).2 ≤ len := by
  unfold decodeCore
  split_ifs <;> dsimp only <;> omega

theorem decodeCore_ascii (x : Nat × Nat × Nat) (len p0 b1 b2 b3 : Nat) (hx : x.1 = 1) :
    decodeCore x len p0 b1 b2 b3 = (p0, 1) := by
  unfold decodeCore
  rw [if_pos hx]

theorem decodeCore_two (x : Nat × Nat × Nat) (len p0 b1 b2 b3 : Nat) (hx : x.1 = 2)
    (hlen : 2 ≤ len) (h1 : x.2.1 ≤ b1 ∧ b1 ≤ x.2.2) :
    decodeCore x len p0 b1 b2 b3 = ((p0 % 32) * 64 + b1 % 64, 2) := by
  unfold decodeCore
  rw [if_neg (by omega), if_neg (by omega), if_neg (by omega), if_neg (by omega),
    if_pos (by omega)]

theorem decodeCore_three (x : Nat × Nat × Nat) (len p0 b1 b2 b3 : Nat) (hx : x.1 = 3)
    (hlen : 3 ≤ len) (h1 : x.2.1 ≤ b1 ∧ b1 ≤ x.2.2) (h2 : isCont b2 = true) :
    decodeCore x len p0 b1 b2 b3 = (((p0 % 16) * 64 + b1 % 64) * 64 + b2 % 64, 3) := by
  unfold decodeCore
  rw [if_neg (by omega), if_neg (by omega), if_neg (by omega), if_neg (by omega),
    if_neg (by omega), if_neg (by simp [h2]), if_pos (by omega)]

theorem decodeCore_four (x : Nat × Nat × Nat) (len p0 b1 b2 b3 : Nat) (hx : x.1 = 4)
    (hlen : 4 ≤ len) (h1 : x.2.1 ≤ b1 ∧ b1 ≤ x.2.2) (h2 : isCont b2 = true)
    (h3 : isCont b3 = true) :
    decodeCore x len p0 b1 b2 b3
      = ((((p0 % 8) * 64 + b1 % 64) * 64 + b2 % 64) * 64 + b3 % 64, 4) := by
  unfold decodeCore
  rw [if_neg (by omega), if_neg (by omega), if_neg (by omega), if_neg (by omega),
    if_neg (by omega), if_neg (by simp [h2]), if_neg (by omega), if_neg (by simp [h3])]

/-- The ways in which `DecodeRune` returns: an ASCII byte, the error rune with width
one, or a sequence of two, three or four bytes that passed every check. -/
theorem decodeCore_cases (x : Nat × Nat × Nat) (len p0 b1 b2 b3 : Nat) (hs : FirstSpec p0 x)
    (hlen : 1 ≤ len) :
    (x.1 = 1 ∧ decodeCore x len p0 b1 b2 b3 = (p0, 1))
    ∨ (0x80 ≤ p0 ∧ decodeCore x len p0 b1 b2 b3 = (RuneError, 1))
    ∨ (x.1 = 2 ∧ 2 ≤ len ∧ (x.2.1 ≤ b1 ∧ b1 ≤ x.2.2)
        ∧ decodeCore x len p0 b1 b2 b3 = ((p0 % 32) * 64 + b1 % 64, 2))
    ∨ (x.1 = 3 ∧ 3 ≤ len ∧ (x.2.1 ≤ b1 ∧ b1 ≤ x.2.2) ∧ isCont b2 = true
        ∧ decodeCore x len p0 b1 b2 b3 = (((p0 % 16) * 64 + b1 % 64) * 64 + b2 % 64, 3))
    ∨ (x.1 = 4 ∧ 4 ≤ len ∧ (x.2.1 ≤ b1 ∧ b1 ≤ x.2.2) ∧ isCont b2 = true ∧ isCont b3 = true
        ∧ decodeCore x len p0 b1 b2 b3
            = ((((p0 % 8) * 64 + b1 % 64) * 64 + b2 % 64) * 64 + b3 % 64, 4)) := by
  have hp : x.1 ≠ 1 → 0x80 ≤ p0 := by
    intro h; unfold FirstSpec at hs; omega
  have hx4 : x.1 ≤ 4 := by unfold FirstSpec at hs; omega
  by_cases h1 : x.1 = 1
  · exact Or.inl ⟨h1, decodeCore_ascii x len p0 b1 b2 b3 h1⟩
  · have hp0 := hp h1
    by_cases h0 : x.1 = 0
    · right; left
      refine ⟨hp0, ?_⟩
      unfold decodeCore
      rw [if_neg h1, if_pos h0]
    · by_cases hl : len < x.1
      · right; left
        refine ⟨hp0, ?_⟩
        unfold decodeCore
        rw [if_neg h1, if_neg h0, if_pos hl]
      · by_cases hb1 : b1 < x.2.1 ∨ x.2.2 < b1
        · right; left
          refine ⟨hp0, ?_⟩
          unfold decodeCore
          rw [if_neg h1, if_neg h0, if_neg hl, if_pos hb1]
        · have hr : x.2.1 ≤ b1 ∧ b1 ≤ x.2.2 := by omega
          by_cases h2 : x.1 = 2
          · right; right; left
            exact ⟨h2, by omega, hr, decodeCore_two x len p0 b1 b2 b3 h2 (by omega) hr⟩
          · by_cases hc2 : isCont b2 = true
            · by_cases h3 : x.1 = 3
              · right; right; right; left
                exact ⟨h3, by omega, hr, hc2,
                  decodeCore_three x len p0 b1 b2 b3 h3 (by omega) hr hc2⟩
              · by_cases hc3 : isCont b3 = true
                · right; right; right; right
                  have h4 : x.1 = 4 := by omega
                  exact ⟨h4, by omega, hr, hc2, hc3,
                    decodeCore_four x len p0 b1 b2 b3 h4 (by omega) hr hc2 hc3⟩
                · right; left
                  refine ⟨hp0, ?_⟩
                  unfold decodeCore
                  rw [if_neg h1, if_neg h0, if_neg hl, if_neg hb1, if_neg (by omega),
                    if_neg (by simp [hc2]), if_neg (by omega), if_pos (by simpa using hc3)]
            · right; left
              refine ⟨hp0, ?_⟩
              unfold decodeCore
              rw [if_neg h1, if_neg h0, if_neg hl, if_neg hb1, if_neg (by omega),
                if_pos (by simpa using hc2)]

theorem decodeCore_width_one (x : Nat × Nat × Nat) (len p0 b1 b2 b3 : Nat)
    (hs : FirstSpec p0 x) (hlen : 1 ≤ len) (h : 0x80 ≤ p0)
    (hw : (decodeCore x len p0 b1 b2 b3).2 = 1) :
    (decodeCore x len p0 b1 b2 b3).1 = RuneError := by
  rcases decodeCore_cases x len p0 b1 b2 b3 hs hlen with
    ⟨hx, _⟩ | ⟨_, e⟩ | ⟨_, _, _, e⟩ | ⟨_, _, _, _, e⟩ | ⟨_, _, _, _, _, e⟩
  · unfold FirstSpec at hs; omega
  · rw [e]
  · rw [e] at hw; simp at hw
  · rw [e] at hw; simp at hw
  · rw [e] at hw; simp at hw

theorem decodeCore_lone (x : Nat × Nat × Nat) (len p0 b1 b2 b3 : Nat)
    (hs : FirstSpec p0 x) (hlen : 1 ≤ len)
    (hr : len = 1 ∨ ¬ (0x80 ≤ b1 ∧ b1 ≤ 0xBF)) :
    (decodeCore x len p0 b1 b2 b3).2 = 1 := by
  rcases decodeCore_cases x len p0 b1 b2 b3 hs hlen with
    ⟨_, e⟩ | ⟨_, e⟩ | ⟨hx, hl, hb, _⟩ | ⟨hx, hl, hb, _⟩ | ⟨hx, hl, hb, _⟩
  · rw [e]
  · rw [e]
  all_goals (unfold FirstSpec at hs; omega)

/-- The bytes that the decoder reads beyond the lead byte do not matter once they agree
up to the width of the rune, nor does the length beyond that width. -/
theorem decodeCore_ext (x : Nat × Nat × Nat) (len len1 p0 b1 b2 b3 c1 c2 c3 : Nat)
    (hs : FirstSpec p0 x) (hlen1 : 1 ≤ len) (hlen : len ≤ len1)
    (h : 2 ≤ (decodeCore x len p0 b1 b2 b3).2)
    (g1 : c1 = b1)
    (g2 : 3 ≤ (decodeCore x len p0 b1 b2 b3).2 → c2 = b2)
    (g3 : 4 ≤ (decodeCore x len p0 b1 b2 b3).2 → c3 = b3) :
    decodeCore x len1 p0 c1 c2 c3 = decodeCore x len p0 b1 b2 b3 := by
  subst g1
  rcases decodeCore_cases x len p0 c1 b2 b3 hs hlen1 with
    ⟨_, e⟩ | ⟨_, e⟩ | ⟨hx, hl, hr, e⟩ | ⟨hx, hl, hr, hc2, e⟩ | ⟨hx, hl, hr, hc2, hc3, e⟩
  · rw [e] at h; simp at h
  · rw [e] at h; simp at h
  · rw [e]; exact decodeCore_two x len1 p0 c1 c2 c3 hx (by omega) hr
  · rw [e] at g2 ⊢
    have e2 := g2 (by simp)
    subst e2
    exact decodeCore_three x len1 p0 c1 c2 c3 hx (by omega) hr hc2
  · rw [e] at g2 g3 ⊢
    have e2 := g2 (by simp)
    have e3 := g3 (by simp)
    subst e2 e3
    exact decodeCore_four x len1 p0 c1 c2 c3 hx (by omega) hr hc2 hc3

/-! ## UTF-8: encoding what was decoded -/

theorem EncodeRune_one (r : Nat) (h : r < 0x80) : EncodeRune r = [r] := by
  unfold EncodeRune
  rw [if_pos (by omega)]

theorem EncodeRune_two (p0 b1 : Nat) (h0 : 0xC2 ≤ p0 ∧ p0 ≤ 0xDF) (h1 : 0x80 ≤ b1 ∧ b1 ≤ 0xBF) :
    EncodeRune ((p0 % 32) * 64 + b1 % 64) = [p0, b1] := by
  unfold EncodeRune
  rw [if_neg (by omega), if_pos (by omega)]
  congr 1
  · omega
  · congr 1; omega

theorem EncodeRune_three (p0 b1 b2 lo hi : Nat) (h0 : 0xE0 ≤ p0 ∧ p0 ≤ 0xEF)
    (hlo : 0x80 ≤ lo) (hhi : hi ≤ 0xBF) (hE0 : p0 = 0xE0 → lo = 0xA0)
    (hED : p0 = 0xED → hi = 0x9F) (h1 : lo ≤ b1 ∧ b1 ≤ hi) (h2 : 0x80 ≤ b2 ∧ b2 ≤ 0xBF) :
    EncodeRune (((p0 % 16) * 64 + b1 % 64) * 64 + b2 % 64) = [p0, b1, b2] := by
  unfold EncodeRune MaxRune
  have hE0' : p0 = 0xE0 → 0xA0 ≤ b1 := fun e => by have := hE0 e; omega
  have hED' : p0 = 0xED → b1 ≤ 0x9F := fun e => by have := hED e; omega
  rw [if_neg (by omega), if_neg (by omega), if_neg (by omega), if_pos (by omega)]
  congr 1
  · omega
  · congr 1
    · omega
    · congr 1; omega

theorem EncodeRune_four (p0 b1 b2 b3 lo hi : Nat) (h0 : 0xF0 ≤ p0 ∧ p0 ≤ 0xF4)
    (hlo : 0x80 ≤ lo) (hhi : hi ≤ 0xBF) (hF0 : p0 = 0xF0 → lo = 0x90)
    (hF4 : p0 = 0xF4 → hi = 0x8F) (h1 : lo ≤ b1 ∧ b1 ≤ hi) (h2 : 0x80 ≤ b2 ∧ b2 ≤ 0xBF)
    (h3 : 0x80 ≤ b3 ∧ b3 ≤ 0xBF) :
    EncodeRune ((((p0 % 8) * 64 + b1 % 64) * 64 + b2 % 64) * 64 + b3 % 64)
      = [p0, b1, b2, b3] := by
  unfold EncodeRune MaxRune
  have hF0' : p0 = 0xF0 → 0x90 ≤ b1 := fun e => by have := hF0 e; omega
  have hF4' : p0 = 0xF4 → b1 ≤ 0x8F := fun e => by have := hF4 e; omega
  rw [if_neg (by omega), if_neg (by omega), if_neg (by omega), if_neg (by omega)]
  congr 1
  · omega
  · congr 1
    · omega
    · congr 1
      · omega
      · congr 1; omega

theorem getD_of_length {rest : Bytes} :
    (1 ≤ rest.length → ∃ b t, rest = b :: t) := by
  intro h
  cases rest with
  | nil => simp at h
  | cons b t => exact ⟨b, t, rfl⟩

/-- A rune other than the error rune is decoded from its own encoding. -/
theorem DecodeRune_encode (s : Bytes) (r n : Nat) (h : DecodeRune s = (r, n))
    (hr : r ≠ RuneError) : s = EncodeRune r ++ s.drop n ∧ (EncodeRune r).length = n := by
  cases s with
  | nil =>
    simp only [DecodeRune, Prod.mk.injEq] at h
    exact absurd h.1.symm hr
  | cons p0 rest =>
    rw [DecodeRune_cons] at h
    have hs := first_spec p0
    rcases decodeCore_cases (first p0) (rest.length + 1) p0 (rest.getD 0 0) (rest.getD 1 0)
        (rest.getD 2 0) hs (by omega) with
      ⟨hx, e⟩ | ⟨_, e⟩ | ⟨hx, hl, hb, e⟩ | ⟨hx, hl, hb, hc2, e⟩ | ⟨hx, hl, hb, hc2, hc3, e⟩
    · rw [e] at h
      simp only [Prod.mk.injEq] at h
      obtain ⟨rfl, rfl⟩ := h
      have : p0 < 0x80 := by unfold FirstSpec at hs; omega
      rw [EncodeRune_one p0 this]
      exact ⟨rfl, rfl⟩
    · rw [e] at h
      simp only [Prod.mk.injEq] at h
      exact absurd h.1.symm hr
    · rw [e] at h
      simp only [Prod.mk.injEq] at h
      obtain ⟨rfl, rfl⟩ := h
      obtain ⟨b1, t, rfl⟩ := getD_of_length (show 1 ≤ rest.length by omega)
      simp only [List.getD_cons_zero] at hb ⊢
      unfold FirstSpec at hs
      rw [EncodeRune_two p0 b1 (by omega) (by omega)]
      exact ⟨rfl, rfl⟩
    · rw [e] at h
      simp only [Prod.mk.injEq] at h
      obtain ⟨rfl, rfl⟩ := h
      obtain ⟨b1, t, rfl⟩ := getD_of_length (show 1 ≤ rest.length by omega)
      obtain ⟨b2, t, rfl⟩ := getD_of_length
        (show 1 ≤ t.length by simp only [List.length_cons] at hl; omega)
      simp only [List.getD_cons_zero, List.getD_cons_succ] at hb hc2 ⊢
      unfold FirstSpec at hs
      rw [EncodeRune_three p0 b1 b2 (first p0).2.1 (first p0).2.2 (by omega) (by omega)
        (by omega) (by omega) (by omega) hb ((isCont_iff b2).mp hc2)]
      exact ⟨rfl, rfl⟩
    · rw [e] at h
      simp only [Prod.mk.injEq] at h
      obtain ⟨rfl, rfl⟩ := h
      obtain ⟨b1, t, rfl⟩ := getD_of_length (show 1 ≤ rest.length by omega)
      obtain ⟨b2, t, rfl⟩ := getD_of_length
        (show 1 ≤ t.length by simp only [List.length_cons] at hl; omega)
      obtain ⟨b3, t, rfl⟩ := getD_of_length
        (show 1 ≤ t.length by simp only [List.length_cons] at hl; omega)
      simp only [List.getD_cons_zero, List.getD_cons_succ] at hb hc2 hc3 ⊢
      unfold FirstSpec at hs
      rw [EncodeRune_four p0 b1 b2 b3 (first p0).2.1 (first p0).2.2 (by omega) (by omega)
        (by omega) (by omega) (by omega) hb ((isCont_iff b2).mp hc2) ((isCont_iff b3).mp hc3)]
      exact ⟨rfl, rfl⟩

theorem DecodeRune_size (c : Nat) (rest : Bytes) :
    1 ≤ (DecodeRune (c :: rest)).2 ∧ (DecodeRune (c :: rest)).2 ≤ rest.length + 1 := by
  rw [DecodeRune_cons]
  have hs := first_spec c
  exact decodeCore_size _ _ _ _ _ _ (by unfold FirstSpec at hs; omega) (by omega)

theorem DecodeRune_ascii (c : Nat) (rest : Bytes) (h : c < 0x80) :
    DecodeRune (c :: rest) = (c, 1) := by
  rw [DecodeRune_cons]
  apply decodeCore_ascii
  unfold first
  rw [if_pos h]

/-- A rune decoded with width one from a non-ASCII byte is the error rune. -/
theorem DecodeRune_width_one (c : Nat) (rest : Bytes) (h : 0x80 ≤ c)
    (hw : (DecodeRune (c :: rest)).2 = 1) : (DecodeRune (c :: rest)).1 = RuneError := by
  rw [DecodeRune_cons] at hw ⊢
  exact decodeCore_width_one _ _ _ _ _ _ (first_spec c) (by omega) h hw

/-- A byte followed by nothing, or by a byte that is no continuation byte, is decoded
with width one. -/
theorem DecodeRune_lone (c : Nat) (rest : Bytes)
    (hr : rest = [] ∨ isCont (rest.getD 0 0) = false) : (DecodeRune (c :: rest)).2 = 1 := by
  rw [DecodeRune_cons]
  apply decodeCore_lone _ _ _ _ _ _ (first_spec c) (by omega)
  rcases hr with rfl | hr
  · exact Or.inl rfl
  · exact Or.inr ((isCont_false_iff _).mp hr)

theorem getD_append_left (rest t : Bytes) (i : Nat) (h : i < rest.length) :
    (rest ++ t).getD i 0 = rest.getD i 0 := by
  induction rest generalizing i with
  | nil => simp at h
  | cons a l ih =>
    cases i with
    | zero => rfl
    | succ j =>
      simp only [List.cons_append, List.getD_cons_succ]
      exact ih j (by simp only [List.length_cons] at h; omega)

/-- A rune of width at least two is read from its own bytes alone: what follows does
not matter. -/
theorem DecodeRune_append (s t : Bytes) (h : 2 ≤ (DecodeRune s).2) :
    DecodeRune (s ++ t) = DecodeRune s := by
  cases s with
  | nil => simp [DecodeRune] at h
  | cons c rest =>
    have hsz := (DecodeRune_size c rest).2
    rw [List.cons_append, DecodeRune_cons, DecodeRune_cons]
    rw [DecodeRune_cons] at h hsz
    apply decodeCore_ext _ _ _ _ _ _ _ _ _ _ (first_spec c) (by omega)
      (by simp only [List.length_append]; omega) h
    · exact getD_append_left rest t 0 (by omega)
    · intro h3; exact getD_append_left rest t 1 (by omega)
    · intro h4; exact getD_append_left rest t 2 (by omega)

/-! ## White space and the last rune -/

theorem SpaceRunes_append {a b : Bytes} (ha : SpaceRunes a) (hb : SpaceRunes b) :
    SpaceRunes (a ++ b) := by
  induction ha with
  | nil => exact hb
  | cons r rest hr _ ih =>
    rw [List.append_assoc]
    exact SpaceRunes.cons r _ hr ih

theorem IsSpace_ne_error {r : Nat} (h : IsSpace r = true) : r ≠ RuneError := by
  rintro rfl
  revert h
  decide

theorem IsSpace_ascii {c : Nat} (h : c < 0x80) : IsSpace c = asciiSpace c := by
  unfold IsSpace asciiSpace
  rw [if_pos (by omega)]
  have h1 : (c == 0x85) = false := by simp; omega
  have h2 : (c == 0xA0) = false := by simp; omega
  simp [h1, h2]

theorem EncodeRune_head (r : Nat) : ∃ h t, EncodeRune r = h :: t ∧ isCont h = false := by
  unfold EncodeRune
  split_ifs
  all_goals exact ⟨_, _, rfl, (isCont_false_iff _).mpr (by omega)⟩

theorem SpaceRunes_head {s : Bytes} (h : SpaceRunes s) :
    s = [] ∨ isCont (s.getD 0 0) = false := by
  cases h with
  | nil => exact Or.inl rfl
  | cons r rest _ _ =>
    obtain ⟨b, t, e, hb⟩ := EncodeRune_head r
    right
    rw [e]
    exact hb

theorem SpaceRunes_ascii {c : Nat} (h : c < 0x80) (hs : asciiSpace c = true) :
    SpaceRunes [c] := by
  have := SpaceRunes.cons c [] (by rw [IsSpace_ascii h]; exact hs) SpaceRunes.nil
  rwa [EncodeRune_one c h] at this

theorem lastRuneStart_le (p : Bytes) (lim : Nat) : ∀ (fuel start : Nat), lim ≤ start →
    lastRuneStart p lim fuel start ≤ start
  | 0, start, _ => Nat.le_refl _
  | fuel + 1, start, h => by
    unfold lastRuneStart
    split_ifs
    · exact h
    · omega
    · have := lastRuneStart_le p lim fuel (start - 1) (by omega)
      omega

theorem drop_eq_getD_cons : ∀ (s : Bytes) (j : Nat), j < s.length →
    s.drop j = s.getD j 0 :: s.drop (j + 1)
  | [], j, h => by simp at h
  | a :: l, 0, _ => rfl
  | a :: l, j + 1, h => by
    simp only [List.drop_succ_cons, List.getD_cons_succ]
    exact drop_eq_getD_cons l j (by simp only [List.length_cons] at h; omega)

theorem getD_take : ∀ (s : Bytes) (n i : Nat), i < n → (s.take n).getD i 0 = s.getD i 0
  | [], n, i, _ => by simp
  | a :: l, 0, i, h => by omega
  | a :: l, n + 1, 0, _ => rfl
  | a :: l, n + 1, i + 1, h => by
    simp only [List.take_succ_cons, List.getD_cons_succ]
    exact getD_take l n i (by omega)

theorem eq_append_last (p : Bytes) (h : p ≠ []) :
    p = p.take (p.length - 1) ++ [p.getD (p.length - 1) 0] := by
  have hlen : 0 < p.length := List.length_pos.mpr h
  have h1 := drop_eq_getD_cons p (p.length - 1) (by omega)
  have h2 : p.drop (p.length - 1 + 1) = [] := by
    apply List.drop_of_length_le; omega
  rw [h2] at h1
  rw [← h1]
  exact (List.take_append_drop _ _).symm

/-- The ways in which `DecodeLastRune` returns on a non-empty input: a final ASCII
byte; the error rune with width one, after a final non-ASCII byte; or a rune of width
at least two that `DecodeRune` reads from exactly the last bytes. -/
theorem DecodeLastRune_cases (p : Bytes) (hp : p ≠ []) :
    ((DecodeLastRune p).2 = 1 ∧ (DecodeLastRune p).1 = p.getD (p.length - 1) 0
        ∧ p.getD (p.length - 1) 0 < 0x80)
    ∨ ((DecodeLastRune p).2 = 1 ∧ (DecodeLastRune p).1 = RuneError
        ∧ 0x80 ≤ p.getD (p.length - 1) 0)
    ∨ (2 ≤ (DecodeLastRune p).2 ∧ (DecodeLastRune p).2 ≤ p.length
        ∧ DecodeRune (p.drop (p.length - (DecodeLastRune p).2)) = DecodeLastRune p) := by
  have hlen : 0 < p.length := List.length_pos.mpr hp
  unfold DecodeLastRune
  simp only
  rw [if_neg (by omega)]
  by_cases hlast : p.getD (p.length - 1) 0 < RuneSelf
  · rw [if_pos hlast]
    exact Or.inl ⟨rfl, rfl, hlast⟩
  · rw [if_neg hlast]
    have hge : 0x80 ≤ p.getD (p.length - 1) 0 := by unfold RuneSelf at hlast; omega
    have hstart := lastRuneStart_le p (p.length - UTFMax) UTFMax (p.length - 1)
      (by unfold UTFMax; omega)
    generalize lastRuneStart p (p.length - UTFMax) UTFMax (p.length - 1) = start at hstart
    rcases hd : DecodeRune (p.drop start) with ⟨r, size⟩
    simp only
    by_cases hne : (start + size != p.length) = true
    · rw [if_pos hne]
      exact Or.inr (Or.inl ⟨rfl, rfl, hge⟩)
    · rw [if_neg hne]
      simp only [bne_iff_ne, ne_eq, not_not] at hne
      have hdrop : p.drop start = p.getD start 0 :: p.drop (start + 1) :=
        drop_eq_getD_cons p start (by omega)
      have hsz := DecodeRune_size (p.getD start 0) (p.drop (start + 1))
      rw [← hdrop, hd] at hsz
      simp only at hsz
      by_cases h2 : 2 ≤ size
      · right; right
        refine ⟨h2, by omega, ?_⟩
        simp only
        rw [show p.length - size = start by omega]
        exact hd
      · right; left
        have hs1 : size = 1 := by omega
        subst hs1
        have hst : start = p.length - 1 := by omega
        subst hst
        refine ⟨rfl, ?_, hge⟩
        have := DecodeRune_width_one (p.getD (p.length - 1) 0) (p.drop (p.length - 1 + 1)) hge
        rw [← hdrop, hd] at this
        exact this rfl

/-! ## `TrimLeftFunc` and `TrimRightFunc` with `unicode.IsSpace` -/

theorem drop_add_eq (s : Bytes) (a b : Nat) : s.drop (a + b) = (s.drop a).drop b := by
  rw [List.drop_drop]

theorem indexFuncFrom_space : ∀ (fuel : Nat) (s : Bytes) (i : Nat), s.length ≤ fuel →
    (indexFuncFrom IsSpace false fuel i s = none ∧ SpaceRunes s)
    ∨ (∃ k, indexFuncFrom IsSpace false fuel i s = some (i + k) ∧ SpaceRunes (s.take k)
          ∧ s.drop k ≠ [] ∧ IsSpace (DecodeRune (s.drop k)).1 = false)
  | 0, s, i, h => by
    have : s = [] := List.length_eq_zero.mp (by omega)
    subst this
    exact Or.inl ⟨rfl, SpaceRunes.nil⟩
  | fuel + 1, [], i, _ => Or.inl ⟨rfl, SpaceRunes.nil⟩
  | fuel + 1, c :: rest, i, h => by
    unfold indexFuncFrom
    rcases hd : DecodeRune (c :: rest) with ⟨r, size⟩
    simp only
    by_cases hsp : IsSpace r = true
    · have hcond : ¬ ((IsSpace r == false) = true) := by simp [hsp]
      rw [if_neg hcond]
      obtain ⟨henc, hlen⟩ := DecodeRune_encode (c :: rest) r size hd (IsSpace_ne_error hsp)
      have hsz := DecodeRune_size c rest
      rw [hd] at hsz
      simp only at hsz
      have hdl : ((c :: rest).drop size).length ≤ fuel := by
        simp only [List.length_drop, List.length_cons] at h ⊢
        omega
      rcases indexFuncFrom_space fuel ((c :: rest).drop size) (i + size) hdl with
        ⟨h1, h2⟩ | ⟨k, h1, h2, h3, h4⟩
      · left
        refine ⟨h1, ?_⟩
        rw [henc]
        exact SpaceRunes.cons r _ hsp h2
      · right
        refine ⟨size + k, by rw [h1]; congr 1; omega, ?_, ?_, ?_⟩
        · have : (c :: rest).take (size + k)
              = EncodeRune r ++ ((c :: rest).drop size).take k := by
            conv_lhs => rw [henc]
            rw [List.take_append_eq_append_take, hlen]
            rw [List.take_of_length_le (by omega)]
            congr 1
            rw [show size + k - size = k by omega]
          rw [this]
          exact SpaceRunes.cons r _ hsp h2
        · rw [drop_add_eq]
          exact h3
        · rw [drop_add_eq]
          exact h4
    · have hcond : (IsSpace r == false) = true := by simpa using hsp
      rw [if_pos hcond]
      right
      refine ⟨0, rfl, SpaceRunes.nil, by simp, ?_⟩
      simp only [List.drop_zero, hd]
      simpa using hsp

/-- `TrimLeftFunc` with `IsSpace` removes a run of encoded white space runes, and what
is left is empty or does not start with a white space rune. -/
theorem TrimLeftFunc_space (s : Bytes) :
    ∃ pre, s = pre ++ TrimLeftFunc s IsSpace ∧ SpaceRunes pre
      ∧ (TrimLeftFunc s IsSpace = []
          ∨ IsSpace (DecodeRune (TrimLeftFunc s IsSpace)).1 = false) := by
  unfold TrimLeftFunc indexFunc
  rcases indexFuncFrom_space s.length s 0 (Nat.le_refl _) with ⟨h1, h2⟩ | ⟨k, h1, h2, _, h4⟩
  · rw [h1]
    exact ⟨s, by simp, h2, Or.inl rfl⟩
  · rw [h1]
    simp only [Nat.zero_add]
    exact ⟨s.take k, (List.take_append_drop k s).symm, h2, Or.inr h4⟩

theorem drop_split (s : Bytes) (j i : Nat) (hji : j ≤ i) (hi : i ≤ s.length) :
    s.drop j = (s.take i).drop j ++ s.drop i := by
  conv_lhs => rw [← List.take_append_drop i s]
  rw [List.drop_append_of_le_length (by simp only [List.length_take]; omega)]

theorem lastIndexFuncFrom_space (s : Bytes) : ∀ (fuel i : Nat), i ≤ fuel → i ≤ s.length →
    SpaceRunes (s.drop i) →
    (lastIndexFuncFrom IsSpace false s fuel i = none ∧ SpaceRunes s)
    ∨ (∃ j size, lastIndexFuncFrom IsSpace false s fuel i = some j ∧ 1 ≤ size
          ∧ j + size ≤ s.length ∧ SpaceRunes (s.drop (j + size))
          ∧ (DecodeLastRune (s.take (j + size))).2 = size
          ∧ IsSpace (DecodeLastRune (s.take (j + size))).1 = false)
  | 0, i, hi, _, hsp => by
    have : i = 0 := by omega
    subst this
    exact Or.inl ⟨rfl, by simpa using hsp⟩
  | fuel + 1, i, hi, hlen, hsp => by
    unfold lastIndexFuncFrom
    by_cases h0 : i = 0
    · subst h0
      rw [if_pos rfl]
      exact Or.inl ⟨rfl, by simpa using hsp⟩
    · rw [if_neg h0]
      have hne : s.take i ≠ [] := by
        intro e
        have := congrArg List.length e
        simp only [List.length_take, List.length_nil] at this
        omega
      have htl : (s.take i).length = i := by simp only [List.length_take]; omega
      rcases hd : DecodeLastRune (s.take i) with ⟨r, size⟩
      simp only
      have hcases := DecodeLastRune_cases (s.take i) hne
      rw [hd, htl] at hcases
      simp only at hcases
      have hsize : 1 ≤ size ∧ size ≤ i := by
        rcases hcases with ⟨h1, _⟩ | ⟨h1, _⟩ | ⟨h1, h2, _⟩ <;> omega
      by_cases hspace : IsSpace r = true
      · have hcond : ¬ ((IsSpace r == false) = true) := by simp [hspace]
        rw [if_neg hcond]
        apply lastIndexFuncFrom_space s fuel (i - size) (by omega) (by omega)
        -- the bytes removed are the encoding of `r`
        have henc : (s.take i).drop (i - size) = EncodeRune r := by
          rcases hcases with ⟨h1, h2, h3⟩ | ⟨_, h2, _⟩ | ⟨h1, _, h3⟩
          · subst h1
            have := eq_append_last (s.take i) hne
            rw [← h2] at h3
            rw [htl, ← h2] at this
            rw [EncodeRune_one r h3]
            conv_lhs => rw [this]
            rw [List.drop_append_of_le_length (by simp only [List.length_take]; omega)]
            rw [List.drop_of_length_le (by simp only [List.length_take]; omega)]
            rfl
          · exact absurd h2 (IsSpace_ne_error hspace)
          · obtain ⟨e1, e2⟩ := DecodeRune_encode _ r size h3 (IsSpace_ne_error hspace)
            have hnil : ((s.take i).drop (i - size)).drop size = [] := by
              apply List.drop_of_length_le
              simp only [List.length_drop, htl]
              omega
            rw [hnil, List.append_nil] at e1
            exact e1
        rw [drop_split s (i - size) i (by omega) hlen, henc]
        exact SpaceRunes.cons r _ hspace hsp
      · have hcond : (IsSpace r == false) = true := by simpa using hspace
        rw [if_pos hcond]
        right
        refine ⟨i - size, size, rfl, hsize.1, by omega, ?_, ?_, ?_⟩
        · rw [show i - size + size = i by omega]; exact hsp
        · rw [show i - size + size = i by omega, hd]
        · rw [show i - size + size = i by omega, hd]
          simpa using hspace

/-- `TrimRightFunc` with `IsSpace` removes a run of encoded white space runes, and what
is left is empty or does not end with a white space rune. -/
theorem TrimRightFunc_space (s : Bytes) :
    ∃ suf, s = TrimRightFunc s IsSpace ++ suf ∧ SpaceRunes suf
      ∧ (TrimRightFunc s IsSpace = []
          ∨ IsSpace (DecodeLastRune (TrimRightFunc s IsSpace)).1 = false) := by
  unfold TrimRightFunc lastIndexFunc
  rcases lastIndexFuncFrom_space s s.length s.length (Nat.le_refl _) (Nat.le_refl _)
      (by simp [SpaceRunes.nil]) with ⟨h1, h2⟩ | ⟨j, size, h1, hs1, hs2, hsp, hsz, hns⟩
  · rw [h1]
    exact ⟨s, by simp, h2, Or.inl rfl⟩
  · rw [h1]
    simp only
    have hne : s.take (j + size) ≠ [] := by
      intro e
      have := congrArg List.length e
      simp only [List.length_take, List.length_nil] at this
      omega
    have htl : (s.take (j + size)).length = j + size := by
      simp only [List.length_take]; omega
    have hcases := DecodeLastRune_cases (s.take (j + size)) hne
    rw [htl, hsz] at hcases
    -- the result is `s[0 : j + size]`
    have hres : (if s.getD j 0 ≥ RuneSelf then s.take (j + (DecodeRune (s.drop j)).2)
        else s.take (j + 1)) = s.take (j + size) := by
      rcases hcases with ⟨h1, _, h3⟩ | ⟨h1, _, h3⟩ | ⟨h1, _, h3⟩
      · subst h1
        rw [show j + 1 - 1 = j by omega, getD_take s (j + 1) j (by omega)] at h3
        rw [if_neg (by unfold RuneSelf; omega)]
      · subst h1
        rw [show j + 1 - 1 = j by omega, getD_take s (j + 1) j (by omega)] at h3
        rw [if_pos (by unfold RuneSelf; omega)]
        rw [drop_eq_getD_cons s j (by omega), DecodeRune_lone _ _ (SpaceRunes_head hsp)]
      · rw [show j + size - size = j by omega] at h3
        have hw : 2 ≤ (DecodeRune ((s.take (j + size)).drop j)).2 := by rw [h3]; omega
        have hfull : DecodeRune (s.drop j) = DecodeLastRune (s.take (j + size)) := by
          rw [drop_split s j (j + size) (by omega) hs2, DecodeRune_append _ _ hw, h3]
        have hlead : s.getD j 0 ≥ RuneSelf := by
          by_contra hlt
          have hlt : s.getD j 0 < 0x80 := by unfold RuneSelf at hlt; omega
          have := DecodeRune_ascii (s.getD j 0) (s.drop (j + 1)) hlt
          rw [← drop_eq_getD_cons s j (by omega), hfull] at this
          rw [this] at hsz
          simp only at hsz
          omega
        rw [if_pos hlead, hfull, hsz]
    rw [hres]
    exact ⟨s.drop (j + size), (List.take_append_drop _ _).symm, hsp, Or.inr hns⟩

/-! ## `strings.TrimSpace` -/

theorem DecodeLastRune_ascii (p : Bytes) (hp : p ≠ []) (h : p.getD (p.length - 1) 0 < 0x80) :
    DecodeLastRune p = (p.getD (p.length - 1) 0, 1) := by
  have hlen : 0 < p.length := List.length_pos.mpr hp
  unfold DecodeLastRune
  simp only
  rw [if_neg (by omega), if_pos (by unfold RuneSelf; exact h)]

/-- Cutting bytes off the end of a string that does not start with a white space rune
leaves a string that does not start with one either. -/
theorem front_of_append (t suf : Bytes)
    (h : t ++ suf = [] ∨ IsSpace (DecodeRune (t ++ suf)).1 = false) :
    t = [] ∨ IsSpace (DecodeRune t).1 = false := by
  cases t with
  | nil => exact Or.inl rfl
  | cons c rest =>
    right
    rcases h with h | h
    · simp at h
    · by_contra hsp
      simp only [Bool.not_eq_false] at hsp
      have hsz := DecodeRune_size c rest
      by_cases h2 : 2 ≤ (DecodeRune (c :: rest)).2
      · rw [DecodeRune_append _ _ h2, hsp] at h
        cases h
      · have hw : (DecodeRune (c :: rest)).2 = 1 := by omega
        by_cases hc : c < 0x80
        · rw [List.cons_append, DecodeRune_ascii c _ hc] at h
          rw [DecodeRune_ascii c rest hc] at hsp
          rw [hsp] at h
          cases h
        · have := DecodeRune_width_one c rest (by omega) hw
          rw [this] at hsp
          exact IsSpace_ne_error hsp rfl

theorem trimSpaceStop_spec (s : Bytes) : ∀ (n : Nat), n ≤ s.length → SpaceRunes (s.drop n) →
    ∃ suf, s = trimSpaceStop s n ++ suf ∧ SpaceRunes suf
      ∧ (trimSpaceStop s n = [] ∨ IsSpace (DecodeLastRune (trimSpaceStop s n)).1 = false)
  | 0, _, hsp => ⟨s, by simp [trimSpaceStop], by simpa using hsp, Or.inl (by simp [trimSpaceStop])⟩
  | n + 1, hn, hsp => by
    unfold trimSpaceStop
    simp only
    by_cases h1 : s.getD n 0 ≥ RuneSelf
    · rw [if_pos h1]
      obtain ⟨suf, e, h2, h3⟩ := TrimRightFunc_space (s.take (n + 1))
      refine ⟨suf ++ s.drop (n + 1), ?_, SpaceRunes_append h2 hsp, h3⟩
      rw [← List.append_assoc, ← e, List.take_append_drop]
    · rw [if_neg h1]
      have hlt : s.getD n 0 < 0x80 := by unfold RuneSelf at h1; omega
      by_cases h2 : asciiSpace (s.getD n 0) = true
      · rw [if_pos h2]
        apply trimSpaceStop_spec s n (by omega)
        rw [drop_eq_getD_cons s n (by omega)]
        exact SpaceRunes_append (SpaceRunes_ascii hlt h2) hsp
      · rw [if_neg h2]
        refine ⟨s.drop (n + 1), (List.take_append_drop _ _).symm, hsp, Or.inr ?_⟩
        have hne : s.take (n + 1) ≠ [] := by
          intro e
          have := congrArg List.length e
          simp only [List.length_take, List.length_nil] at this
          omega
        have htl : (s.take (n + 1)).length = n + 1 := by
          simp only [List.length_take]; omega
        have hg : (s.take (n + 1)).getD ((s.take (n + 1)).length - 1) 0 = s.getD n 0 := by
          rw [htl, show n + 1 - 1 = n by omega, getD_take s (n + 1) n (by omega)]
        rw [DecodeLastRune_ascii _ hne (by rw [hg]; exact hlt), hg]
        simp only
        rw [IsSpace_ascii hlt]
        simpa using h2

theorem trimSpaceStart_spec : ∀ (s : Bytes), ∃ pre suf,
    s = pre ++ trimSpaceStart s ++ suf ∧ SpaceRunes pre ∧ SpaceRunes suf
      ∧ (trimSpaceStart s = [] ∨ IsSpace (DecodeRune (trimSpaceStart s)).1 = false)
      ∧ (trimSpaceStart s = [] ∨ IsSpace (DecodeLastRune (trimSpaceStart s)).1 = false)
  | [] => ⟨[], [], rfl, SpaceRunes.nil, SpaceRunes.nil, Or.inl rfl, Or.inl rfl⟩
  | c :: rest => by
    unfold trimSpaceStart
    by_cases h1 : c ≥ RuneSelf
    · rw [if_pos h1]
      unfold TrimFunc
      obtain ⟨pre, e1, hpre, hfront⟩ := TrimLeftFunc_space (c :: rest)
      obtain ⟨suf, e2, hsuf, hback⟩ := TrimRightFunc_space (TrimLeftFunc (c :: rest) IsSpace)
      refine ⟨pre, suf, ?_, hpre, hsuf, ?_, hback⟩
      · rw [List.append_assoc, ← e2, ← e1]
      · apply front_of_append _ suf
        rw [← e2]
        exact hfront
    · rw [if_neg h1]
      have hlt : c < 0x80 := by unfold RuneSelf at h1; omega
      by_cases h2 : asciiSpace c = true
      · rw [if_pos h2]
        obtain ⟨pre, suf, e, hpre, hsuf, hfront, hback⟩ := trimSpaceStart_spec rest
        refine ⟨[c] ++ pre, suf, ?_, SpaceRunes_append (SpaceRunes_ascii hlt h2) hpre, hsuf,
          hfront, hback⟩
        simp only [List.singleton_append, List.cons_append, List.cons.injEq, true_and]
        exact e
      · rw [if_neg h2]
        obtain ⟨suf, e, hsuf, hback⟩ := trimSpaceStop_spec (c :: rest) (rest.length + 1)
          (by simp) (by simp [SpaceRunes.nil])
        refine ⟨[], suf, by simpa using e, SpaceRunes.nil, hsuf, ?_, hback⟩
        apply front_of_append _ suf
        rw [← e]
        right
        rw [DecodeRune_ascii c rest hlt]
        simp only
        rw [IsSpace_ascii hlt]
        simpa using h2

/-- What `strings.TrimSpace` does: it removes a run of white space runes at the start
and one at the end, and what is left is empty or neither starts nor ends with a white
space rune. -/
theorem TrimSpace_spec (s : Bytes) : ∃ pre suf,
    s = pre ++ TrimSpace s ++ suf ∧ SpaceRunes pre ∧ SpaceRunes suf
      ∧ (TrimSpace s = [] ∨ IsSpace (DecodeRune (TrimSpace s)).1 = false)
      ∧ (TrimSpace s = [] ∨ IsSpace (DecodeLastRune (TrimSpace s)).1 = false) :=
  trimSpaceStart_spec s

/-! ## The encodings of the white space runes -/

/-- The white space runes, listed. -/
theorem IsSpace_cases {r : Nat} (h : IsSpace r = true) :
    r = 0x09 ∨ r = 0x0A ∨ r = 0x0B ∨ r = 0x0C ∨ r = 0x0D ∨ r = 0x20 ∨ r = 0x85 ∨ r = 0xA0
      ∨ r = 0x1680 ∨ (0x2000 ≤ r ∧ r ≤ 0x200A) ∨ r = 0x2028 ∨ r = 0x2029 ∨ r = 0x202F
      ∨ r = 0x205F ∨ r = 0x3000 := by
  unfold IsSpace at h
  split at h
  · simp only [Bool.or_eq_true, beq_iff_eq] at h
    omega
  · simp only [Bool.or_eq_true, beq_iff_eq, Bool.and_eq_true, decide_eq_true_eq] at h
    omega

/-- A white space rune is decoded from its encoding, and its encoding is one ASCII
byte or a lead byte followed by continuation bytes. -/
theorem space_encoding {r : Nat} (h : IsSpace r = true) :
    DecodeRune (EncodeRune r) = (r, (EncodeRune r).length)
      ∧ ((EncodeRune r = [r] ∧ r < 0x80)
        ∨ (2 ≤ (EncodeRune r).length ∧ (EncodeRune r).length ≤ 4
            ∧ RuneStart ((EncodeRune r).getD 0 0) = true
            ∧ ∀ i, 1 ≤ i → i < (EncodeRune r).length →
                RuneStart ((EncodeRune r).getD i 0) = false)) := by
  have hc := IsSpace_cases h
  clear h
  rcases hc with rfl | rfl | rfl | rfl | rfl | rfl | rfl | rfl | rfl | ⟨h1, h2⟩
    | rfl | rfl | rfl | rfl | rfl
  any_goals decide
  interval_cases r <;> decide

theorem EncodeRune_ne_nil (r : Nat) : EncodeRune r ≠ [] := by
  obtain ⟨h, t, e, _⟩ := EncodeRune_head r
  rw [e]; simp

theorem DecodeRune_space_append {r : Nat} (h : IsSpace r = true) (rest : Bytes) :
    DecodeRune (EncodeRune r ++ rest) = (r, (EncodeRune r).length) := by
  obtain ⟨hd, hshape | ⟨h2, -, -, -⟩⟩ := space_encoding h
  · rw [hshape.1]
    exact DecodeRune_ascii r rest hshape.2
  · rw [DecodeRune_append _ _ (by rw [hd]; exact h2), hd]

theorem getD_append_right (init enc : Bytes) (i : Nat) :
    (init ++ enc).getD (init.length + i) 0 = enc.getD i 0 := by
  induction init with
  | nil => simp
  | cons a l ih =>
    rw [List.cons_append, List.length_cons, show l.length + 1 + i = (l.length + i) + 1 by omega,
      List.getD_cons_succ]
    exact ih

theorem lastRuneStart_find (p : Bytes) (lim target : Nat) (hlim : lim ≤ target)
    (hstart : RuneStart (p.getD target 0) = true) : ∀ (fuel start : Nat), target < start →
    start - target ≤ fuel →
    (∀ k, target < k → k < start → RuneStart (p.getD k 0) = false) →
    lastRuneStart p lim fuel start = target
  | 0, start, h1, h2, _ => by omega
  | fuel + 1, start, h1, h2, h3 => by
    unfold lastRuneStart
    rw [if_neg (by omega)]
    by_cases ht : start - 1 = target
    · rw [ht, if_pos hstart]
    · have hk := h3 (start - 1) (by omega) (by omega)
      rw [if_neg (by rw [hk]; simp)]
      exact lastRuneStart_find p lim target hlim hstart fuel (start - 1) (by omega) (by omega)
        (fun k hk1 hk2 => h3 k hk1 (by omega))

theorem RuneStart_false {b : Nat} (h : RuneStart b = false) : 0x80 ≤ b := by
  unfold RuneStart at h
  simp only [bne_eq_false_iff_eq] at h
  omega

theorem DecodeLastRune_space_append {r : Nat} (h : IsSpace r = true) (init : Bytes) :
    DecodeLastRune (init ++ EncodeRune r) = (r, (EncodeRune r).length) := by
  obtain ⟨hd, hshape | ⟨h2, h4, hlead, hcont⟩⟩ := space_encoding h
  · rw [hshape.1]
    have hne : init ++ [r] ≠ [] := by simp
    have hlast : (init ++ [r]).getD ((init ++ [r]).length - 1) 0 = r := by
      rw [show (init ++ [r]).length - 1 = init.length + 0 by simp, getD_append_right]
      rfl
    rw [DecodeLastRune_ascii _ hne (by rw [hlast]; exact hshape.2), hlast]
    rfl
  · generalize henc : EncodeRune r = enc at hd h2 h4 hlead hcont
    have hlen : (init ++ enc).length = init.length + enc.length := List.length_append _ _
    have hlastb : (init ++ enc).getD ((init ++ enc).length - 1) 0 = enc.getD (enc.length - 1) 0 := by
      rw [hlen, show init.length + enc.length - 1 = init.length + (enc.length - 1) by omega,
        getD_append_right]
    have hge := RuneStart_false (hcont (enc.length - 1) (by omega) (by omega))
    have hfind : lastRuneStart (init ++ enc) ((init ++ enc).length - UTFMax) UTFMax
        ((init ++ enc).length - 1) = init.length := by
      apply lastRuneStart_find _ _ _ (by rw [hlen]; unfold UTFMax; omega)
      · rw [show init.length = init.length + 0 by omega, getD_append_right]; exact hlead
      · rw [hlen]; omega
      · rw [hlen]; unfold UTFMax; omega
      · intro k hk1 hk2
        rw [hlen] at hk2
        rw [show k = init.length + (k - init.length) by omega, getD_append_right]
        exact hcont _ (by omega) (by omega)
    unfold DecodeLastRune
    simp only
    rw [if_neg (by rw [hlen]; omega), hlastb, if_neg (by unfold RuneSelf; omega), hfind,
      List.drop_left, hd]
    simp only
    rw [if_neg (by rw [hlen]; simp)]

/-- What is left by `strings.TrimSpace` neither starts nor ends with the encoding of a
white space rune. -/
theorem TrimSpace_no_space (s : Bytes) :
    (∀ r rest, IsSpace r = true → TrimSpace s ≠ EncodeRune r ++ rest)
    ∧ (∀ r init, IsSpace r = true → TrimSpace s ≠ init ++ EncodeRune r) := by
  obtain ⟨pre, suf, -, -, -, hfront, hback⟩ := TrimSpace_spec s
  constructor
  · intro r rest hr e
    rcases hfront with h | h
    · rw [h] at e
      exact EncodeRune_ne_nil r (List.append_eq_nil.mp e.symm).1
    · rw [e, DecodeRune_space_append hr, hr] at h
      cases h
  · intro r init hr e
    rcases hback with h | h
    · rw [h] at e
      exact EncodeRune_ne_nil r (List.append_eq_nil.mp e.symm).2
    · rw [e, DecodeLastRune_space_append hr, hr] at h
      cases h

/-- C3. A response whose status is not 200 and whose readable body does not decode
into `{error: string}` makes `executeRequest` fail with the body text, white space
trimmed, as message: the message is what `strings.TrimSpace` makes of the body, that
is the body without a run of white space runes at its start and one at its end, and
it neither starts nor ends with a white space rune. -/
theorem executeRequest_text_error (c : Client) (method path : Bytes) (d : Destination)
    (body : Option Bytes) (req : Request) (res : Response)
    (hreq : NewRequest method path body = Except.ok req)
    (hdo : c.Do (withContentType req body) = Except.ok res)
    (hstatus : res.StatusCode ≠ 200)
    (hread : res.Body.ending = Ending.eof)
    (hjson : UnmarshalErrorResponse res.Body.data = none) :
    (c.executeRequest method path d body).err
        = some (GoError.errorString (TrimSpace res.Body.data))
      ∧ (c.executeRequest method path d body).err.map GoError.Error
        = some (TrimSpace res.Body.data)
      ∧ (∃ pre suf, res.Body.data = pre ++ TrimSpace res.Body.data ++ suf
          ∧ SpaceRunes pre ∧ SpaceRunes suf)
      ∧ (∀ r rest, IsSpace r = true → TrimSpace res.Body.data ≠ EncodeRune r ++ rest)
      ∧ (∀ r init, IsSpace r = true → TrimSpace res.Body.data ≠ init ++ EncodeRune r) := by
  have h := (executeRequest_status_error c method path d body req res hreq hdo hstatus).1
  rw [getErrorFromResponse_text res hread hjson] at h
  rw [h]
  obtain ⟨pre, suf, e, hpre, hsuf, -, -⟩ := TrimSpace_spec res.Body.data
  exact ⟨rfl, rfl, ⟨pre, suf, e, hpre, hsuf⟩, (TrimSpace_no_space res.Body.data).1,
    (TrimSpace_no_space res.Body.data).2⟩

/-- C3, the example of the specification: status 500 with the body `internal failure`
and a newline gives an error whose message is exactly `internal failure`. -/
theorem executeRequest_text_error_witness :
    ((mockClient [] 500 [ofString "internal failure\n"] Ending.eof).executeRequest
        (ofString "GET") (ofString "https://api.shodan.io/api-info?key=k")
        (Destination.writer { written := [], room := none }) none).err.map GoError.Error
      = some (ofString "internal failure") :=
  (executeRequest_text_error
    (mockClient [] 500 [ofString "internal failure\n"] Ending.eof)
    (ofString "GET") (ofString "https://api.shodan.io/api-info?key=k")
    (Destination.writer { written := [], room := none }) none
    { Method := ofString "GET",
      URL := { Scheme := ofString "https", Hier := ofString "//api.shodan.io/api-info",
               ForceQuery := false, RawQuery := ofString "key=k", Fragment := [] },
      Body := none, Header := [] }
    { StatusCode := 500,
      Body := { pieces := [ofString "internal failure\n"], ending := Ending.eof } }
    rfl rfl (by decide) rfl (by decide)).2.1.trans (by decide)

/-! ## The claims on concrete inputs -/

/-- C1 on concrete transports: status 204 is an error like any status other than 200,
and a failing transport has its error returned as it is, no body being read. -/
theorem sendRequest_contract_witness :
    ((mockClient [] 204 [] Ending.eof).sendRequest (ofString "GET")
          (ofString "https://api.shodan.io/api-info?key=k") none).res = none
    ∧ ((mockClient [] 204 [] Ending.eof).sendRequest (ofString "GET")
          (ofString "https://api.shodan.io/api-info?key=k") none).err.isSome = true
    ∧ ((failingClient (GoError.lib (ofString "dial tcp: connection refused"))).sendRequest
          (ofString "GET") (ofString "https://api.shodan.io/api-info?key=k") none).err
        = some (GoError.lib (ofString "dial tcp: connection refused"))
    ∧ ((failingClient (GoError.lib (ofString "dial tcp: connection refused"))).sendRequest
          (ofString "GET") (ofString "https://api.shodan.io/api-info?key=k") none).trace = [] :=
  ⟨((sendRequest_contract (mockClient [] 204 [] Ending.eof) (ofString "GET")
        (ofString "https://api.shodan.io/api-info?key=k") none).2.1
      { Method := ofString "GET",
        URL := { Scheme := ofString "https", Hier := ofString "//api.shodan.io/api-info",
                 ForceQuery := false, RawQuery := ofString "key=k", Fragment := [] },
        Body := none, Header := [] }
      { StatusCode := 204, Body := { pieces := [], ending := Ending.eof } }
      rfl rfl (by decide)).1,
   ((sendRequest_contract (mockClient [] 204 [] Ending.eof) (ofString "GET")
        (ofString "https://api.shodan.io/api-info?key=k") none).2.1
      { Method := ofString "GET",
        URL := { Scheme := ofString "https", Hier := ofString "//api.shodan.io/api-info",
                 ForceQuery := false, RawQuery := ofString "key=k", Fragment := [] },
        Body := none, Header := [] }
      { StatusCode := 204, Body := { pieces := [], ending := Ending.eof } }
      rfl rfl (by decide)).2,
   ((sendRequest_contract (failingClient (GoError.lib (ofString "dial tcp: connection refused")))
        (ofString "GET") (ofString "https://api.shodan.io/api-info?key=k") none).2.2
      { Method := ofString "GET",
        URL := { Scheme := ofString "https", Hier := ofString "//api.shodan.io/api-info",
                 ForceQuery := false, RawQuery := ofString "key=k", Fragment := [] },
        Body := none, Header := [] }
      (GoError.lib (ofString "dial tcp: connection refused")) rfl rfl).2.1,
   ((sendRequest_contract (failingClient (GoError.lib (ofString "dial tcp: connection refused")))
        (ofString "GET") (ofString "https://api.shodan.io/api-info?key=k") none).2.2
      { Method := ofString "GET",
        URL := { Scheme := ofString "https", Hier := ofString "//api.shodan.io/api-info",
                 ForceQuery := false, RawQuery := ofString "key=k", Fragment := [] },
        Body := none, Header := [] }
      (GoError.lib (ofString "dial tcp: connection refused")) rfl rfl).2.2⟩

/-- C6 on a body that is not JSON, cut into two reads: the sink receives exactly its
bytes and no decoder runs. -/
theorem parseResponse_writer_copies_witness :
    writesOf ((mockClient [] 200 [] Ending.eof).parseResponse
        (Destination.writer { written := [], room := none })
        { pieces := [ofString "\x7bnot json", [0, 255, 10]], ending := Ending.eof }).trace
      = ofString "\x7bnot json" ++ [0, 255, 10]
    ∧ Event.jsonDecode ∉ ((mockClient [] 200 [] Ending.eof).parseResponse
        (Destination.writer { written := [], room := none })
        { pieces := [ofString "\x7bnot json", [0, 255, 10]], ending := Ending.eof }).trace :=
  ⟨(parseResponse_writer_copies (mockClient [] 200 [] Ending.eof) []
      [ofString "\x7bnot json", [0, 255, 10]]).1.2.2.1.trans (by decide),
   (parseResponse_writer_copies (mockClient [] 200 [] Ending.eof) []
      [ofString "\x7bnot json", [0, 255, 10]]).1.2.2.2⟩

/-- C9 on a concrete refusal: status 401 returns the error of the body and starts no
goroutine. -/
theorem executeStreamRequest_handshake_witness :
    ((mockClient [] 401 [ofString "\x7b\"error\":\"invalid key\"\x7d"]
          Ending.eof).executeStreamRequest (ofString "GET")
        (ofString "https://stream.shodan.io/shodan/banners?key=k")
        { closed := false, delivered := [] }).err
      = some (GoError.errorString (ofString "invalid key"))
    ∧ ((mockClient [] 401 [ofString "\x7b\"error\":\"invalid key\"\x7d"]
          Ending.eof).executeStreamRequest (ofString "GET")
        (ofString "https://stream.shodan.io/shodan/banners?key=k")
        { closed := false, delivered := [] }).task = none :=
  ⟨((executeStreamRequest_handshake
        (mockClient [] 401 [ofString "\x7b\"error\":\"invalid key\"\x7d"] Ending.eof)
        (ofString "GET") (ofString "https://stream.shodan.io/shodan/banners?key=k")
        { closed := false, delivered := [] }).2.2.1
      { Method := ofString "GET",
        URL := { Scheme := ofString "https", Hier := ofString "//stream.shodan.io/shodan/banners",
                 ForceQuery := false, RawQuery := ofString "key=k", Fragment := [] },
        Body := none, Header := [] }
      { StatusCode := 401,
        Body := { pieces := [ofString "\x7b\"error\":\"invalid key\"\x7d"],
                  ending := Ending.eof } }
      rfl rfl (by decide)).1.trans (by decide),
   ((executeStreamRequest_handshake
        (mockClient [] 401 [ofString "\x7b\"error\":\"invalid key\"\x7d"] Ending.eof)
        (ofString "GET") (ofString "https://stream.shodan.io/shodan/banners?key=k")
        { closed := false, delivered := [] }).2.2.1
      { Method := ofString "GET",
        URL := { Scheme := ofString "https", Hier := ofString "//stream.shodan.io/shodan/banners",
                 ForceQuery := false, RawQuery := ofString "key=k", Fragment := [] },
        Body := none, Header := [] }
      { StatusCode := 401,
        Body := { pieces := [ofString "\x7b\"error\":\"invalid key\"\x7d"],
                  ending := Ending.eof } }
      rfl rfl (by decide)).2⟩

end Shodan
